import Mathlib

/-!
Verification development for the CSAPP malloc-lab allocator (src/mm.c).

The allocator manages a contiguous heap of blocks.  An allocated block is a
4-byte header followed by payload; a free block additionally carries two
4-byte link fields and a trailing footer, and is registered in one of 32
segregated free lists kept in ascending size order.

We embed the allocator at block granularity: the heap is a list of blocks
(size in bytes, allocated flag, payload bytes), laid out contiguously from
address FIRST (the first usable address after the 32 list sentinels that
mm_init reserves).  The segregated-list directory is a list of 32 buckets,
each a list of free-block addresses in insertion/сsize order, exactly as the
linked structure in mm.c maintains it.  Machine loops (the power-of-two
rounding loop, the bucket-selection loop) are translated with explicit fuel
so that every definition is executable and kernel-reducible.

A second, word-level model (mem : Int -> Int mapping each address to the
32-bit word stored there) embeds the boundary-tag validator prev_block,
whose plausibility checks are inherently byte-level.
-/

namespace MallocLab

/-! ## Size arithmetic (macros and rounding loops of mm.c) -/

/-- ALIGN_FOR_BLOCK of mm.c line 64: a size below ALIGNMENT (8) becomes
ALIGNMENT << 1 = 16; otherwise header (4) is added and the result is rounded
up to a multiple of 8 via the mask with SIZEMASK. -/
def alignForBlock (s : Nat) : Nat :=
  if s < 8 then 16 else (s + 4 + 8 - 1) / 8 * 8

/-- Fuel-based translation of the rounding loop in mm_malloc lines 163-166
and mm_realloc lines 243-246: temp starts at 1 and doubles while temp < s.
The fuel argument only bounds the iteration count; fuel s suffices. -/
def round2Loop : Nat → Nat → Nat → Nat
  | 0, _, temp => temp
  | fuel + 1, s, temp => if temp < s then round2Loop fuel s (temp * 2) else temp

/-- Round a requested size up to the nearest power of two (the int temp loop). -/
def round2 (s : Nat) : Nat := round2Loop s s 1

/-- Loop body of search_free_list (mm.c lines 358-372): while order > 1 and
list_num < LIST_TOTAL (32), halve order and advance list_num. -/
def searchLoopC : Nat → Nat → Nat → Nat
  | 0, _, n => n
  | fuel + 1, order, n =>
    if 1 < order ∧ n < 32 then searchLoopC fuel (order / 2) (n + 1) else n

/-- search_free_list as a 1-based bucket number: order starts at size >> 4,
list_num at 1.  Fuel 32 dominates the n < 32 guard. -/
def searchIdx (s : Nat) : Nat := searchLoopC 32 (s / 16) 1

/-! ## Block-level heap model -/

/-- One heap block: total size in bytes (header included), allocated flag,
and the tracked prefix of the payload bytes (at most size - 4 of them).
Payload bytes beyond the tracked prefix are junk: never written by a copy
and never promised to the client.  Free blocks reuse their payload area
for links and footer, so nothing is tracked for them. -/
structure Blk where
  size : Nat
  alloc : Bool
  data : List Nat
deriving Repr, DecidableEq

/-- Allocator state: the contiguous heap blocks in address order, the 32
segregated-list buckets (lists of free-block addresses), and whether the
heap-growth collaborator mem_sbrk will succeed. -/
structure AState where
  blocks : List Blk
  dir : List (List Nat)
  sbrkOk : Bool
deriving Repr, DecidableEq

/-- Address of the first block: mm_init reserves
(2*4*32 + 4 + 7) & ~7 - 4 = 260 bytes for the 32 list sentinels,
so the first block lives at offset 260 from the heap base. -/
def FIRST : Nat := 260

/-- Total size in bytes of a run of blocks. -/
def sizeSum (bs : List Blk) : Nat := (bs.map (fun b => b.size)).sum

/-- Address of block number i (prefix sum of sizes from FIRST). -/
def addrAt (bs : List Blk) (i : Nat) : Nat := FIRST + sizeSum (bs.take i)

/-- One past the last heap address (mem_heap_hi() + 1). -/
def heapEnd (bs : List Blk) : Nat := FIRST + sizeSum bs

/-- Index of the block that starts at address a, walking the heap with a
running base address (pointer arithmetic of NEXT_BLOCK). -/
def idxAt? : List Blk → Nat → Nat → Option Nat
  | [], _, _ => none
  | b :: bs, base, a =>
    if a = base then some 0 else (idxAt? bs (base + b.size) a).map (· + 1)

/-- Block starting at address a, if any. -/
def blockAt? (bs : List Blk) (base a : Nat) : Option Blk :=
  (idxAt? bs base a).bind fun i => bs.get? i

/-- BLOCK_SIZE read through an address; 0 when no block starts there
(a zeroed sentinel word reads as size 0). -/
def sizeAt (bs : List Blk) (a : Nat) : Nat :=
  (blockAt? bs FIRST a).elim 0 fun b => b.size

/-- True when a block starts at address a and its header is marked free. -/
def freeAt (bs : List Blk) (a : Nat) : Bool :=
  (blockAt? bs FIRST a).elim false fun b => !b.alloc

/-- Bucket j (0-based) of the segregated-list directory. -/
def bucket (st : AState) (j : Nat) : List Nat := st.dir.getD j []

/-- Fresh free block of a given total size (FREE_HEADER writes header and
footer; the payload area holds links, footer and junk, none tracked). -/
def mkFree (sz : Nat) : Blk := ⟨sz, false, []⟩

/-- Replace the block run [i, k) by the blocks nb (heap surgery; every
update the allocator performs is of this shape). -/
def spliceRun (bs : List Blk) (i k : Nat) (nb : List Blk) : List Blk :=
  bs.take i ++ nb ++ bs.drop k

/-- remove_from_list (mm.c lines 415-426): unlink a free block from the
bucket search_free_list selects for its current size.  The C code splices
via the stored prev/next offsets; on a well-formed list this removes the
single occurrence of the address from that bucket. -/
def removeFromList (st : AState) (a : Nat) : AState :=
  let j := searchIdx (sizeAt st.blocks a) - 1
  { st with dir := st.dir.set j ((bucket st j).erase a) }

/-- Insertion walk of insert_into_list (mm.c lines 383-409): insert the new
address before the first entry whose block size is at least as large. -/
def bucketInsert (bs : List Blk) (a : Nat) : List Nat → List Nat
  | [] => [a]
  | x :: xs =>
    if sizeAt bs a ≤ sizeAt bs x then a :: x :: xs else x :: bucketInsert bs a xs

/-- insert_into_list (mm.c lines 377-410): file the free block at address a
into the bucket chosen by search_free_list for its size, keeping the bucket
in ascending size order. -/
def insertIntoList (st : AState) (a : Nat) : AState :=
  let j := searchIdx (sizeAt st.blocks a) - 1
  { st with dir := st.dir.set j (bucketInsert st.blocks a (bucket st j)) }

/-- split_block (mm.c lines 307-317): if newsize < oldsize - ALIGNMENT
(over ints, i.e. newsize + 8 < oldsize) the front newsize bytes become an
allocated block and the remainder a fresh free block inserted into the
directory; otherwise the whole block is marked allocated. -/
def splitBlock (st : AState) (i ns : Nat) : AState :=
  match st.blocks.get? i with
  | none => st
  | some b =>
    if ns + 8 < b.size then
      let nbs := spliceRun st.blocks i (i + 1) [⟨ns, true, b.data.take (ns - 4)⟩, mkFree (b.size - ns)]
      insertIntoList { st with blocks := nbs } (addrAt st.blocks i + ns)
    else
      { st with blocks := spliceRun st.blocks i (i + 1) [⟨b.size, true, b.data⟩] }

/-- prev_block (mm.c lines 322-353) at block granularity.  At this
granularity the candidate footer exists exactly when the physically
preceding block is free (allocated blocks carry no footer), the
header/footer distance test is the size >= 16 test, the alignment test is
the payload-address test, and the confirmatory scan is membership in the
bucket search_free_list computes from the candidate size.  The word-level
embedding prevBlockW below keeps the raw byte-level checks. -/
def prevBlockB (st : AState) (i : Nat) : Option Nat :=
  match i with
  | 0 => none
  | k + 1 =>
    match st.blocks.get? k with
    | none => none
    | some b =>
      if b.alloc then none
      else if b.size < 16 then none
      else if (addrAt st.blocks k + 4) % 8 ≠ 0 then none
      else if addrAt st.blocks k ∈ bucket st (searchIdx b.size - 1) then some k
      else none

/-- Best-fit scan of mm_malloc lines 173-182: walk the buckets from the one
search_free_list picks for newsize through the last, and inside each bucket
(kept in ascending size order) take the first block whose size suffices.
Sequential search of consecutive buckets is search over their
concatenation. -/
def fitScan (st : AState) (ns : Nat) : Option Nat :=
  ((st.dir.drop (searchIdx ns - 1)).flatten).find? fun a => decide (ns ≤ sizeAt st.blocks a)

/-- Block size mm_malloc computes for a request: power-of-two rounding
below MALLOCBUF (4096), then ALIGN_FOR_BLOCK. -/
def mallocNS (size : Nat) : Nat :=
  alignForBlock (if size < 4096 then round2 size else size)

/-- Block size mm_realloc computes for a request: power-of-two rounding
below REALLOCBUF (256), then ALIGN_FOR_BLOCK. -/
def reallocNS (size : Nat) : Nat :=
  alignForBlock (if size < 256 then round2 size else size)

/-- mm_malloc (mm.c lines 156-191): zero requests fail; sizes below
MALLOCBUF (4096) round to the next power of two; the aligned block size is
served best-fit from the directory, else mem_sbrk provides
max(newsize, MALLOCBUF) fresh bytes which are formatted free and split. -/
def mm_mallocB (st : AState) (size : Nat) : AState × Option Nat :=
  if size = 0 then (st, none) else
  match fitScan st (mallocNS size) with
  | some a =>
    match idxAt? st.blocks FIRST a with
    | none => (st, none)
    | some i => (splitBlock (removeFromList st a) i (mallocNS size), some (a + 4))
  | none =>
    if st.sbrkOk = true then
      (splitBlock { st with blocks := st.blocks ++ [mkFree (max (mallocNS size) 4096)] } st.blocks.length (mallocNS size), some (heapEnd st.blocks + 4))
    else (st, none)

/-- BLOCK_SIZE of the block at index k (0 when out of range). -/
def sizeK (st : AState) (k : Nat) : Nat := (st.blocks.get? k).elim 0 fun c => c.size

/-- IS_WITHIN_HEAP(next) combined with the allocated-bit test of the next
physical block (mm_free line 215, mm_realloc line 258). -/
def nextFreeB (st : AState) (i : Nat) : Bool :=
  match st.blocks.get? (i + 1) with
  | some c => !c.alloc
  | none => false

/-- Body of mm_free (mm.c lines 197-223) once the header address resolved to
block index i holding block b: coalesce with a free predecessor found by
prev_block and with a free successor inside the heap, write the merged
region as one free block, and insert it into the directory.  The four cases
are the four outcomes of the two coalescing tests; remove_from_list does
not touch the heap bytes, so the final FREE_HEADER splice acts on the
original blocks. -/
def freeCore (st : AState) (i : Nat) (b : Blk) : AState :=
  match prevBlockB st i, nextFreeB st i with
  | some k, true =>
    insertIntoList { removeFromList (removeFromList st (addrAt st.blocks k)) (addrAt st.blocks (i + 1)) with blocks := spliceRun st.blocks k (i + 2) [mkFree (sizeK st k + b.size + sizeK st (i + 1))] } (addrAt st.blocks k)
  | some k, false =>
    insertIntoList { removeFromList st (addrAt st.blocks k) with blocks := spliceRun st.blocks k (i + 1) [mkFree (sizeK st k + b.size)] } (addrAt st.blocks k)
  | none, true =>
    insertIntoList { removeFromList st (addrAt st.blocks (i + 1)) with blocks := spliceRun st.blocks i (i + 2) [mkFree (b.size + sizeK st (i + 1))] } (addrAt st.blocks i)
  | none, false =>
    insertIntoList { st with blocks := spliceRun st.blocks i (i + 1) [mkFree b.size] } (addrAt st.blocks i)

/-- mm_free (mm.c lines 197-223): null is a no-op; otherwise resolve the
payload pointer to its block and run the coalescing body. -/
def mm_freeB (st : AState) (p? : Option Nat) : AState :=
  match p? with
  | none => st
  | some p =>
    match idxAt? st.blocks FIRST (p - 4) with
    | none => st
    | some i =>
      match st.blocks.get? i with
      | none => st
      | some b => freeCore st i b

/-- memcpy into the payload of the block at address a: the first src.length
payload bytes are overwritten, the rest keep their previous content. -/
def copyInto (st : AState) (a : Nat) (src : List Nat) : AState :=
  match idxAt? st.blocks FIRST a with
  | none => st
  | some i =>
    match st.blocks.get? i with
    | none => st
    | some c =>
      { st with blocks := spliceRun st.blocks i (i + 1) [⟨c.size, c.alloc, src ++ c.data.drop src.length⟩] }

/-- Case chain of mm_realloc (mm.c lines 249-295) for a live block b at
index i with payload pointer p, after the request has been rounded to
size1.  Cases in order: (1) the aligned size already fits the payload;
(2) absorb a free successor; (3) absorb free predecessor and successor,
moving the payload down (memmove copies oldsize bytes, header included, so
the payload bytes land intact at the new payload address); (4) absorb a
free predecessor; (5) last block in heap: extend by
ALIGN_FOR_BLOCK(newsize - oldsize) in place; (6) allocate, copy the old
payload, free.  Growth paths keep the slack (no re-split); junk bytes that
enter a payload from absorbed metadata are modeled as zeros. -/
def reallocCore (st : AState) (p i : Nat) (b : Blk) (size : Nat) : AState × Option Nat :=
  if reallocNS size + 4 ≤ b.size then (st, some p)
  else if nextFreeB st i = true ∧ reallocNS size ≤ sizeK st (i + 1) + b.size then
    ({ removeFromList st (addrAt st.blocks (i + 1)) with blocks := spliceRun st.blocks i (i + 2) [⟨b.size + sizeK st (i + 1), true, b.data⟩] }, some p)
  else if nextFreeB st i = true ∧ (prevBlockB st i).isSome = true ∧ 256 < sizeK st (i - 1) ∧ reallocNS size ≤ sizeK st (i - 1) + b.size + sizeK st (i + 1) then
    ({ removeFromList (removeFromList st (addrAt st.blocks (i - 1))) (addrAt st.blocks (i + 1)) with blocks := spliceRun st.blocks (i - 1) (i + 2) [⟨sizeK st (i - 1) + b.size + sizeK st (i + 1), true, b.data⟩] }, some (addrAt st.blocks (i - 1) + 4))
  else if (prevBlockB st i).isSome = true ∧ 256 < sizeK st (i - 1) ∧ reallocNS size ≤ sizeK st (i - 1) + b.size then
    ({ removeFromList st (addrAt st.blocks (i - 1)) with blocks := spliceRun st.blocks (i - 1) (i + 1) [⟨sizeK st (i - 1) + b.size, true, b.data⟩] }, some (addrAt st.blocks (i - 1) + 4))
  else if (st.blocks.get? (i + 1)).isNone = true then
    if st.sbrkOk = true then
      ({ st with blocks := spliceRun st.blocks i (i + 1) [⟨b.size + alignForBlock (reallocNS size - b.size), true, b.data⟩] }, some p)
    else (st, none)
  else
    match mm_mallocB st (reallocNS size) with
    | (st1, none) => (st1, none)
    | (st1, some q) => (mm_freeB (copyInto st1 (q - 4) (b.data.take (b.size - 4))) (some p), some q)

/-- mm_realloc (mm.c lines 232-296): a null pointer degrades to mm_malloc,
a zero size degrades to mm_free returning null; otherwise sizes below
REALLOCBUF (256) round to the next power of two and the case chain runs. -/
def mm_reallocB (st : AState) (p? : Option Nat) (size : Nat) : AState × Option Nat :=
  match p? with
  | none => mm_mallocB st size
  | some p =>
    if size = 0 then (mm_freeB st (some p), none) else
    match idxAt? st.blocks FIRST (p - 4) with
    | none => (st, none)
    | some i =>
      match st.blocks.get? i with
      | none => (st, none)
      | some b => reallocCore st p i b size

/-- mm_init (mm.c lines 134-149): the sentinel area is zeroed (all buckets
empty), and the heap is primed with mm_free(mm_malloc(MALLOCBUF)). -/
def initState : AState :=
  let r := mm_mallocB ⟨[], List.replicate 32 [], true⟩ 4096
  mm_freeB r.1 r.2

/-! ## Invariants and reachability -/

/-- Every block size is a positive multiple of 8 of at least minimum block
size 16 (ALIGN_FOR_BLOCK never yields less, and split remainders keep it). -/
def sizesOK (bs : List Blk) : Prop := ∀ b ∈ bs, b.size % 8 = 0 ∧ 16 ≤ b.size

/-- Payload bookkeeping: the tracked prefix fits in the payload area. -/
def dataOK (bs : List Blk) : Prop := ∀ b ∈ bs, b.data.length + 4 ≤ b.size

/-- No two physically adjacent blocks are both free (eager coalescing). -/
def adjOK (bs : List Blk) : Prop :=
  List.Chain' (fun x y => x.alloc = true ∨ y.alloc = true) bs

/-- Every directory entry is the address of a free block filed in the
bucket search_free_list computes from its size. -/
def dirSound (st : AState) : Prop :=
  ∀ j < 32, ∀ a ∈ bucket st j,
    freeAt st.blocks a = true ∧ searchIdx (sizeAt st.blocks a) = j + 1

/-- Every free block appears in its bucket. -/
def dirComplete (st : AState) : Prop :=
  ∀ i, (h : i < st.blocks.length) → (st.blocks.get ⟨i, h⟩).alloc = false →
    addrAt st.blocks i ∈ bucket st (searchIdx (st.blocks.get ⟨i, h⟩).size - 1)

/-- No bucket lists an address twice. -/
def dirNodup (st : AState) : Prop := ∀ j < 32, (bucket st j).Nodup

/-- Each bucket is in ascending size order. -/
def dirSorted (st : AState) : Prop :=
  ∀ j < 32, (bucket st j).Pairwise fun a c => sizeAt st.blocks a ≤ sizeAt st.blocks c

/-- Global allocator invariant. -/
def Inv (st : AState) : Prop :=
  st.dir.length = 32 ∧ sizesOK st.blocks ∧ dataOK st.blocks ∧ adjOK st.blocks ∧
    dirSound st ∧ dirComplete st ∧ dirNodup st ∧ dirSorted st

/-- Invariant with a set of detached free blocks: during an operation some
free blocks have been unlinked from the directory (their addresses are
listed in ex) but not yet rewritten or reinserted.  Directory entries must
avoid ex, and free blocks at addresses in ex are excused from the
completeness requirement. -/
def InvExc (st : AState) (ex : List Nat) : Prop :=
  st.dir.length = 32 ∧ sizesOK st.blocks ∧ dataOK st.blocks ∧ adjOK st.blocks ∧
  (∀ j < 32, ∀ a ∈ bucket st j,
    a ∉ ex ∧ freeAt st.blocks a = true ∧ searchIdx (sizeAt st.blocks a) = j + 1) ∧
  (∀ i, (h : i < st.blocks.length) → (st.blocks.get ⟨i, h⟩).alloc = false →
    addrAt st.blocks i ∉ ex →
    addrAt st.blocks i ∈ bucket st (searchIdx (st.blocks.get ⟨i, h⟩).size - 1)) ∧
  dirNodup st ∧ dirSorted st

instance decSizesOK (l : List Blk) : Decidable (sizesOK l) :=
  inferInstanceAs (Decidable (∀ b ∈ l, b.size % 8 = 0 ∧ 16 ≤ b.size))

instance decDataOK (l : List Blk) : Decidable (dataOK l) :=
  inferInstanceAs (Decidable (∀ b ∈ l, b.data.length + 4 ≤ b.size))

/-- Executable check for adjOK. -/
def adjChk : List Blk → Bool
  | [] => true
  | [_] => true
  | x :: y :: m => (x.alloc || y.alloc) && adjChk (y :: m)

instance decAdjOK (l : List Blk) : Decidable (adjOK l) :=
  decidable_of_iff (adjChk l = true) (by
    induction l with
    | nil => simp [adjChk, adjOK]
    | cons x l ih =>
      cases l with
      | nil => simp [adjChk, adjOK]
      | cons y m =>
        show ((x.alloc || y.alloc) && adjChk (y :: m)) = true ↔ _
        rw [Bool.and_eq_true, Bool.or_eq_true, ih]
        unfold adjOK
        rw [List.chain'_cons])

instance decDirSound (st : AState) : Decidable (dirSound st) :=
  inferInstanceAs (Decidable (∀ j < 32, ∀ a ∈ bucket st j,
    freeAt st.blocks a = true ∧ searchIdx (sizeAt st.blocks a) = j + 1))

instance decDirComplete (st : AState) : Decidable (dirComplete st) :=
  inferInstanceAs (Decidable (∀ i, (h : i < st.blocks.length) →
    (st.blocks.get ⟨i, h⟩).alloc = false →
    addrAt st.blocks i ∈ bucket st (searchIdx (st.blocks.get ⟨i, h⟩).size - 1)))

instance decDirNodup (st : AState) : Decidable (dirNodup st) :=
  inferInstanceAs (Decidable (∀ j < 32, (bucket st j).Nodup))

instance decDirSorted (st : AState) : Decidable (dirSorted st) :=
  inferInstanceAs (Decidable (∀ j < 32,
    (bucket st j).Pairwise fun a c => sizeAt st.blocks a ≤ sizeAt st.blocks c))

instance decInv (st : AState) : Decidable (Inv st) :=
  inferInstanceAs (Decidable (st.dir.length = 32 ∧ sizesOK st.blocks ∧ dataOK st.blocks ∧
    adjOK st.blocks ∧ dirSound st ∧ dirComplete st ∧ dirNodup st ∧ dirSorted st))

/-- A pointer the client may legally pass to mm_free / mm_realloc: null, or
the payload address of a currently allocated block. -/
def ValidPtr (st : AState) (p? : Option Nat) : Prop :=
  p? = none ∨ ∃ i b, st.blocks.get? i = some b ∧ b.alloc = true ∧
    p? = some (addrAt st.blocks i + 4)

/-- Heap states reachable from mm_init by legal allocate / free / reallocate
calls; the heap-growth collaborator may start failing at any point. -/
inductive Reachable : AState → Prop where
  | init : Reachable initState
  | toggle (st : AState) (b : Bool) : Reachable st → Reachable { st with sbrkOk := b }
  | stepMalloc (st : AState) (s : Nat) : Reachable st → Reachable (mm_mallocB st s).1
  | stepFree (st : AState) (p? : Option Nat) : Reachable st → ValidPtr st p? →
      Reachable (mm_freeB st p?)
  | stepRealloc (st : AState) (p? : Option Nat) (s : Nat) : Reachable st → ValidPtr st p? →
      Reachable (mm_reallocB st p? s).1

/-! ## Word-level embedding of prev_block (mm.c lines 322-353)

Memory is a map from (4-byte aligned) addresses to the 32-bit word stored
at that address, as signed values.  The int32 mask operations of mm.c act
on the word read. -/

/-- BLOCK_SIZE(ptr) = *(int32_t*)ptr & ~0x7: clear the low 3 bits of the
stored word (two-complement AND with -8 floors to a multiple of 8). -/
def bsizeW (m : Int → Int) (p : Int) : Int := m p - m p % 8

/-- IS_SET(ptr) = (*(int32_t*)ptr & 0x7) == 0x1. -/
def isSetW (m : Int → Int) (p : Int) : Bool := m p % 8 == 1

/-- NEXT_FREE_BLOCK(ptr) = ptr + *(int32_t*)(ptr + 4). -/
def nextFreeW (m : Int → Int) (p : Int) : Int := p + m (p + 4)

/-- IS_END(ptr): the next-offset field is zero. -/
def isEndW (m : Int → Int) (p : Int) : Bool := m (p + 4) == 0

/-- Confirmatory scan of prev_block lines 345-350: walk the free list from
cur looking for the target address, stopping at the self-link end marker.
Fuel bounds the walk (the C loop trusts list well-formedness). -/
def scanListW (m : Int → Int) (tgt : Int) : Nat → Int → Bool
  | 0, _ => false
  | fuel + 1, cur =>
    if cur == tgt then true
    else if isEndW m cur then false
    else scanListW m tgt fuel (nextFreeW m cur)

/-- search_free_list at the word level: the returned head pointer is
headA + 8 * (list_num - 1) where list_num is the loop result on
size >> 4.  Sizes reaching this function are positive (prev_block has
already checked the distance test). -/
def searchHeadW (headA : Int) (size : Int) : Int :=
  headA + 8 * ((searchIdx size.toNat : Int) - 1)

/-- prev_block (mm.c lines 322-353): read the word before blkptr as a
candidate footer and accept the predecessor only if every plausibility
check passes and the confirmatory bucket scan finds the computed header
address.  firstA is the global first, headA the sentinel base. -/
def prevBlockW (m : Int → Int) (firstA headA blk : Int) (fuel : Nat) : Option Int :=
  let footer := blk - 4
  let fsz := bsizeW m footer
  let header := blk - fsz
  if isSetW m footer then none
  else if header < firstA then none
  else if footer - 4 * 3 < header then none
  else if (header + 4) % 8 ≠ 0 then none
  else if bsizeW m header ≠ fsz then none
  else if isSetW m header then none
  else if scanListW m header fuel (nextFreeW m (searchHeadW headA fsz)) then some header
  else none

/-- Conjunction of the six plausibility tests of prev_block lines 335-340,
in source order: footer allocated-bit clear, computed header inside the
heap, header and footer at least three header widths apart, header obeys
payload alignment, header size equals footer size, header allocated-bit
clear. -/
def prevChecksW (m : Int → Int) (firstA blk : Int) : Prop :=
  isSetW m (blk - 4) = false ∧
  firstA ≤ blk - bsizeW m (blk - 4) ∧
  blk - bsizeW m (blk - 4) ≤ blk - 4 - 4 * 3 ∧
  (blk - bsizeW m (blk - 4) + 4) % 8 = 0 ∧
  bsizeW m (blk - bsizeW m (blk - 4)) = bsizeW m (blk - 4) ∧
  isSetW m (blk - bsizeW m (blk - 4)) = false

/-! ## Arithmetic lemmas -/

theorem alignForBlock_mod8 (s : Nat) : alignForBlock s % 8 = 0 := by
  unfold alignForBlock
  split
  · rfl
  · exact Nat.mul_mod_left _ 8

theorem alignForBlock_ge16 (s : Nat) : 16 ≤ alignForBlock s := by
  unfold alignForBlock
  split
  · exact le_refl 16
  · rename_i h
    have h8 : 8 ≤ s := Nat.le_of_not_lt h
    have : 19 / 8 * 8 ≤ (s + 4 + 8 - 1) / 8 * 8 :=
      Nat.mul_le_mul_right 8 (Nat.div_le_div_right (by omega))
    omega

theorem alignForBlock_ge (s : Nat) : s ≤ alignForBlock s := by
  unfold alignForBlock
  split
  · omega
  · have h1 := Nat.div_add_mod (s + 11) 8
    have h2 : (s + 11) % 8 < 8 := Nat.mod_lt _ (by omega)
    omega

theorem alignForBlock_of_mod8 (s : Nat) (h8 : s % 8 = 0) (hs : 8 ≤ s) :
    alignForBlock s = s + 8 := by
  unfold alignForBlock
  rw [if_neg (by omega)]
  omega

theorem searchLoopC_closed (fuel order n : Nat) (h1 : 1 ≤ n) (h32 : n ≤ 32)
    (hf : 32 ≤ n + fuel) : searchLoopC fuel order n = min (n + Nat.log2 order) 32 := by
  induction fuel generalizing order n with
  | zero => simp only [searchLoopC]; omega
  | succ fuel ih =>
    simp only [searchLoopC]
    split
    · rename_i h
      rw [ih (order / 2) (n + 1) (by omega) (by omega) (by omega)]
      have hlog : Nat.log2 order = Nat.log2 (order / 2) + 1 := by
        rw [Nat.log2]
        simp only [if_pos (show 2 ≤ order by omega)]
      omega
    · rename_i h
      rcases Decidable.not_and_iff_or_not.mp h with h2 | h2
      · have : order ≤ 1 := by omega
        interval_cases order <;> simp [Nat.log2] <;> omega
      · have hn : n = 32 := by omega
        omega

theorem searchIdx_closed (s : Nat) : searchIdx s = min (1 + Nat.log2 (s / 16)) 32 :=
  searchLoopC_closed 32 (s / 16) 1 (by omega) (by omega) (by omega)

theorem searchIdx_pos (s : Nat) : 1 ≤ searchIdx s := by
  rw [searchIdx_closed]; omega

theorem searchIdx_le32 (s : Nat) : searchIdx s ≤ 32 := by
  rw [searchIdx_closed]; omega

theorem searchIdx_mono {s1 s2 : Nat} (h : s1 ≤ s2) : searchIdx s1 ≤ searchIdx s2 := by
  rw [searchIdx_closed, searchIdx_closed]
  have : Nat.log2 (s1 / 16) ≤ Nat.log2 (s2 / 16) := by
    rw [Nat.log2_eq_log_two, Nat.log2_eq_log_two]
    exact Nat.log_mono_right (Nat.div_le_div_right h)
  omega

theorem lt_of_searchIdx_lt {s1 s2 : Nat} (h : searchIdx s1 < searchIdx s2) : s1 < s2 := by
  by_contra hc
  exact absurd (searchIdx_mono (Nat.le_of_not_lt hc)) (by omega)

/-! ## Heap addressing infrastructure -/

@[simp] theorem sizeSum_nil : sizeSum [] = 0 := rfl

@[simp] theorem sizeSum_cons (b : Blk) (bs : List Blk) :
    sizeSum (b :: bs) = b.size + sizeSum bs := by
  simp [sizeSum]

@[simp] theorem sizeSum_append (l1 l2 : List Blk) :
    sizeSum (l1 ++ l2) = sizeSum l1 + sizeSum l2 := by
  simp [sizeSum]

theorem idxAt?_lt {bs : List Blk} {base a : Nat} (h : a < base) :
    idxAt? bs base a = none := by
  induction bs generalizing base with
  | nil => rfl
  | cons b bs ih =>
    simp only [idxAt?, if_neg (by omega : ¬a = base)]
    rw [ih (by omega)]
    rfl

theorem idxAt?_cons (b : Blk) (bs : List Blk) (base a : Nat) :
    idxAt? (b :: bs) base a =
      if a = base then some 0 else (idxAt? bs (base + b.size) a).map (· + 1) := rfl

theorem idxAt?_append {l1 l2 : List Blk} {base a : Nat} (hpos : ∀ b ∈ l1, 0 < b.size) :
    idxAt? (l1 ++ l2) base a =
      if a < base + sizeSum l1 then idxAt? l1 base a
      else (idxAt? l2 (base + sizeSum l1) a).map (· + l1.length) := by
  induction l1 generalizing base with
  | nil =>
    simp only [List.nil_append, sizeSum_nil, Nat.add_zero, List.length_nil]
    split
    · rename_i h; rw [idxAt?_lt h]; rfl
    · cases idxAt? l2 base a <;> rfl
  | cons b l1 ih =>
    have hb : 0 < b.size := hpos b (by simp)
    rw [List.cons_append, idxAt?_cons, idxAt?_cons]
    by_cases hab : a = base
    · rw [if_pos hab, if_pos (by simp only [sizeSum_cons]; omega), if_pos hab]
    · rw [if_neg hab, if_neg hab, ih (fun c hc => hpos c (by simp [hc]))]
      rw [apply_ite (Option.map fun x => x + 1)]
      simp only [sizeSum_cons, List.length_cons]
      rw [show base + b.size + sizeSum l1 = base + (b.size + sizeSum l1) by omega]
      split
      · rfl
      · rename_i h
        cases idxAt? l2 (base + (b.size + sizeSum l1)) a <;> simp <;> omega

theorem idxAt?_some {bs : List Blk} {base a i : Nat} (h : idxAt? bs base a = some i) :
    i < bs.length ∧ a = base + sizeSum (bs.take i) := by
  induction bs generalizing base i with
  | nil => simp [idxAt?] at h
  | cons b bs ih =>
    rw [idxAt?_cons] at h
    by_cases hab : a = base
    · rw [if_pos hab] at h
      cases h
      refine ⟨by simp, ?_⟩
      simp only [List.take_zero, sizeSum_nil]
      omega
    · rw [if_neg hab] at h
      cases hi : idxAt? bs (base + b.size) a with
      | none => rw [hi] at h; simp at h
      | some i0 =>
        rw [hi] at h
        simp only [Option.map_some'] at h
        obtain ⟨h1, h2⟩ := ih hi
        cases h
        constructor
        · simp only [List.length_cons]; omega
        · simp only [List.take_succ_cons, sizeSum_cons]
          omega

theorem idxAt?_addrAt {bs : List Blk} {base i : Nat} (hpos : ∀ b ∈ bs, 0 < b.size)
    (hi : i < bs.length) : idxAt? bs base (base + sizeSum (bs.take i)) = some i := by
  induction bs generalizing base i with
  | nil => simp at hi
  | cons b bs ih =>
    cases i with
    | zero => simp [idxAt?]
    | succ i =>
      have hb : 0 < b.size := hpos b (by simp)
      simp only [List.take_succ_cons, sizeSum_cons, idxAt?]
      rw [if_neg (by omega)]
      have h9 : idxAt? bs (base + b.size) (base + b.size + sizeSum (bs.take i)) = some i :=
        ih (fun c hc => hpos c (by simp [hc])) (by simpa using hi)
      rw [show base + (b.size + sizeSum (bs.take i)) = base + b.size + sizeSum (bs.take i) by omega]
      rw [h9]
      rfl

theorem blockAt?_of_idxAt? {bs : List Blk} {base a i : Nat} (h : idxAt? bs base a = some i) :
    blockAt? bs base a = bs.get? i := by
  simp [blockAt?, h]

theorem blockAt?_addrAt {bs : List Blk} {i : Nat} (hpos : ∀ b ∈ bs, 0 < b.size)
    (hi : i < bs.length) : blockAt? bs FIRST (addrAt bs i) = bs.get? i := by
  have h9 : idxAt? bs FIRST (FIRST + sizeSum (bs.take i)) = some i := idxAt?_addrAt hpos hi
  simp [blockAt?, addrAt, h9]

theorem addrAt_zero (bs : List Blk) : addrAt bs 0 = FIRST := by
  simp [addrAt]

theorem sizeSum_take_le (bs : List Blk) (n : Nat) : sizeSum (bs.take n) ≤ sizeSum bs := by
  have h2 : sizeSum bs = sizeSum (bs.take n) + sizeSum (bs.drop n) := by
    conv_lhs => rw [← List.take_append_drop n bs]
    rw [sizeSum_append]
  omega

theorem addrAt_le_of_le {bs : List Blk} {i j : Nat} (h : i ≤ j) :
    addrAt bs i ≤ addrAt bs j := by
  unfold addrAt
  have h2 := sizeSum_take_le (bs.take j) i
  rw [List.take_take, Nat.min_eq_left h] at h2
  omega

theorem addrAt_lt_of_lt {bs : List Blk} {i j : Nat} (hpos : ∀ b ∈ bs, 0 < b.size)
    (hij : i < j) (hi : i < bs.length) : addrAt bs i < addrAt bs j := by
  unfold addrAt
  have hx := List.take_concat_get bs i hi
  have h1 : sizeSum (bs.take (i + 1)) = sizeSum (bs.take i) + (bs.get ⟨i, hi⟩).size := by
    rw [← hx, List.concat_eq_append, sizeSum_append]
    simp
  have h2 : sizeSum (bs.take (i + 1)) ≤ sizeSum (bs.take j) := by
    have h3 := sizeSum_take_le (bs.take j) (i + 1)
    rw [List.take_take, Nat.min_eq_left (by omega)] at h3
    exact h3
  have hb0 : 0 < (bs.get ⟨i, hi⟩).size := hpos _ (bs.get_mem _ _)
  omega

theorem sizeSum_take_lt {bs : List Blk} {t : Nat} (hpos : ∀ b ∈ bs, 0 < b.size)
    (ht : t < bs.length) : sizeSum (bs.take t) < sizeSum bs := by
  have hx := List.take_concat_get bs t ht
  have h1 : sizeSum (bs.take (t + 1)) = sizeSum (bs.take t) + (bs.get ⟨t, ht⟩).size := by
    rw [← hx, List.concat_eq_append, sizeSum_append]
    simp
  have h2 := sizeSum_take_le bs (t + 1)
  have hb0 : 0 < (bs.get ⟨t, ht⟩).size := hpos _ (bs.get_mem _ _)
  omega

theorem blockAt?_base {bs : List Blk} {base t : Nat} (hpos : ∀ b ∈ bs, 0 < b.size)
    (ht : t < bs.length) : blockAt? bs base (base + sizeSum (bs.take t)) = bs.get? t := by
  unfold blockAt?
  rw [idxAt?_addrAt hpos ht]
  rfl

theorem blockAt?_append_lt {l1 l2 : List Blk} {base a : Nat}
    (hpos : ∀ b ∈ l1, 0 < b.size) (h : a < base + sizeSum l1) :
    blockAt? (l1 ++ l2) base a = blockAt? l1 base a := by
  unfold blockAt?
  rw [idxAt?_append hpos, if_pos h]
  cases hi : idxAt? l1 base a with
  | none => rfl
  | some i =>
    obtain ⟨h1, _⟩ := idxAt?_some hi
    show (l1 ++ l2).get? i = l1.get? i
    simp only [List.get?_eq_getElem?]
    rw [List.getElem?_append_left h1]

theorem blockAt?_append_ge {l1 l2 : List Blk} {base a : Nat}
    (hpos : ∀ b ∈ l1, 0 < b.size) (h : base + sizeSum l1 ≤ a) :
    blockAt? (l1 ++ l2) base a = blockAt? l2 (base + sizeSum l1) a := by
  unfold blockAt?
  rw [idxAt?_append hpos, if_neg (by omega)]
  cases hi : idxAt? l2 (base + sizeSum l1) a with
  | none => rfl
  | some i =>
    have hr : l1.length ≤ i + l1.length := by omega
    show (l1 ++ l2).get? (i + l1.length) = l2.get? i
    simp only [List.get?_eq_getElem?]
    rw [List.getElem?_append_right hr, Nat.add_sub_cancel]

theorem pos_of_take {bs : List Blk} {i : Nat} (hpos : ∀ b ∈ bs, 0 < b.size) :
    ∀ b ∈ bs.take i, 0 < b.size := fun b hb => hpos b (List.mem_of_mem_take hb)

theorem pos_of_drop {bs : List Blk} {i : Nat} (hpos : ∀ b ∈ bs, 0 < b.size) :
    ∀ b ∈ bs.drop i, 0 < b.size := fun b hb => hpos b (List.mem_of_mem_drop hb)

theorem take_append_of_le {l1 l2 : List Blk} {t : Nat} (ht : t ≤ l1.length) :
    (l1 ++ l2).take t = l1.take t := by
  rw [List.take_append_eq_append_take, Nat.sub_eq_zero_of_le ht, List.take_zero,
    List.append_nil]

theorem blockAt?_splice_before {bs nb : List Blk} {i k a : Nat}
    (hpos : ∀ b ∈ bs, 0 < b.size) (ha : a < addrAt bs i) :
    blockAt? (spliceRun bs i k nb) FIRST a = blockAt? bs FIRST a := by
  unfold spliceRun
  rw [List.append_assoc, blockAt?_append_lt (pos_of_take hpos) (by rw [← addrAt]; exact ha)]
  conv_rhs => rw [← List.take_append_drop i bs]
  rw [blockAt?_append_lt (pos_of_take hpos) (by rw [← addrAt]; exact ha)]

theorem blockAt?_splice_after {bs nb : List Blk} {i k a : Nat}
    (hpos : ∀ b ∈ bs, 0 < b.size) (hposn : ∀ b ∈ nb, 0 < b.size)
    (hsum : sizeSum (bs.take i) + sizeSum nb = sizeSum (bs.take k))
    (ha : addrAt bs k ≤ a) :
    blockAt? (spliceRun bs i k nb) FIRST a = blockAt? bs FIRST a := by
  unfold spliceRun
  have hp12 : ∀ b ∈ bs.take i ++ nb, 0 < b.size := by
    intro b hb
    rcases List.mem_append.mp hb with h | h
    · exact pos_of_take hpos b h
    · exact hposn b h
  rw [blockAt?_append_ge hp12 (by rw [sizeSum_append, hsum, ← addrAt]; exact ha)]
  conv_rhs => rw [← List.take_append_drop k bs]
  rw [blockAt?_append_ge (pos_of_take hpos) (by rw [← addrAt]; exact ha)]
  rw [sizeSum_append, hsum]

theorem blockAt?_splice_at {bs nb : List Blk} {i k t : Nat}
    (hpos : ∀ b ∈ bs, 0 < b.size) (hposn : ∀ b ∈ nb, 0 < b.size)
    (ht : t < nb.length) :
    blockAt? (spliceRun bs i k nb) FIRST (addrAt bs i + sizeSum (nb.take t)) = nb.get? t := by
  unfold spliceRun
  rw [List.append_assoc,
    blockAt?_append_ge (pos_of_take hpos) (by rw [← addrAt]; omega)]
  rw [← addrAt]
  rw [blockAt?_append_lt hposn (by have := sizeSum_take_lt hposn ht; omega)]
  exact blockAt?_base hposn ht

theorem length_spliceRun {bs nb : List Blk} {i k : Nat} (hi : i ≤ bs.length) :
    (spliceRun bs i k nb).length = i + nb.length + (bs.length - k) := by
  unfold spliceRun
  simp [List.length_take, List.length_drop, Nat.min_eq_left hi]
  omega

theorem addrAt_splice_le {bs nb : List Blk} {i k t : Nat} (hi : i ≤ bs.length) (ht : t ≤ i) :
    addrAt (spliceRun bs i k nb) t = addrAt bs t := by
  unfold spliceRun addrAt
  rw [take_append_of_le (by simp only [List.length_append, List.length_take]; omega),
    take_append_of_le (by simp only [List.length_append, List.length_take]; omega), List.take_take,
    Nat.min_eq_left ht]

theorem addrAt_splice_mid {bs nb : List Blk} {i k t : Nat} (hi : i ≤ bs.length)
    (ht : t ≤ nb.length) :
    addrAt (spliceRun bs i k nb) (i + t) = addrAt bs i + sizeSum (nb.take t) := by
  unfold spliceRun addrAt
  rw [take_append_of_le (by simp only [List.length_append, List.length_take]; omega)]
  rw [List.take_append_eq_append_take]
  rw [List.take_of_length_le (by simp only [List.length_append, List.length_take]; omega)]
  have h1 : (bs.take i).length = i := by simp [Nat.min_eq_left hi]
  rw [h1, Nat.add_sub_cancel_left, sizeSum_append]
  omega

theorem get?_splice_lt {bs nb : List Blk} {i k t : Nat} (hi : i ≤ bs.length) (ht : t < i) :
    (spliceRun bs i k nb).get? t = bs.get? t := by
  unfold spliceRun
  rw [List.append_assoc, List.get?_append (by simp only [List.length_take]; omega),
    List.get?_take ht]

theorem get?_splice_mid {bs nb : List Blk} {i k t : Nat} (hi : i ≤ bs.length)
    (ht : t < nb.length) :
    (spliceRun bs i k nb).get? (i + t) = nb.get? t := by
  unfold spliceRun
  rw [List.append_assoc, List.get?_append_right (by simp only [List.length_take]; omega)]
  have h1 : i + t - (bs.take i).length = t := by simp only [List.length_take]; omega
  rw [h1, List.get?_append ht]

theorem get?_splice_right {bs nb : List Blk} {i k t : Nat} (hi : i ≤ bs.length) :
    (spliceRun bs i k nb).get? (i + nb.length + t) = bs.get? (k + t) := by
  unfold spliceRun
  rw [List.append_assoc, List.get?_append_right (by simp only [List.length_take]; omega)]
  rw [List.get?_append_right (by simp only [List.length_take]; omega)]
  have h1 : i + nb.length + t - (bs.take i).length - nb.length = t := by
    simp only [List.length_take]; omega
  rw [h1, List.get?_drop]

theorem take_add_blk (bs : List Blk) (k t : Nat) :
    bs.take (k + t) = bs.take k ++ (bs.drop k).take t := by
  conv_lhs => rw [← List.take_append_drop k (bs.take (k + t))]
  rw [List.take_take, Nat.min_eq_left (by omega), ← List.take_drop]

theorem addrAt_splice_right {bs nb : List Blk} {i k t : Nat} (hik : i ≤ k) (hk : k ≤ bs.length)
    (hsum : sizeSum (bs.take i) + sizeSum nb = sizeSum (bs.take k)) :
    addrAt (spliceRun bs i k nb) (i + nb.length + t) = addrAt bs (k + t) := by
  unfold spliceRun addrAt
  have hi : i ≤ bs.length := le_trans hik hk
  have hlen : (bs.take i ++ nb).length = i + nb.length := by
    simp [Nat.min_eq_left hi]
  rw [List.take_append_eq_append_take, List.take_of_length_le (by rw [hlen]; omega), hlen]
  have h2 : i + nb.length + t - (i + nb.length) = t := by omega
  rw [h2, sizeSum_append, sizeSum_append, take_add_blk bs k t, sizeSum_append]
  omega

theorem addrAt_inj {bs : List Blk} {i j : Nat} (hpos : ∀ b ∈ bs, 0 < b.size)
    (hi : i < bs.length) (hj : j < bs.length) (h : addrAt bs i = addrAt bs j) : i = j := by
  rcases Nat.lt_trichotomy i j with hc | hc | hc
  · exact absurd h (Nat.ne_of_lt (addrAt_lt_of_lt hpos hc hi))
  · exact hc
  · exact absurd h.symm (Nat.ne_of_lt (addrAt_lt_of_lt hpos hc hj))

theorem head?_drop_blk (bs : List Blk) (k : Nat) : (bs.drop k).head? = bs.get? k := by
  rw [← List.get?_zero, List.get?_drop]
  rfl

theorem getLast?_take_blk {bs : List Blk} {i : Nat} (h0 : 0 < i) (hi : i ≤ bs.length) :
    (bs.take i).getLast? = bs.get? (i - 1) := by
  rw [List.getLast?_eq_getElem?]
  have h1 : (bs.take i).length = i := by simp [Nat.min_eq_left hi]
  rw [h1, ← List.get?_eq_getElem?, List.get?_take (by omega)]

/-! ## Bucket and directory lemmas -/

@[simp] theorem blocks_removeFromList (st : AState) (a : Nat) :
    (removeFromList st a).blocks = st.blocks := rfl

@[simp] theorem blocks_insertIntoList (st : AState) (a : Nat) :
    (insertIntoList st a).blocks = st.blocks := rfl

@[simp] theorem sbrkOk_removeFromList (st : AState) (a : Nat) :
    (removeFromList st a).sbrkOk = st.sbrkOk := rfl

@[simp] theorem sbrkOk_insertIntoList (st : AState) (a : Nat) :
    (insertIntoList st a).sbrkOk = st.sbrkOk := rfl

@[simp] theorem dirLength_removeFromList (st : AState) (a : Nat) :
    (removeFromList st a).dir.length = st.dir.length := by
  unfold removeFromList
  simp

@[simp] theorem dirLength_insertIntoList (st : AState) (a : Nat) :
    (insertIntoList st a).dir.length = st.dir.length := by
  unfold insertIntoList
  simp

theorem bucket_congr {st st' : AState} (h : st.dir = st'.dir) (j : Nat) :
    bucket st j = bucket st' j := by
  unfold bucket
  rw [h]

theorem bucket_set_eq {st : AState} {L : List Nat} {j : Nat} (hj : j < st.dir.length) :
    bucket { st with dir := st.dir.set j L } j = L := by
  unfold bucket
  simp only [List.getD_eq_getElem?_getD]
  rw [List.getElem?_set_self', List.getElem?_eq_getElem hj]
  rfl

theorem bucket_set_ne {st : AState} {L : List Nat} {j j' : Nat} (h : j ≠ j') :
    bucket { st with dir := st.dir.set j L } j' = bucket st j' := by
  unfold bucket
  simp only [List.getD_eq_getElem?_getD]
  rw [List.getElem?_set_ne h]

theorem mem_bucketInsert {bs : List Blk} {a x : Nat} {L : List Nat} :
    x ∈ bucketInsert bs a L ↔ x = a ∨ x ∈ L := by
  induction L with
  | nil => simp [bucketInsert]
  | cons y ys ih =>
    unfold bucketInsert
    split
    · simp
    · simp only [List.mem_cons, ih]
      tauto

theorem nodup_bucketInsert {bs : List Blk} {a : Nat} {L : List Nat} (ha : a ∉ L)
    (h : L.Nodup) : (bucketInsert bs a L).Nodup := by
  induction L with
  | nil => simp [bucketInsert]
  | cons y ys ih =>
    unfold bucketInsert
    have hay : a ≠ y := fun hc => ha (by simp [hc])
    have ha2 : a ∉ ys := fun hc => ha (by simp [hc])
    rcases List.nodup_cons.mp h with ⟨hy, hys⟩
    split
    · exact List.nodup_cons.mpr ⟨by simp [hay, ha2], h⟩
    · refine List.nodup_cons.mpr ⟨?_, ih ha2 hys⟩
      rw [mem_bucketInsert]
      push_neg
      exact ⟨fun hc => hay hc.symm, hy⟩

theorem pairwise_bucketInsert {bs : List Blk} {a : Nat} {L : List Nat}
    (h : L.Pairwise fun x y => sizeAt bs x ≤ sizeAt bs y) :
    (bucketInsert bs a L).Pairwise fun x y => sizeAt bs x ≤ sizeAt bs y := by
  induction L with
  | nil => simp [bucketInsert]
  | cons y ys ih =>
    rcases List.pairwise_cons.mp h with ⟨hy, hys⟩
    unfold bucketInsert
    split
    · rename_i hle
      refine List.pairwise_cons.mpr ⟨?_, h⟩
      intro z hz
      rcases List.mem_cons.mp hz with hz | hz
      · rw [hz]; exact hle
      · exact le_trans hle (hy z hz)
    · rename_i hgt
      refine List.pairwise_cons.mpr ⟨?_, ih hys⟩
      intro z hz
      rcases mem_bucketInsert.mp hz with hz | hz
      · rw [hz]; omega
      · exact hy z hz

theorem freeAt_eq_true {bs : List Blk} {a : Nat} :
    freeAt bs a = true ↔
      ∃ i0 b, idxAt? bs FIRST a = some i0 ∧ bs.get? i0 = some b ∧ b.alloc = false := by
  unfold freeAt blockAt?
  cases hi : idxAt? bs FIRST a with
  | none => simp
  | some i0 =>
    cases hg : bs.get? i0 with
    | none =>
      rw [List.get?_eq_getElem?] at hg
      simp [hg]
    | some b =>
      rw [List.get?_eq_getElem?] at hg
      simp [hg, Bool.not_eq_true']

theorem sizeAt_of_blockAt? {bs : List Blk} {a : Nat} {b : Blk}
    (h : blockAt? bs FIRST a = some b) : sizeAt bs a = b.size := by
  unfold sizeAt
  rw [h]
  rfl

theorem sizeAt_of_idx {bs : List Blk} {a i0 : Nat} {b : Blk}
    (h1 : idxAt? bs FIRST a = some i0) (h2 : bs.get? i0 = some b) : sizeAt bs a = b.size := by
  rw [List.get?_eq_getElem?] at h2
  simp [sizeAt, blockAt?, h1, h2]

theorem sizesPos {bs : List Blk} (hsz : sizesOK bs) : ∀ b ∈ bs, 0 < b.size :=
  fun b hb => by have := hsz b hb; omega

theorem homeLt32 (s : Nat) : searchIdx s - 1 < 32 := by
  have h1 := searchIdx_pos s
  have h2 := searchIdx_le32 s
  omega

theorem bucket_removeFromList (st : AState) (a : Nat) (hlen : st.dir.length = 32) (j' : Nat) :
    bucket (removeFromList st a) j' =
      if j' = searchIdx (sizeAt st.blocks a) - 1 then
        (bucket st (searchIdx (sizeAt st.blocks a) - 1)).erase a
      else bucket st j' := by
  unfold removeFromList
  by_cases h : j' = searchIdx (sizeAt st.blocks a) - 1
  · rw [if_pos h, h, bucket_set_eq (by rw [hlen]; exact homeLt32 _)]
  · rw [if_neg h, bucket_set_ne (fun hc => h hc.symm)]

theorem bucket_insertIntoList (st : AState) (a : Nat) (hlen : st.dir.length = 32) (j' : Nat) :
    bucket (insertIntoList st a) j' =
      if j' = searchIdx (sizeAt st.blocks a) - 1 then
        bucketInsert st.blocks a (bucket st (searchIdx (sizeAt st.blocks a) - 1))
      else bucket st j' := by
  unfold insertIntoList
  by_cases h : j' = searchIdx (sizeAt st.blocks a) - 1
  · rw [if_pos h, h, bucket_set_eq (by rw [hlen]; exact homeLt32 _)]
  · rw [if_neg h, bucket_set_ne (fun hc => h hc.symm)]

/-- Unlinking a detached-to-be free block from the directory: the block at
address a (free, at index i0) moves from the directory to the detached set. -/
theorem InvExc_remove {st : AState} {ex : List Nat} {a i0 : Nat} {b0 : Blk}
    (hI : InvExc st ex) (hidx : idxAt? st.blocks FIRST a = some i0)
    (hget : st.blocks.get? i0 = some b0) (hfree : b0.alloc = false) :
    InvExc (removeFromList st a) (a :: ex) := by
  obtain ⟨hlen, hsz, hdat, hadj, hsnd, hcmp, hnd, hsrt⟩ := hI
  have hbuck := bucket_removeFromList st a hlen
  have hpos1 := searchIdx_pos (sizeAt st.blocks a)
  have hnotin : ∀ j' < 32, j' ≠ searchIdx (sizeAt st.blocks a) - 1 → a ∉ bucket st j' := by
    intro j' hj' hne hc
    have hfil := (hsnd j' hj' a hc).2.2
    omega
  refine ⟨by simpa using hlen, hsz, hdat, hadj, ?_, ?_, ?_, ?_⟩
  · intro j' hj' x hx
    rw [hbuck j'] at hx
    simp only [blocks_removeFromList]
    by_cases hc : j' = searchIdx (sizeAt st.blocks a) - 1
    · rw [if_pos hc] at hx
      have hnda := hnd _ (homeLt32 (sizeAt st.blocks a))
      rcases (List.Nodup.mem_erase_iff hnda).mp hx with ⟨hxa, hxm⟩
      obtain ⟨h1, h2, h3⟩ := hsnd _ (homeLt32 _) x hxm
      exact ⟨by simp [hxa, h1], h2, by rw [hc]; exact h3⟩
    · rw [if_neg hc] at hx
      obtain ⟨h1, h2, h3⟩ := hsnd j' hj' x hx
      have hxa : x ≠ a := fun hxeq => hnotin j' hj' hc (hxeq ▸ hx)
      exact ⟨by simp [hxa, h1], h2, h3⟩
  · intro i h halloc hnex
    simp only [blocks_removeFromList] at h halloc hnex ⊢
    have hne2 : addrAt st.blocks i ∉ ex := fun hc => hnex (by simp [hc])
    have hnea : addrAt st.blocks i ≠ a := fun hc => hnex (by simp [hc])
    have := hcmp i h halloc hne2
    rw [hbuck]
    split
    · rename_i hc
      have hnda := hnd _ (homeLt32 (sizeAt st.blocks a))
      exact (List.Nodup.mem_erase_iff hnda).mpr ⟨hnea, hc ▸ this⟩
    · exact this
  · intro j' hj'
    rw [hbuck j']
    split
    · exact List.Nodup.erase a (hnd _ (homeLt32 (sizeAt st.blocks a)))
    · exact hnd j' hj'
  · intro j' hj'
    simp only [blocks_removeFromList]
    rw [hbuck j']
    split
    · exact List.Pairwise.sublist (List.erase_sublist a _) (hsrt _ (homeLt32 (sizeAt st.blocks a)))
    · exact hsrt j' hj'

/-- Reinserting a detached free block: the block at address a (free, at
index i0, currently detached and in no bucket) is filed into its home
bucket. -/
theorem InvExc_insert {st : AState} {ex : List Nat} {a i0 : Nat} {b0 : Blk}
    (hI : InvExc st (a :: ex)) (hidx : idxAt? st.blocks FIRST a = some i0)
    (hget : st.blocks.get? i0 = some b0) (hfree : b0.alloc = false)
    (hax : a ∉ ex) : InvExc (insertIntoList st a) ex := by
  obtain ⟨hlen, hsz, hdat, hadj, hsnd, hcmp, hnd, hsrt⟩ := hI
  have hbuck := bucket_insertIntoList st a hlen
  have hpos1 := searchIdx_pos (sizeAt st.blocks a)
  have hfa : freeAt st.blocks a = true := freeAt_eq_true.mpr ⟨i0, b0, hidx, hget, hfree⟩
  have hsa : sizeAt st.blocks a = b0.size := sizeAt_of_idx hidx hget
  have hanotin : ∀ j' < 32, a ∉ bucket st j' := by
    intro j' hj' hc
    exact (hsnd j' hj' a hc).1 (by simp)
  refine ⟨by simpa using hlen, hsz, hdat, hadj, ?_, ?_, ?_, ?_⟩
  · intro j' hj' x hx
    rw [hbuck j'] at hx
    simp only [blocks_insertIntoList]
    by_cases hc : j' = searchIdx (sizeAt st.blocks a) - 1
    · rw [if_pos hc] at hx
      rcases mem_bucketInsert.mp hx with hx | hx
      · subst hx
        exact ⟨hax, hfa, by omega⟩
      · obtain ⟨h1, h2, h3⟩ := hsnd _ (homeLt32 _) x hx
        exact ⟨fun hc2 => h1 (by simp [hc2]), h2, by rw [hc]; exact h3⟩
    · rw [if_neg hc] at hx
      obtain ⟨h1, h2, h3⟩ := hsnd j' hj' x hx
      exact ⟨fun hc2 => h1 (by simp [hc2]), h2, h3⟩
  · intro i h halloc hnex
    simp only [blocks_insertIntoList] at h halloc hnex ⊢
    rw [hbuck]
    by_cases haddr : addrAt st.blocks i = a
    · have hieq : i = i0 := by
        obtain ⟨hl0, he0⟩ := idxAt?_some hidx
        refine addrAt_inj (sizesPos hsz) h hl0 ?_
        rw [haddr, addrAt, ← he0]
      subst hieq
      have hbeq : st.blocks.get ⟨i, h⟩ = b0 := by
        have := List.get?_eq_get (l := st.blocks) h
        rw [hget] at this
        exact (Option.some_inj.mp this).symm
      rw [hbeq, haddr]
      rw [if_pos (by rw [hsa])]
      exact mem_bucketInsert.mpr (Or.inl rfl)
    · have hnex2 : addrAt st.blocks i ∉ a :: ex := by simp [haddr, hnex]
      have hmem := hcmp i h halloc hnex2
      split
      · rename_i hc
        exact mem_bucketInsert.mpr (Or.inr (hc ▸ hmem))
      · exact hmem
  · intro j' hj'
    rw [hbuck j']
    split
    · exact nodup_bucketInsert (hanotin _ (homeLt32 _)) (hnd _ (homeLt32 _))
    · exact hnd j' hj'
  · intro j' hj'
    simp only [blocks_insertIntoList]
    rw [hbuck j']
    split
    · exact pairwise_bucketInsert (hsrt _ (homeLt32 _))
    · exact hsrt j' hj'

theorem freeAt_congr {bs1 bs2 : List Blk} {a : Nat}
    (h : blockAt? bs1 FIRST a = blockAt? bs2 FIRST a) : freeAt bs1 a = freeAt bs2 a := by
  unfold freeAt
  rw [h]

theorem sizeAt_congr {bs1 bs2 : List Blk} {a : Nat}
    (h : blockAt? bs1 FIRST a = blockAt? bs2 FIRST a) : sizeAt bs1 a = sizeAt bs2 a := by
  unfold sizeAt
  rw [h]

theorem addrAt_eq_of_idx {bs : List Blk} {a i0 : Nat}
    (h : idxAt? bs FIRST a = some i0) : a = addrAt bs i0 := by
  obtain ⟨_, h2⟩ := idxAt?_some h
  rw [addrAt, ← h2]

/-- Heap surgery preserves the invariant: replacing the run [i, k) by the
blocks nb, when the replaced free blocks are all detached (in ex), the new
run is internally coalesced and meshes with its neighbors, and the sizes
balance (or the splice reaches the heap end).  The exception list after the
splice, ex2, covers exactly the free blocks of nb (which are not yet
inserted). -/
theorem InvExc_splice {st : AState} {ex ex2 : List Nat} {i k : Nat} {nb : List Blk}
    (hI : InvExc st ex)
    (hik : i ≤ k) (hk : k ≤ st.blocks.length)
    (hnbOK : ∀ c ∈ nb, c.size % 8 = 0 ∧ 16 ≤ c.size ∧ c.data.length + 4 ≤ c.size)
    (hchain : List.Chain' (fun x y => x.alloc = true ∨ y.alloc = true) nb)
    (hedgeL : ∀ x ∈ (st.blocks.take i).getLast?, ∀ y ∈ nb.head?,
      x.alloc = true ∨ y.alloc = true)
    (hedgeR : ∀ x ∈ nb.getLast?, ∀ y ∈ (st.blocks.drop k).head?,
      x.alloc = true ∨ y.alloc = true)
    (hnbne : nb ≠ [])
    (hsum : sizeSum (st.blocks.take i) + sizeSum nb = sizeSum (st.blocks.take k) ∨
      k = st.blocks.length)
    (hdet : ∀ t (ht : t < st.blocks.length), i ≤ t → t < k →
      (st.blocks.get ⟨t, ht⟩).alloc = false → addrAt st.blocks t ∈ ex)
    (hexw : ∀ a ∈ ex, addrAt st.blocks i ≤ a ∧ a < addrAt st.blocks k)
    (hex2 : ∀ t (ht : t < nb.length), (nb.get ⟨t, ht⟩).alloc = false →
      (addrAt st.blocks i + sizeSum (nb.take t)) ∈ ex2)
    (hex2w : ∀ a ∈ ex2, addrAt st.blocks i ≤ a ∧ a < addrAt st.blocks i + sizeSum nb) :
    InvExc { st with blocks := spliceRun st.blocks i k nb } ex2 := by
  obtain ⟨hlen, hsz, hdat, hadj, hsnd, hcmp, hnd, hsrt⟩ := hI
  have hpos := sizesPos hsz
  have hposn : ∀ b ∈ nb, 0 < b.size := fun b hb => by have := (hnbOK b hb).2.1; omega
  have hi : i ≤ st.blocks.length := le_trans hik hk
  have hblen : (spliceRun st.blocks i k nb).length = i + nb.length + (st.blocks.length - k) :=
    length_spliceRun hi
  -- stability for a free block of the old heap that survives (index outside [i, k))
  have hstabX : ∀ x, freeAt st.blocks x = true → x ∉ ex →
      blockAt? (spliceRun st.blocks i k nb) FIRST x = blockAt? st.blocks FIRST x ∧
        x ∉ ex2 := by
    intro x hfx hxex
    obtain ⟨i0, b, hidx0, hget0, hal0⟩ := freeAt_eq_true.mp hfx
    obtain ⟨hl0, _⟩ := idxAt?_some hidx0
    have hax : x = addrAt st.blocks i0 := addrAt_eq_of_idx hidx0
    have hnotmid : ¬(i ≤ i0 ∧ i0 < k) := by
      rintro ⟨h1, h2⟩
      have hbeq : st.blocks.get ⟨i0, hl0⟩ = b := by
        have := List.get?_eq_get (l := st.blocks) hl0
        rw [hget0] at this
        exact (Option.some_inj.mp this).symm
      exact hxex (hax ▸ hdet i0 hl0 h1 h2 (by rw [hbeq]; exact hal0))
    rcases Nat.lt_or_ge i0 i with hc | hc
    · have hlt : x < addrAt st.blocks i := hax ▸ addrAt_lt_of_lt hpos hc hl0
      refine ⟨blockAt?_splice_before hpos hlt, fun hc2 => ?_⟩
      have := (hex2w x hc2).1
      omega
    · have hge : k ≤ i0 := by omega
      rcases hsum with hsum | hsum
      · have hgea : addrAt st.blocks k ≤ x := hax ▸ addrAt_le_of_le hge
        refine ⟨blockAt?_splice_after hpos hposn hsum hgea, fun hc2 => ?_⟩
        have h1 := (hex2w x hc2).2
        have h2 : addrAt st.blocks i + sizeSum nb = addrAt st.blocks k := by
          unfold addrAt
          omega
        omega
      · omega
  refine ⟨by simpa using hlen, ?_, ?_, ?_, ?_, ?_, hnd, ?_⟩
  · intro b hb
    rcases List.mem_append.mp hb with hb | hb
    rcases List.mem_append.mp hb with hb | hb
    · exact hsz b (List.mem_of_mem_take hb)
    · exact ⟨(hnbOK b hb).1, (hnbOK b hb).2.1⟩
    · exact hsz b (List.mem_of_mem_drop hb)
  · intro b hb
    rcases List.mem_append.mp hb with hb | hb
    rcases List.mem_append.mp hb with hb | hb
    · exact hdat b (List.mem_of_mem_take hb)
    · exact (hnbOK b hb).2.2
    · exact hdat b (List.mem_of_mem_drop hb)
  · show List.Chain' _ ((st.blocks.take i ++ nb) ++ st.blocks.drop k)
    rw [List.chain'_append]
    refine ⟨?_, hadj.suffix (List.drop_suffix k _), ?_⟩
    · rw [List.chain'_append]
      exact ⟨hadj.take i, hchain, hedgeL⟩
    · intro x hx y hy
      rw [List.getLast?_append_of_ne_nil _ hnbne] at hx
      exact hedgeR x hx y hy
  · intro j' hj' x hx
    obtain ⟨hxex, hfx, hfil⟩ := hsnd j' hj' x hx
    obtain ⟨hstab, hnex2⟩ := hstabX x hfx hxex
    exact ⟨hnex2, by rw [freeAt_congr hstab]; exact hfx, by rw [sizeAt_congr hstab]; exact hfil⟩
  · intro t' h' halloc' hnex2
    simp only at h' halloc' hnex2 ⊢
    rcases Nat.lt_or_ge t' i with hc | hc
    · have ht : t' < st.blocks.length := by omega
      have hgeq : (spliceRun st.blocks i k nb).get ⟨t', h'⟩ = st.blocks.get ⟨t', ht⟩ := by
        have h1 := List.get?_eq_get (l := spliceRun st.blocks i k nb) h'
        have h2 := List.get?_eq_get (l := st.blocks) ht
        have h3 : (spliceRun st.blocks i k nb).get? t' = st.blocks.get? t' :=
          get?_splice_lt hi hc
        rw [h1, h2] at h3
        exact Option.some_inj.mp h3
      have haeq : addrAt (spliceRun st.blocks i k nb) t' = addrAt st.blocks t' :=
        addrAt_splice_le hi (by omega)
      rw [hgeq, haeq]
      have hnex : addrAt st.blocks t' ∉ ex := by
        intro hc2
        have := (hexw _ hc2).1
        have := addrAt_lt_of_lt hpos hc ht
        omega
      exact hcmp t' ht (by rw [← hgeq]; exact halloc') hnex
    · rcases Nat.lt_or_ge t' (i + nb.length) with hc2 | hc2
      · exfalso
        have htn : t' - i < nb.length := by omega
        have hgeq : (spliceRun st.blocks i k nb).get ⟨t', h'⟩ = nb.get ⟨t' - i, htn⟩ := by
          have h1 := List.get?_eq_get (l := spliceRun st.blocks i k nb) h'
          have h2 := List.get?_eq_get (l := nb) htn
          have h3 : (spliceRun st.blocks i k nb).get? (i + (t' - i)) = nb.get? (t' - i) :=
            get?_splice_mid hi htn
          rw [show i + (t' - i) = t' by omega] at h3
          rw [h1, h2] at h3
          exact Option.some_inj.mp h3
        have haeq : addrAt (spliceRun st.blocks i k nb) t' =
            addrAt st.blocks i + sizeSum (nb.take (t' - i)) := by
          have h9 : addrAt (spliceRun st.blocks i k nb) (i + (t' - i)) =
              addrAt st.blocks i + sizeSum (nb.take (t' - i)) :=
            addrAt_splice_mid hi (by omega)
          rw [show i + (t' - i) = t' by omega] at h9
          exact h9
        exact hnex2 (by rw [haeq]; exact hex2 (t' - i) htn (by rw [← hgeq]; exact halloc'))
      · have hsum2 : sizeSum (st.blocks.take i) + sizeSum nb = sizeSum (st.blocks.take k) := by
          rcases hsum with hsum | hsum
          · exact hsum
          · exfalso
            rw [hblen] at h'
            omega
        set t := t' - (i + nb.length) with hteq
        have hktlt : k + t < st.blocks.length := by
          rw [hblen] at h'
          omega
        have hgeq : (spliceRun st.blocks i k nb).get ⟨t', h'⟩ =
            st.blocks.get ⟨k + t, hktlt⟩ := by
          have h1 := List.get?_eq_get (l := spliceRun st.blocks i k nb) h'
          have h2 := List.get?_eq_get (l := st.blocks) hktlt
          have h3 : (spliceRun st.blocks i k nb).get? (i + nb.length + t) =
              st.blocks.get? (k + t) := get?_splice_right hi
          rw [show i + nb.length + t = t' by omega] at h3
          rw [h1, h2] at h3
          exact Option.some_inj.mp h3
        have haeq : addrAt (spliceRun st.blocks i k nb) t' = addrAt st.blocks (k + t) := by
          have h9 : addrAt (spliceRun st.blocks i k nb) (i + nb.length + t) =
              addrAt st.blocks (k + t) := addrAt_splice_right hik hk hsum2
          rw [show i + nb.length + t = t' by omega] at h9
          exact h9
        rw [hgeq, haeq]
        have hnex : addrAt st.blocks (k + t) ∉ ex := by
          intro hc3
          have h4 := (hexw _ hc3).2
          have h5 : addrAt st.blocks k ≤ addrAt st.blocks (k + t) := addrAt_le_of_le (by omega)
          omega
        exact hcmp (k + t) hktlt (by rw [← hgeq]; exact halloc') hnex
  · intro j' hj'
    simp only
    refine List.Pairwise.imp_of_mem ?_ (hsrt j' hj')
    intro x y hx hy hxy
    obtain ⟨hxex, hfx, _⟩ := hsnd j' hj' x hx
    obtain ⟨hyex, hfy, _⟩ := hsnd j' hj' y hy
    rw [sizeAt_congr (hstabX x hfx hxex).1, sizeAt_congr (hstabX y hfy hyex).1]
    exact hxy

theorem Inv_iff_InvExc {st : AState} : Inv st ↔ InvExc st [] := by
  unfold Inv InvExc dirSound dirComplete
  constructor
  · rintro ⟨h1, h2, h3, h4, h5, h6, h7, h8⟩
    exact ⟨h1, h2, h3, h4,
      fun j hj a ha => ⟨by simp, (h5 j hj a ha).1, (h5 j hj a ha).2⟩,
      fun i h hal _ => h6 i h hal, h7, h8⟩
  · rintro ⟨h1, h2, h3, h4, h5, h6, h7, h8⟩
    exact ⟨h1, h2, h3, h4,
      fun j hj a ha => ⟨(h5 j hj a ha).2.1, (h5 j hj a ha).2.2⟩,
      fun i h hal => h6 i h hal (by simp), h7, h8⟩

theorem lt_of_get?_eq_some {bs : List Blk} {i : Nat} {b : Blk} (h : bs.get? i = some b) :
    i < bs.length := by
  by_contra hc
  rw [List.get?_eq_none.mpr (by omega)] at h
  cases h

theorem get_eq_of_get? {bs : List Blk} {i : Nat} {b : Blk} (h2 : bs.get? i = some b)
    (h : i < bs.length) : bs.get ⟨i, h⟩ = b := by
  have h3 := List.get?_eq_get (l := bs) h
  rw [h2] at h3
  exact (Option.some_inj.mp h3).symm

theorem adjOK_pair {bs : List Blk} (h : adjOK bs) {t : Nat} (ht : t + 1 < bs.length) :
    (bs.get ⟨t, by omega⟩).alloc = true ∨ (bs.get ⟨t + 1, ht⟩).alloc = true := by
  exact List.chain'_iff_get.mp h t (by omega)

theorem sizeSum_take_succ {bs : List Blk} {i : Nat} {b : Blk} (hget : bs.get? i = some b) :
    sizeSum (bs.take (i + 1)) = sizeSum (bs.take i) + b.size := by
  have hi := lt_of_get?_eq_some hget
  have hx := List.take_concat_get bs i hi
  have hb : bs[i] = b := by
    have h1 : bs[i]? = some b := by
      rw [← List.get?_eq_getElem?]
      exact hget
    rw [List.getElem?_eq_getElem hi] at h1
    exact Option.some_inj.mp h1
  rw [← hx, List.concat_eq_append, sizeSum_append, sizeSum_cons, sizeSum_nil, hb]
  omega

theorem addrAt_succ {bs : List Blk} {i : Nat} {b : Blk} (hget : bs.get? i = some b) :
    addrAt bs (i + 1) = addrAt bs i + b.size := by
  unfold addrAt
  rw [sizeSum_take_succ hget]
  omega

/-- Reduction of split_block once the block lookup is known. -/
theorem splitBlock_eq_some {st : AState} {i ns : Nat} {b : Blk}
    (hget : st.blocks.get? i = some b) :
    splitBlock st i ns =
      if ns + 8 < b.size then
        insertIntoList { st with blocks := spliceRun st.blocks i (i + 1) [⟨ns, true, b.data.take (ns - 4)⟩, mkFree (b.size - ns)] } (addrAt st.blocks i + ns)
      else { st with blocks := spliceRun st.blocks i (i + 1) [⟨b.size, true, b.data⟩] } := by
  unfold splitBlock
  rw [hget]

/-- split_block preserves the invariant: called on a free block (index i)
already detached from the directory, it leaves a fully filed state. -/
theorem InvExc_splitBlock {st : AState} {i ns : Nat} {b : Blk}
    (hI : InvExc st [addrAt st.blocks i])
    (hget : st.blocks.get? i = some b) (hfree : b.alloc = false)
    (hns8 : ns % 8 = 0) (hns16 : 16 ≤ ns) :
    InvExc (splitBlock st i ns) [] := by
  have hilt := lt_of_get?_eq_some hget
  have hIc := hI
  obtain ⟨hlen, hsz, hdat, hadj, hsnd, hcmp, hnd, hsrt⟩ := hIc
  have hpos := sizesPos hsz
  have hbmem : b ∈ st.blocks := by
    rw [← get_eq_of_get? hget hilt]
    exact st.blocks.get_mem _ _
  have hb8 := (hsz b hbmem).1
  have hb16 := (hsz b hbmem).2
  have hbdat := hdat b hbmem
  have hedgeRgen : ∀ (w : Blk), w.alloc = false →
      ∀ y ∈ (st.blocks.drop (i + 1)).head?, y.alloc = true := by
    intro w _ y hy
    rw [head?_drop_blk] at hy
    have hy2 : st.blocks.get? (i + 1) = some y := hy
    have hi1 := lt_of_get?_eq_some hy2
    have hpair := adjOK_pair hadj hi1
    rw [get_eq_of_get? hget hilt, get_eq_of_get? hy2 hi1] at hpair
    rcases hpair with hp | hp
    · rw [hfree] at hp
      cases hp
    · exact hp
  have hexwS : ∀ a ∈ [addrAt st.blocks i], addrAt st.blocks i ≤ a ∧
      a < addrAt st.blocks (i + 1) := by
    intro a ha
    simp only [List.mem_singleton] at ha
    subst ha
    rw [addrAt_succ hget]
    omega
  have hdetS : ∀ t (ht : t < st.blocks.length), i ≤ t → t < i + 1 →
      (st.blocks.get ⟨t, ht⟩).alloc = false → addrAt st.blocks t ∈ [addrAt st.blocks i] := by
    intro t ht h1 h2 _
    have ht2 : t = i := by omega
    subst ht2
    simp
  rw [splitBlock_eq_some hget]
  split
  · rename_i hlt
    have hrem8 : (b.size - ns) % 8 = 0 := by omega
    have hrem16 : 16 ≤ b.size - ns := by omega
    have hsplice : InvExc { st with blocks := spliceRun st.blocks i (i + 1) [⟨ns, true, b.data.take (ns - 4)⟩, mkFree (b.size - ns)] } [addrAt st.blocks i + ns] := by
      refine InvExc_splice hI (by omega) (by omega) ?_ ?_ ?_ ?_ (by simp) ?_ hdetS hexwS ?_ ?_
      · intro c hc
        rcases List.mem_cons.mp hc with hc | hc
        · subst hc
          refine ⟨hns8, hns16, ?_⟩
          simp only [List.length_take]
          omega
        · rcases List.mem_cons.mp hc with hc | hc
          · subst hc
            unfold mkFree
            refine ⟨hrem8, hrem16, ?_⟩
            simp only [List.length_nil]
            omega
          · simp at hc
      · exact List.chain'_cons.mpr ⟨Or.inl rfl, List.chain'_singleton _⟩
      · intro x hx y hy
        simp only [List.head?_cons, Option.mem_some_iff] at hy
        subst hy
        exact Or.inr rfl
      · intro x hx y hy
        exact Or.inr (hedgeRgen (mkFree (b.size - ns)) rfl y hy)
      · left
        rw [sizeSum_take_succ hget]
        simp only [sizeSum_cons, sizeSum_nil, mkFree]
        omega
      · intro t ht hal
        simp only [List.length_cons, List.length_nil] at ht
        interval_cases t
        · simp [List.get] at hal
        · simp only [List.mem_singleton, sizeSum_cons, sizeSum_nil]
          simp only [List.take_succ_cons, List.take_zero, sizeSum_cons, sizeSum_nil]
          omega
      · intro a ha
        simp only [List.mem_singleton] at ha
        subst ha
        simp only [sizeSum_cons, sizeSum_nil, mkFree]
        omega
    have hposS : ∀ c ∈ (spliceRun st.blocks i (i + 1)
        [⟨ns, true, b.data.take (ns - 4)⟩, mkFree (b.size - ns)]), 0 < c.size :=
      sizesPos hsplice.2.1
    have hlen1 : (spliceRun st.blocks i (i + 1)
        [⟨ns, true, b.data.take (ns - 4)⟩, mkFree (b.size - ns)]).length =
        i + 2 + (st.blocks.length - (i + 1)) := by
      rw [length_spliceRun (by omega)]
      rfl
    have haddr1 : addrAt (spliceRun st.blocks i (i + 1)
        [⟨ns, true, b.data.take (ns - 4)⟩, mkFree (b.size - ns)]) (i + 1) =
        addrAt st.blocks i + ns := by
      have h : addrAt (spliceRun st.blocks i (i + 1) [⟨ns, true, b.data.take (ns - 4)⟩, mkFree (b.size - ns)]) (i + 1) = addrAt st.blocks i + sizeSum (([⟨ns, true, b.data.take (ns - 4)⟩, mkFree (b.size - ns)] : List Blk).take 1) :=
        addrAt_splice_mid (by omega) (by simp)
      simpa using h
    have hgetr : (spliceRun st.blocks i (i + 1)
        [⟨ns, true, b.data.take (ns - 4)⟩, mkFree (b.size - ns)]).get? (i + 1) =
        some (mkFree (b.size - ns)) := by
      have h : (spliceRun st.blocks i (i + 1) [⟨ns, true, b.data.take (ns - 4)⟩, mkFree (b.size - ns)]).get? (i + 1) = ([⟨ns, true, b.data.take (ns - 4)⟩, mkFree (b.size - ns)] : List Blk).get? 1 :=
        get?_splice_mid (by omega) (by simp)
      simpa using h
    have hidx1 : idxAt? (spliceRun st.blocks i (i + 1)
        [⟨ns, true, b.data.take (ns - 4)⟩, mkFree (b.size - ns)]) FIRST
        (addrAt st.blocks i + ns) = some (i + 1) := by
      rw [← haddr1]
      unfold addrAt
      exact idxAt?_addrAt hposS (by omega)
    exact InvExc_insert hsplice hidx1 hgetr rfl (by simp)
  · rename_i hge
    refine InvExc_splice hI (by omega) (by omega)
      ?_ ?_ ?_ ?_ (by simp) ?_ hdetS hexwS ?_ ?_
    · intro c hc
      rcases List.mem_cons.mp hc with hc | hc
      · subst hc
        exact ⟨hb8, hb16, hbdat⟩
      · simp at hc
    · exact List.chain'_singleton _
    · intro x hx y hy
      simp only [List.head?_cons, Option.mem_some_iff] at hy
      subst hy
      exact Or.inr rfl
    · intro x hx y hy
      simp only [List.getLast?_singleton, Option.mem_some_iff] at hx
      subst hx
      exact Or.inl rfl
    · left
      rw [sizeSum_take_succ hget]
      simp only [sizeSum_cons, sizeSum_nil]
      omega
    · intro t ht hal
      simp only [List.length_cons, List.length_nil] at ht
      interval_cases t
      · simp [List.get] at hal
    · intro a ha
      simp at ha

/-! ## Best-fit scan analysis and mm_malloc -/

theorem bucket_eq_get {st : AState} {j : Nat} (hj : j < st.dir.length) :
    bucket st j = st.dir.get ⟨j, hj⟩ := by
  unfold bucket
  rw [List.getD_eq_getElem?_getD, List.getElem?_eq_getElem hj]
  rfl

theorem mem_flatten_bucket {st : AState} {d a : Nat} (hlen : st.dir.length = 32)
    (h : a ∈ (st.dir.drop d).flatten) : ∃ j, d ≤ j ∧ j < 32 ∧ a ∈ bucket st j := by
  rcases List.mem_flatten.mp h with ⟨L, hL, haL⟩
  rcases List.get_of_mem hL with ⟨⟨n, hn⟩, hLeq⟩
  have hn0 := hn
  simp only [List.length_drop, hlen] at hn0
  have hdn : d + n < st.dir.length := by omega
  refine ⟨d + n, by omega, by omega, ?_⟩
  rw [bucket_eq_get hdn]
  have hEq : (st.dir.drop d).get ⟨n, hn⟩ = st.dir.get ⟨d + n, hdn⟩ := by
    simp [List.get_eq_getElem, List.getElem_drop]
  rw [← hEq, hLeq]
  exact haL

theorem bucket_mem_flatten {st : AState} {d j a : Nat} (hlen : st.dir.length = 32)
    (hd : d ≤ j) (hj : j < 32) (h : a ∈ bucket st j) : a ∈ (st.dir.drop d).flatten := by
  rw [List.mem_flatten]
  have hjlen : j < st.dir.length := by omega
  have hn : j - d < (st.dir.drop d).length := by
    simp only [List.length_drop]
    omega
  refine ⟨(st.dir.drop d).get ⟨j - d, hn⟩, List.get_mem _ _ _, ?_⟩
  have hEq : (st.dir.drop d).get ⟨j - d, hn⟩ = st.dir.get ⟨j, hjlen⟩ := by
    simp only [List.get_eq_getElem, List.getElem_drop]
    congr 1
    omega
  rw [hEq, ← bucket_eq_get hjlen]
  exact h

/-- A hit of the best-fit scan is a free block of sufficient size. -/
theorem fitScan_free {st : AState} {ns a : Nat} (hI : Inv st) (h : fitScan st ns = some a) :
    ∃ i0 b, idxAt? st.blocks FIRST a = some i0 ∧ st.blocks.get? i0 = some b ∧
      b.alloc = false ∧ ns ≤ b.size := by
  obtain ⟨hlen, _, _, _, hsnd, _, _, _⟩ := hI
  have hpred := List.find?_some h
  have hmem := List.mem_of_find?_eq_some h
  have hle : ns ≤ sizeAt st.blocks a := of_decide_eq_true hpred
  obtain ⟨j, _, hj32, hjmem⟩ := mem_flatten_bucket hlen hmem
  have hfa := (hsnd j hj32 a hjmem).1
  obtain ⟨i0, b, h1, h2, h3⟩ := freeAt_eq_true.mp hfa
  refine ⟨i0, b, h1, h2, h3, ?_⟩
  rw [sizeAt_of_idx h1 h2] at hle
  exact hle

theorem mallocB_eq_fit {st : AState} {s a i : Nat} (hs : s ≠ 0)
    (hfit : fitScan st (mallocNS s) = some a)
    (hidx : idxAt? st.blocks FIRST a = some i) :
    mm_mallocB st s = (splitBlock (removeFromList st a) i (mallocNS s), some (a + 4)) := by
  unfold mm_mallocB
  rw [if_neg hs]
  simp only [hfit, hidx]

theorem mallocB_eq_grow {st : AState} {s : Nat} (hs : s ≠ 0)
    (hfit : fitScan st (mallocNS s) = none) (hok : st.sbrkOk = true) :
    mm_mallocB st s =
      (splitBlock { st with blocks := st.blocks ++ [mkFree (max (mallocNS s) 4096)] }
        st.blocks.length (mallocNS s), some (heapEnd st.blocks + 4)) := by
  unfold mm_mallocB
  rw [if_neg hs]
  simp only [hfit, hok, if_true]

theorem mallocB_eq_fail {st : AState} {s : Nat} (hs : s ≠ 0)
    (hfit : fitScan st (mallocNS s) = none) (hok : st.sbrkOk = false) :
    mm_mallocB st s = (st, none) := by
  unfold mm_mallocB
  rw [if_neg hs]
  simp [hfit, hok]

theorem spliceRun_append_overwrite (l : List Blk) (f : Blk) (nb : List Blk) :
    spliceRun (l ++ [f]) l.length (l.length + 1) nb = spliceRun l l.length l.length nb := by
  unfold spliceRun
  rw [List.take_left, List.drop_eq_nil_of_le (by simp), List.take_length, List.drop_length]

theorem addrAt_append_self (l : List Blk) (f : Blk) :
    addrAt (l ++ [f]) l.length = heapEnd l := by
  unfold addrAt heapEnd
  rw [List.take_left]

theorem addrAt_length (l : List Blk) : addrAt l l.length = heapEnd l := by
  unfold addrAt heapEnd
  rw [List.take_length]

/-- mm_malloc returning null never mutates the state (the free-list search
only reads, and a failing mem_sbrk aborts before any write). -/
theorem mallocB_none (st : AState) (s : Nat) :
    (mm_mallocB st s).2 = none → (mm_mallocB st s).1 = st := by
  intro h
  unfold mm_mallocB at h ⊢
  by_cases hs : s = 0
  · rw [if_pos hs] at h ⊢
  · rw [if_neg hs] at h ⊢
    cases hfit : fitScan st (mallocNS s) with
    | some a =>
      simp only [hfit] at h ⊢
      cases hidx : idxAt? st.blocks FIRST a with
      | some i => simp only [hidx] at h; simp at h
      | none => simp only [hidx] at h ⊢
    | none =>
      simp only [hfit] at h ⊢
      cases hok : st.sbrkOk with
      | true => simp only [hok, if_true] at h; simp at h
      | false => simp only [hok] at h ⊢; simp

theorem max_mod8 {a b : Nat} (ha : a % 8 = 0) (hb : b % 8 = 0) : max a b % 8 = 0 := by
  rw [Nat.max_def]
  split
  · exact hb
  · exact ha

/-- Formatting fresh mem_sbrk space as one free block at the heap end and
splitting it preserves the invariant (the mm_malloc growth path). -/
theorem Inv_growSplit {st : AState} {ns buf : Nat} (hI : Inv st)
    (hns8 : ns % 8 = 0) (hns16 : 16 ≤ ns) (hbuf8 : buf % 8 = 0) (hbuf16 : 16 ≤ buf) :
    Inv (splitBlock { st with blocks := st.blocks ++ [mkFree buf] } st.blocks.length ns) := by
  have hget1 : ({ st with blocks := st.blocks ++ [mkFree buf] } : AState).blocks.get?
      st.blocks.length = some (mkFree buf) := List.get?_concat_length _ _
  rw [splitBlock_eq_some hget1]
  have hIe := Inv_iff_InvExc.mp hI
  have hpos := sizesPos hI.2.1
  have hdetV : ∀ t (ht : t < st.blocks.length), st.blocks.length ≤ t →
      t < st.blocks.length → (st.blocks.get ⟨t, ht⟩).alloc = false →
      addrAt st.blocks t ∈ ([] : List Nat) := by
    intro t ht h1 h2
    omega
  have hexwV : ∀ a ∈ ([] : List Nat), addrAt st.blocks st.blocks.length ≤ a ∧
      a < addrAt st.blocks st.blocks.length := by
    intro a ha
    simp at ha
  have hedgeRV : ∀ (nb : List Blk), ∀ x ∈ nb.getLast?,
      ∀ y ∈ (st.blocks.drop st.blocks.length).head?, x.alloc = true ∨ y.alloc = true := by
    intro nb x hx y hy
    rw [head?_drop_blk, List.get?_eq_none.mpr (le_refl _)] at hy
    cases hy
  split
  · rename_i hlt
    -- split: allocated front of size ns plus free remainder, remainder inserted
    have hover : spliceRun ({ st with blocks := st.blocks ++ [mkFree buf] } : AState).blocks
        st.blocks.length (st.blocks.length + 1)
        [⟨ns, true, (mkFree buf).data.take (ns - 4)⟩, mkFree ((mkFree buf).size - ns)] =
        spliceRun st.blocks st.blocks.length st.blocks.length
        [⟨ns, true, (mkFree buf).data.take (ns - 4)⟩, mkFree ((mkFree buf).size - ns)] :=
      spliceRun_append_overwrite _ _ _
    have haddr0 : addrAt ({ st with blocks := st.blocks ++ [mkFree buf] } : AState).blocks
        st.blocks.length = heapEnd st.blocks := addrAt_append_self _ _
    have hmk : (mkFree buf).size = buf := rfl
    rw [hmk] at hlt hover ⊢
    have hrem8 : (buf - ns) % 8 = 0 := by omega
    have hrem16 : 16 ≤ buf - ns := by omega
    have hsplice : InvExc { st with blocks := spliceRun st.blocks st.blocks.length st.blocks.length [⟨ns, true, (mkFree buf).data.take (ns - 4)⟩, mkFree (buf - ns)] } [heapEnd st.blocks + ns] := by
      refine InvExc_splice hIe (le_refl _) (le_refl _) ?_ ?_ ?_ (hedgeRV _) ?_ (Or.inr rfl)
        hdetV hexwV ?_ ?_
      · intro c hc
        rcases List.mem_cons.mp hc with hc | hc
        · subst hc
          refine ⟨hns8, hns16, ?_⟩
          simp only [mkFree, List.take_nil, List.length_nil]
          omega
        · rcases List.mem_cons.mp hc with hc | hc
          · subst hc
            refine ⟨hrem8, hrem16, ?_⟩
            simp only [mkFree, List.length_nil]
            omega
          · simp at hc
      · exact List.chain'_cons.mpr ⟨Or.inl rfl, List.chain'_singleton _⟩
      · intro x hx y hy
        simp only [List.head?_cons, Option.mem_some_iff] at hy
        subst hy
        exact Or.inr rfl
      · simp
      · intro t ht hal
        simp only [List.length_cons, List.length_nil] at ht
        interval_cases t
        · simp [List.get] at hal
        · simp only [List.mem_singleton, List.take_succ_cons, List.take_zero, sizeSum_cons,
            sizeSum_nil, addrAt_length]
          omega
      · intro a ha
        simp only [List.mem_singleton] at ha
        subst ha
        simp only [sizeSum_cons, sizeSum_nil, mkFree, addrAt_length]
        omega
    rw [hover, haddr0]
    have hposS : ∀ c ∈ (spliceRun st.blocks st.blocks.length st.blocks.length
        [⟨ns, true, (mkFree buf).data.take (ns - 4)⟩, mkFree (buf - ns)]), 0 < c.size :=
      sizesPos hsplice.2.1
    have hlen1 : (spliceRun st.blocks st.blocks.length st.blocks.length
        [⟨ns, true, (mkFree buf).data.take (ns - 4)⟩, mkFree (buf - ns)]).length =
        st.blocks.length + 2 := by
      rw [length_spliceRun (le_refl _)]
      simp
    have haddr1 : addrAt (spliceRun st.blocks st.blocks.length st.blocks.length
        [⟨ns, true, (mkFree buf).data.take (ns - 4)⟩, mkFree (buf - ns)])
        (st.blocks.length + 1) = heapEnd st.blocks + ns := by
      have h : addrAt (spliceRun st.blocks st.blocks.length st.blocks.length
          [⟨ns, true, (mkFree buf).data.take (ns - 4)⟩, mkFree (buf - ns)])
          (st.blocks.length + 1) = addrAt st.blocks st.blocks.length +
          sizeSum (([⟨ns, true, (mkFree buf).data.take (ns - 4)⟩,
            mkFree (buf - ns)] : List Blk).take 1) :=
        addrAt_splice_mid (le_refl _) (by simp)
      rw [h, addrAt_length]
      simp
    have hgetr : (spliceRun st.blocks st.blocks.length st.blocks.length
        [⟨ns, true, (mkFree buf).data.take (ns - 4)⟩, mkFree (buf - ns)]).get?
        (st.blocks.length + 1) = some (mkFree (buf - ns)) := by
      have h : (spliceRun st.blocks st.blocks.length st.blocks.length
          [⟨ns, true, (mkFree buf).data.take (ns - 4)⟩, mkFree (buf - ns)]).get?
          (st.blocks.length + 1) = ([⟨ns, true, (mkFree buf).data.take (ns - 4)⟩,
            mkFree (buf - ns)] : List Blk).get? 1 :=
        get?_splice_mid (le_refl _) (by simp)
      rw [h]
      rfl
    have hidx1 : idxAt? (spliceRun st.blocks st.blocks.length st.blocks.length
        [⟨ns, true, (mkFree buf).data.take (ns - 4)⟩, mkFree (buf - ns)]) FIRST
        (heapEnd st.blocks + ns) = some (st.blocks.length + 1) := by
      rw [← haddr1]
      unfold addrAt
      exact idxAt?_addrAt hposS (by omega)
    exact Inv_iff_InvExc.mpr (InvExc_insert hsplice hidx1 hgetr rfl (by simp))
  · rename_i hge
    have hover : spliceRun ({ st with blocks := st.blocks ++ [mkFree buf] } : AState).blocks
        st.blocks.length (st.blocks.length + 1)
        [⟨(mkFree buf).size, true, (mkFree buf).data⟩] =
        spliceRun st.blocks st.blocks.length st.blocks.length
        [⟨(mkFree buf).size, true, (mkFree buf).data⟩] :=
      spliceRun_append_overwrite _ _ _
    rw [hover]
    refine Inv_iff_InvExc.mpr (InvExc_splice hIe (le_refl _) (le_refl _)
      ?_ ?_ ?_ (hedgeRV _) ?_ (Or.inr rfl) hdetV hexwV ?_ ?_)
    · intro c hc
      rcases List.mem_cons.mp hc with hc | hc
      · subst hc
        refine ⟨hbuf8, hbuf16, ?_⟩
        simp only [mkFree, List.length_nil]
        omega
      · simp at hc
    · exact List.chain'_singleton _
    · intro x hx y hy
      simp only [List.head?_cons, Option.mem_some_iff] at hy
      subst hy
      exact Or.inr rfl
    · simp
    · intro t ht hal
      simp only [List.length_cons, List.length_nil] at ht
      interval_cases t
      · simp [List.get] at hal
    · intro a ha
      simp at ha

/-- mm_malloc preserves the global invariant. -/
theorem Inv_mallocB {st : AState} (hI : Inv st) (s : Nat) : Inv (mm_mallocB st s).1 := by
  by_cases hs : s = 0
  · unfold mm_mallocB
    rw [if_pos hs]
    exact hI
  cases hfit : fitScan st (mallocNS s) with
  | some a =>
    obtain ⟨i0, b, hidx, hget, hal, hle⟩ := fitScan_free hI hfit
    rw [mallocB_eq_fit hs hfit hidx]
    have hrem : InvExc (removeFromList st a) [a] :=
      InvExc_remove (Inv_iff_InvExc.mp hI) hidx hget hal
    have haeq : a = addrAt st.blocks i0 := addrAt_eq_of_idx hidx
    have hrem2 : InvExc (removeFromList st a)
        [addrAt (removeFromList st a).blocks i0] := by
      rw [blocks_removeFromList, ← haeq]
      exact hrem
    exact Inv_iff_InvExc.mpr
      (InvExc_splitBlock hrem2 hget hal (alignForBlock_mod8 _) (alignForBlock_ge16 _))
  | none =>
    cases hok : st.sbrkOk with
    | false =>
      rw [mallocB_eq_fail hs hfit hok]
      exact hI
    | true =>
      rw [mallocB_eq_grow hs hfit hok]
      exact Inv_growSplit hI (alignForBlock_mod8 _) (alignForBlock_ge16 _)
        (max_mod8 (alignForBlock_mod8 _) (by omega))
        (le_trans (alignForBlock_ge16 _) (Nat.le_max_left _ _))

/-! ## mm_free analysis -/

theorem sizeSum_mod8 {bs : List Blk} (h : ∀ b ∈ bs, b.size % 8 = 0) : sizeSum bs % 8 = 0 := by
  induction bs with
  | nil => rfl
  | cons b bs ih =>
    rw [sizeSum_cons]
    have h1 := h b (by simp)
    have h2 := ih fun c hc => h c (by simp [hc])
    omega

theorem addrAt_mod8 {bs : List Blk} (hsz : sizesOK bs) (i : Nat) : addrAt bs i % 8 = 4 := by
  unfold addrAt FIRST
  have h : sizeSum (bs.take i) % 8 = 0 :=
    sizeSum_mod8 fun b hb => (hsz b (List.mem_of_mem_take hb)).1
  omega

theorem prevBlockB_some_elim {st : AState} {i k : Nat} (h : prevBlockB st i = some k) :
    i = k + 1 ∧ ∃ c, st.blocks.get? k = some c ∧ c.alloc = false := by
  cases i with
  | zero => simp [prevBlockB] at h
  | succ m =>
    cases hg : st.blocks.get? m with
    | none =>
      simp only [prevBlockB, hg] at h
      exact Option.noConfusion h
    | some c =>
      simp only [prevBlockB, hg] at h
      by_cases h1 : c.alloc = true
      · rw [if_pos h1] at h
        exact Option.noConfusion h
      · rw [if_neg h1] at h
        by_cases h2 : c.size < 16
        · rw [if_pos h2] at h
          exact Option.noConfusion h
        · rw [if_neg h2] at h
          by_cases h3 : (addrAt st.blocks m + 4) % 8 ≠ 0
          · rw [if_pos h3] at h
            exact Option.noConfusion h
          · rw [if_neg h3] at h
            by_cases h4 : addrAt st.blocks m ∈ bucket st (searchIdx c.size - 1)
            · rw [if_pos h4] at h
              cases Option.some_inj.mp h
              exact ⟨rfl, c, hg, by simpa using h1⟩
            · rw [if_neg h4] at h
              exact Option.noConfusion h

theorem prevBlockB_some_of_free {st : AState} (hsz : sizesOK st.blocks)
    (hcmp : dirComplete st) {k : Nat} {c : Blk}
    (hget : st.blocks.get? k = some c) (hfree : c.alloc = false) :
    prevBlockB st (k + 1) = some k := by
  have hk := lt_of_get?_eq_some hget
  have hc : c ∈ st.blocks := by
    rw [← get_eq_of_get? hget hk]
    exact st.blocks.get_mem _ _
  have h16 := (hsz c hc).2
  have hmem : addrAt st.blocks k ∈ bucket st (searchIdx c.size - 1) := by
    have h := hcmp k hk (by rw [get_eq_of_get? hget hk]; exact hfree)
    rw [get_eq_of_get? hget hk] at h
    exact h
  simp only [prevBlockB, hget]
  rw [if_neg (by simp [hfree]), if_neg (by omega),
    if_neg (by have := addrAt_mod8 hsz k; omega), if_pos hmem]

theorem prevBlockB_none_left {st : AState} (hsz : sizesOK st.blocks) (hcmp : dirComplete st)
    {i : Nat} (hi : i ≤ st.blocks.length) (h : prevBlockB st i = none) :
    ∀ x ∈ (st.blocks.take i).getLast?, x.alloc = true := by
  intro x hx
  cases i with
  | zero => simp at hx
  | succ m =>
    rw [getLast?_take_blk (by omega) (by omega)] at hx
    have hx2 : st.blocks.get? m = some x := by simpa using hx
    by_contra hal
    rw [prevBlockB_some_of_free hsz hcmp hx2 (by simpa using hal)] at h
    cases h

theorem nextFreeB_true_elim {st : AState} {i : Nat} (h : nextFreeB st i = true) :
    ∃ d, st.blocks.get? (i + 1) = some d ∧ d.alloc = false := by
  unfold nextFreeB at h
  cases hg : st.blocks.get? (i + 1) with
  | none => rw [hg] at h; cases h
  | some d =>
    rw [hg] at h
    exact ⟨d, rfl, by simpa using h⟩

theorem nextFreeB_false_right {st : AState} {i : Nat} (h : nextFreeB st i = false) :
    ∀ y ∈ (st.blocks.drop (i + 1)).head?, y.alloc = true := by
  intro y hy
  rw [head?_drop_blk] at hy
  have hy2 : st.blocks.get? (i + 1) = some y := hy
  unfold nextFreeB at h
  rw [hy2] at h
  simpa using h

theorem allocLeft_of_free {st : AState} (hadj : adjOK st.blocks) {k : Nat} {c : Blk}
    (hget : st.blocks.get? k = some c) (hfree : c.alloc = false) :
    ∀ x ∈ (st.blocks.take k).getLast?, x.alloc = true := by
  intro x hx
  have hk := lt_of_get?_eq_some hget
  cases k with
  | zero => simp at hx
  | succ m =>
    rw [getLast?_take_blk (by omega) (by omega)] at hx
    have hx2 : st.blocks.get? m = some x := by simpa using hx
    have hpair := adjOK_pair hadj (t := m) (by omega)
    rw [get_eq_of_get? hx2 (by omega), get_eq_of_get? hget hk] at hpair
    rcases hpair with hp | hp
    · exact hp
    · rw [hfree] at hp
      cases hp

theorem allocRight_of_free {st : AState} (hadj : adjOK st.blocks) {k : Nat} {c : Blk}
    (hget : st.blocks.get? k = some c) (hfree : c.alloc = false) :
    ∀ y ∈ (st.blocks.drop (k + 1)).head?, y.alloc = true := by
  intro y hy
  rw [head?_drop_blk] at hy
  have hy2 : st.blocks.get? (k + 1) = some y := hy
  have hk1 := lt_of_get?_eq_some hy2
  have hpair := adjOK_pair hadj (t := k) hk1
  rw [get_eq_of_get? hget (by omega), get_eq_of_get? hy2 hk1] at hpair
  rcases hpair with hp | hp
  · rw [hfree] at hp
    cases hp
  · exact hp

/-- Coalescing surgery: replacing the run [j, k2) by one merged free block
and filing it into the directory restores the full invariant, given that
the free blocks of the run were already detached (listed in ex), the
physical neighbors of the run are allocated, and the sizes balance. -/
theorem InvExc_spliceFreeInsert {st : AState} {ex : List Nat} {j k2 sz : Nat}
    (hI : InvExc st ex) (hjk : j < k2) (hk2 : k2 ≤ st.blocks.length)
    (hsz8 : sz % 8 = 0) (hsz16 : 16 ≤ sz)
    (hsum : sizeSum (st.blocks.take j) + sz = sizeSum (st.blocks.take k2))
    (hL : ∀ x ∈ (st.blocks.take j).getLast?, x.alloc = true)
    (hR : ∀ y ∈ (st.blocks.drop k2).head?, y.alloc = true)
    (hdet : ∀ t (ht : t < st.blocks.length), j ≤ t → t < k2 →
      (st.blocks.get ⟨t, ht⟩).alloc = false → addrAt st.blocks t ∈ ex)
    (hexw : ∀ a ∈ ex, addrAt st.blocks j ≤ a ∧ a < addrAt st.blocks k2) :
    Inv (insertIntoList { st with blocks := spliceRun st.blocks j k2 [mkFree sz] } (addrAt st.blocks j)) := by
  have hjlt : j < st.blocks.length := lt_of_lt_of_le hjk hk2
  have hms : (mkFree sz).size = sz := rfl
  have hsplice : InvExc { st with blocks := spliceRun st.blocks j k2 [mkFree sz] }
      [addrAt st.blocks j] := by
    refine InvExc_splice hI (by omega) hk2 ?_ (List.chain'_singleton _) ?_ ?_ (by simp)
      (Or.inl ?_) hdet hexw ?_ ?_
    · intro c hc
      simp only [List.mem_singleton] at hc
      subst hc
      exact ⟨hsz8, hsz16, by simp [mkFree]; omega⟩
    · intro x hx y hy
      exact Or.inl (hL x hx)
    · intro x hx y hy
      exact Or.inr (hR y hy)
    · simp only [sizeSum_cons, sizeSum_nil, hms]
      omega
    · intro t ht _
      have ht0 : t = 0 := by simpa using ht
      subst ht0
      simp
    · intro a ha
      simp only [List.mem_singleton] at ha
      subst ha
      simp only [sizeSum_cons, sizeSum_nil, hms]
      omega
  have hsz2 : sizesOK (spliceRun st.blocks j k2 [mkFree sz]) := hsplice.2.1
  have hlen2 : (spliceRun st.blocks j k2 [mkFree sz]).length =
      j + 1 + (st.blocks.length - k2) := by
    have h : (spliceRun st.blocks j k2 [mkFree sz]).length =
        j + [mkFree sz].length + (st.blocks.length - k2) := length_spliceRun (le_of_lt hjlt)
    simpa using h
  have haddr : addrAt (spliceRun st.blocks j k2 [mkFree sz]) j = addrAt st.blocks j :=
    addrAt_splice_le (le_of_lt hjlt) (le_refl j)
  have hidx : idxAt? (spliceRun st.blocks j k2 [mkFree sz]) FIRST (addrAt st.blocks j) =
      some j := by
    rw [← haddr, addrAt]
    exact idxAt?_addrAt (sizesPos hsz2) (by omega)
  have hget : (spliceRun st.blocks j k2 [mkFree sz]).get? j = some (mkFree sz) := by
    have h : (spliceRun st.blocks j k2 [mkFree sz]).get? (j + 0) = [mkFree sz].get? 0 :=
      get?_splice_mid (le_of_lt hjlt) (by simp)
    simpa using h
  exact Inv_iff_InvExc.mpr (InvExc_insert hsplice hidx hget rfl (by simp))

/-- Body of mm_free preserves the invariant when applied to an allocated
block: each of the four coalescing cases ends in a merged free splice. -/
theorem Inv_freeCore {st : AState} (hI : Inv st) {i : Nat} {b : Blk}
    (hget : st.blocks.get? i = some b) (halloc : b.alloc = true) :
    Inv (freeCore st i b) := by
  have hIe : InvExc st [] := Inv_iff_InvExc.mp hI
  obtain ⟨hlen, hsz, hdat, hadj, hsnd, hcmp, hnd, hsrt⟩ := hI
  have hpos := sizesPos hsz
  have hilt : i < st.blocks.length := lt_of_get?_eq_some hget
  have hbmem : b ∈ st.blocks := by
    rw [← get_eq_of_get? hget hilt]
    exact st.blocks.get_mem _ _
  have hb8 := (hsz b hbmem).1
  have hb16 := (hsz b hbmem).2
  unfold freeCore
  cases hpb : prevBlockB st i with
  | some k =>
    obtain ⟨hik, c, hgc, hfc⟩ := prevBlockB_some_elim hpb
    subst hik
    have hcmem : c ∈ st.blocks := by
      rw [← get_eq_of_get? hgc (by omega)]
      exact st.blocks.get_mem _ _
    have hc8 := (hsz c hcmem).1
    have hc16 := (hsz c hcmem).2
    have hskc : sizeK st k = c.size := by unfold sizeK; rw [hgc]; rfl
    have hidxk : idxAt? st.blocks FIRST (addrAt st.blocks k) = some k := by
      rw [addrAt]
      exact idxAt?_addrAt hpos (by omega)
    have hr1 : InvExc (removeFromList st (addrAt st.blocks k)) [addrAt st.blocks k] :=
      InvExc_remove hIe hidxk hgc hfc
    cases hnf : nextFreeB st (k + 1) with
    | true =>
      obtain ⟨d, hgd, hfd⟩ := nextFreeB_true_elim hnf
      have hdlt : k + 1 + 1 < st.blocks.length := lt_of_get?_eq_some hgd
      have hdmem : d ∈ st.blocks := by
        rw [← get_eq_of_get? hgd hdlt]
        exact st.blocks.get_mem _ _
      have hd8 := (hsz d hdmem).1
      have hd16 := (hsz d hdmem).2
      have hskd : sizeK st (k + 1 + 1) = d.size := by unfold sizeK; rw [hgd]; rfl
      have hidxd : idxAt? st.blocks FIRST (addrAt st.blocks (k + 1 + 1)) =
          some (k + 1 + 1) := by
        rw [addrAt]
        exact idxAt?_addrAt hpos hdlt
      have hr2 : InvExc (removeFromList (removeFromList st (addrAt st.blocks k)) (addrAt st.blocks (k + 1 + 1))) [addrAt st.blocks (k + 1 + 1), addrAt st.blocks k] :=
        InvExc_remove hr1 hidxd hgd hfd
      have t1 := sizeSum_take_succ hgc
      have t2 := sizeSum_take_succ hget
      have t3 := sizeSum_take_succ hgd
      refine InvExc_spliceFreeInsert hr2 (by omega) ?_ ?_ ?_ ?_ ?_ ?_ ?_ ?_
      · simp only [blocks_removeFromList]
        omega
      · simp only [hskc, hskd]
        omega
      · simp only [hskc, hskd]
        omega
      · show sizeSum (st.blocks.take k) + (sizeK st k + b.size + sizeK st (k + 1 + 1)) =
          sizeSum (st.blocks.take (k + 1 + 1 + 1))
        rw [hskc, hskd]
        omega
      · simp only [blocks_removeFromList]
        exact allocLeft_of_free hadj hgc hfc
      · simp only [blocks_removeFromList]
        exact allocRight_of_free hadj hgd hfd
      · simp only [blocks_removeFromList]
        intro t ht h1 h2 hfr
        have hcases : t = k ∨ t = k + 1 ∨ t = k + 1 + 1 := by omega
        rcases hcases with rfl | rfl | rfl
        · simp
        · rw [get_eq_of_get? hget ht, halloc] at hfr
          cases hfr
        · simp
      · simp only [blocks_removeFromList]
        intro a ha
        rcases List.mem_cons.mp ha with rfl | ha
        · exact ⟨addrAt_le_of_le (by omega), addrAt_lt_of_lt hpos (by omega) hdlt⟩
        · rcases List.mem_cons.mp ha with rfl | ha
          · exact ⟨le_refl _, addrAt_lt_of_lt hpos (by omega) (by omega)⟩
          · simp at ha
    | false =>
      have t1 := sizeSum_take_succ hgc
      have t2 := sizeSum_take_succ hget
      refine InvExc_spliceFreeInsert hr1 (by omega) ?_ ?_ ?_ ?_ ?_ ?_ ?_ ?_
      · simp only [blocks_removeFromList]
        omega
      · simp only [hskc]
        omega
      · simp only [hskc]
        omega
      · show sizeSum (st.blocks.take k) + (sizeK st k + b.size) =
          sizeSum (st.blocks.take (k + 1 + 1))
        rw [hskc]
        omega
      · simp only [blocks_removeFromList]
        exact allocLeft_of_free hadj hgc hfc
      · simp only [blocks_removeFromList]
        exact nextFreeB_false_right hnf
      · simp only [blocks_removeFromList]
        intro t ht h1 h2 hfr
        have hcases : t = k ∨ t = k + 1 := by omega
        rcases hcases with rfl | rfl
        · simp
        · rw [get_eq_of_get? hget ht, halloc] at hfr
          cases hfr
      · simp only [blocks_removeFromList]
        intro a ha
        rcases List.mem_cons.mp ha with rfl | ha
        · exact ⟨le_refl _, addrAt_lt_of_lt hpos (by omega) (by omega)⟩
        · simp at ha
  | none =>
    cases hnf : nextFreeB st i with
    | true =>
      obtain ⟨d, hgd, hfd⟩ := nextFreeB_true_elim hnf
      have hdlt : i + 1 < st.blocks.length := lt_of_get?_eq_some hgd
      have hdmem : d ∈ st.blocks := by
        rw [← get_eq_of_get? hgd hdlt]
        exact st.blocks.get_mem _ _
      have hd8 := (hsz d hdmem).1
      have hd16 := (hsz d hdmem).2
      have hskd : sizeK st (i + 1) = d.size := by unfold sizeK; rw [hgd]; rfl
      have hidxd : idxAt? st.blocks FIRST (addrAt st.blocks (i + 1)) = some (i + 1) := by
        rw [addrAt]
        exact idxAt?_addrAt hpos hdlt
      have hr1 : InvExc (removeFromList st (addrAt st.blocks (i + 1))) [addrAt st.blocks (i + 1)] :=
        InvExc_remove hIe hidxd hgd hfd
      have t2 := sizeSum_take_succ hget
      have t3 := sizeSum_take_succ hgd
      refine InvExc_spliceFreeInsert hr1 (by omega) ?_ ?_ ?_ ?_ ?_ ?_ ?_ ?_
      · simp only [blocks_removeFromList]
        omega
      · simp only [hskd]
        omega
      · simp only [hskd]
        omega
      · show sizeSum (st.blocks.take i) + (b.size + sizeK st (i + 1)) =
          sizeSum (st.blocks.take (i + 1 + 1))
        rw [hskd]
        omega
      · simp only [blocks_removeFromList]
        exact prevBlockB_none_left hsz hcmp (by omega) hpb
      · simp only [blocks_removeFromList]
        exact allocRight_of_free hadj hgd hfd
      · simp only [blocks_removeFromList]
        intro t ht h1 h2 hfr
        have hcases : t = i ∨ t = i + 1 := by omega
        rcases hcases with rfl | rfl
        · rw [get_eq_of_get? hget ht, halloc] at hfr
          cases hfr
        · simp
      · simp only [blocks_removeFromList]
        intro a ha
        rcases List.mem_cons.mp ha with rfl | ha
        · exact ⟨addrAt_le_of_le (by omega), addrAt_lt_of_lt hpos (by omega) hdlt⟩
        · simp at ha
    | false =>
      have t2 := sizeSum_take_succ hget
      refine InvExc_spliceFreeInsert hIe (by omega) ?_ hb8 hb16 ?_ ?_ ?_ ?_ ?_
      · omega
      · show sizeSum (st.blocks.take i) + b.size = sizeSum (st.blocks.take (i + 1))
        omega
      · exact prevBlockB_none_left hsz hcmp (by omega) hpb
      · exact nextFreeB_false_right hnf
      · intro t ht h1 h2 hfr
        have hcases : t = i := by omega
        subst hcases
        rw [get_eq_of_get? hget ht, halloc] at hfr
        cases hfr
      · intro a ha
        simp at ha

/-! ## mm_realloc analysis -/

theorem alignForBlock_ge4 (s : Nat) : s + 4 ≤ alignForBlock s := by
  unfold alignForBlock
  split
  · omega
  · have h1 := Nat.div_add_mod (s + 11) 8
    have h2 : (s + 11) % 8 < 8 := Nat.mod_lt _ (by omega)
    omega

theorem round2Loop_ge {fuel s temp : Nat} (h : s ≤ temp * 2 ^ fuel) :
    s ≤ round2Loop fuel s temp := by
  induction fuel generalizing temp with
  | zero => simpa [round2Loop] using h
  | succ fuel ih =>
    simp only [round2Loop]
    split
    · exact ih (le_trans h (le_of_eq (by ring)))
    · omega

theorem round2_ge (s : Nat) : s ≤ round2 s := by
  unfold round2
  exact round2Loop_ge (by simpa using Nat.le_of_lt (Nat.lt_two_pow s))

theorem mallocNS_ge4 (s : Nat) : s + 4 ≤ mallocNS s := by
  unfold mallocNS
  split
  · have h1 := alignForBlock_ge4 (round2 s)
    have h2 := round2_ge s
    omega
  · exact alignForBlock_ge4 s

theorem blockAt?_some_elim {bs : List Blk} {base a : Nat} {c : Blk}
    (h : blockAt? bs base a = some c) :
    ∃ j, idxAt? bs base a = some j ∧ bs.get? j = some c := by
  unfold blockAt? at h
  cases hidx : idxAt? bs base a with
  | none => rw [hidx] at h; cases h
  | some j => rw [hidx] at h; exact ⟨j, rfl, h⟩

/-- split_block leaves every allocated block (necessarily outside the split
free block) untouched. -/
theorem blockAt?_splitBlock_frame {st : AState} {i ns : Nat} {b : Blk}
    (hpos : ∀ u ∈ st.blocks, 0 < u.size)
    (hget : st.blocks.get? i = some b) (hfree : b.alloc = false)
    (hns0 : 0 < ns) (hns : ns ≤ b.size)
    {a : Nat} {c : Blk} (hb : blockAt? st.blocks FIRST a = some c) (hal : c.alloc = true) :
    blockAt? (splitBlock st i ns).blocks FIRST a = some c := by
  obtain ⟨j, hja, hjg⟩ := blockAt?_some_elim hb
  have hjlt := lt_of_get?_eq_some hjg
  have hilt := lt_of_get?_eq_some hget
  have haj : a = addrAt st.blocks j := addrAt_eq_of_idx hja
  have hji : j ≠ i := by
    intro hc
    subst hc
    rw [hget] at hjg
    cases Option.some_inj.mp hjg
    rw [hal] at hfree
    cases hfree
  rw [splitBlock_eq_some hget]
  rcases Nat.lt_or_ge j i with hlt | hge
  · have ha : a < addrAt st.blocks i := haj ▸ addrAt_lt_of_lt hpos hlt hjlt
    split
    · simp only [blocks_insertIntoList]
      rw [blockAt?_splice_before hpos ha]
      exact hb
    · show blockAt? (spliceRun st.blocks i (i + 1) [⟨b.size, true, b.data⟩]) FIRST a = some c
      rw [blockAt?_splice_before hpos ha]
      exact hb
  · have hgt : i + 1 ≤ j := by omega
    have ha : addrAt st.blocks (i + 1) ≤ a := haj ▸ addrAt_le_of_le hgt
    have hsum1 := sizeSum_take_succ hget
    split
    · rename_i hcut
      simp only [blocks_insertIntoList]
      rw [blockAt?_splice_after hpos ?_ ?_ ha]
      · exact hb
      · intro u hu
        rcases List.mem_cons.mp hu with rfl | hu
        · exact hns0
        · rcases List.mem_cons.mp hu with rfl | hu
          · show 0 < b.size - ns
            omega
          · simp at hu
      · simp only [sizeSum_cons, sizeSum_nil]
        show sizeSum (st.blocks.take i) + (ns + ((mkFree (b.size - ns)).size + 0)) =
          sizeSum (st.blocks.take (i + 1))
        have hmk : (mkFree (b.size - ns)).size = b.size - ns := rfl
        omega
    · show blockAt? (spliceRun st.blocks i (i + 1) [⟨b.size, true, b.data⟩]) FIRST a = some c
      rw [blockAt?_splice_after hpos ?_ ?_ ha]
      · exact hb
      · intro u hu
        rcases List.mem_cons.mp hu with rfl | hu
        · show 0 < b.size
          omega
        · simp at hu
      · simp only [sizeSum_cons, sizeSum_nil]
        omega

/-- mm_malloc leaves every allocated block untouched: carving happens only
inside a free block or fresh heap space. -/
theorem mallocB_frame {st : AState} (hI : Inv st) (s : Nat) {a : Nat} {c : Blk}
    (hb : blockAt? st.blocks FIRST a = some c) (hal : c.alloc = true) :
    blockAt? (mm_mallocB st s).1.blocks FIRST a = some c := by
  have hpos := sizesPos hI.2.1
  by_cases hs : s = 0
  · subst hs
    show blockAt? (st, (none : Option Nat)).1.blocks FIRST a = some c
    exact hb
  · have h16 := alignForBlock_ge16 (if s < 4096 then round2 s else s)
    have hns0 : 0 < mallocNS s := by unfold mallocNS; omega
    cases hfit : fitScan st (mallocNS s) with
    | some af =>
      obtain ⟨i0, b, hidx, hget, hbfree, hble⟩ := fitScan_free hI hfit
      rw [mallocB_eq_fit hs hfit hidx]
      have hposr : ∀ u ∈ (removeFromList st af).blocks, 0 < u.size := hpos
      have hgetr : (removeFromList st af).blocks.get? i0 = some b := hget
      have hbr : blockAt? (removeFromList st af).blocks FIRST a = some c := hb
      have hfr := blockAt?_splitBlock_frame hposr hgetr hbfree hns0 hble hbr hal
      exact hfr
    | none =>
      cases hok : st.sbrkOk with
      | false =>
        rw [mallocB_eq_fail hs hfit hok]
        exact hb
      | true =>
        rw [mallocB_eq_grow hs hfit hok]
        obtain ⟨j, hja, hjg⟩ := blockAt?_some_elim hb
        have hjlt := lt_of_get?_eq_some hjg
        have hpos2 : ∀ u ∈ ({ st with blocks := st.blocks ++ [mkFree (max (mallocNS s) 4096)] } : AState).blocks, 0 < u.size := by
          intro u hu
          rcases List.mem_append.mp hu with hu | hu
          · exact hpos u hu
          · rcases List.mem_singleton.mp hu with rfl
            show 0 < max (mallocNS s) 4096
            omega
        have hb2 : blockAt? ({ st with blocks := st.blocks ++ [mkFree (max (mallocNS s) 4096)] } : AState).blocks FIRST a = some c := by
          rw [blockAt?_append_lt hpos]
          · exact hb
          · have h1 : a = addrAt st.blocks j := addrAt_eq_of_idx hja
            have h2 := sizeSum_take_lt hpos hjlt
            rw [h1, addrAt]
            omega
        have hgL : ({ st with blocks := st.blocks ++ [mkFree (max (mallocNS s) 4096)] } : AState).blocks.get? st.blocks.length = some (mkFree (max (mallocNS s) 4096)) := List.get?_concat_length _ _
        have hfr := blockAt?_splitBlock_frame hpos2 hgL rfl hns0 (le_max_left _ _) hb2 hal
        exact hfr

/-- Characterization of a successful mm_malloc: the returned payload pointer
sits 4 bytes into an allocated block of at least the aligned size. -/
theorem mallocB_result {st : AState} (hI : Inv st) {s : Nat} {q : Nat}
    (h : (mm_mallocB st s).2 = some q) :
    ∃ j c, (mm_mallocB st s).1.blocks.get? j = some c ∧ c.alloc = true ∧
      mallocNS s ≤ c.size ∧ q = addrAt (mm_mallocB st s).1.blocks j + 4 := by
  have hpos := sizesPos hI.2.1
  by_cases hs : s = 0
  · subst hs
    rw [show (mm_mallocB st 0).2 = none from rfl] at h
    cases h
  · cases hfit : fitScan st (mallocNS s) with
    | some af =>
      obtain ⟨i0, b, hidx, hget, hbfree, hble⟩ := fitScan_free hI hfit
      have hilt := lt_of_get?_eq_some hget
      have heq := mallocB_eq_fit hs hfit hidx
      rw [heq] at h ⊢
      have hq : q = af + 4 := Option.some_inj.mp h.symm
      subst hq
      have haf : af = addrAt st.blocks i0 := addrAt_eq_of_idx hidx
      have hgetr : (removeFromList st af).blocks.get? i0 = some b := hget
      rw [splitBlock_eq_some hgetr]
      split
      · rename_i hcut
        refine ⟨i0, ⟨mallocNS s, true, b.data.take (mallocNS s - 4)⟩, ?_, rfl, le_refl _, ?_⟩
        · simp only [blocks_insertIntoList, blocks_removeFromList]
          have hg : (spliceRun st.blocks i0 (i0 + 1) [⟨mallocNS s, true, b.data.take (mallocNS s - 4)⟩, mkFree (b.size - mallocNS s)]).get? (i0 + 0) = [⟨mallocNS s, true, b.data.take (mallocNS s - 4)⟩, mkFree (b.size - mallocNS s)].get? 0 :=
            get?_splice_mid (by omega) (by simp)
          simpa using hg
        · simp only [blocks_insertIntoList, blocks_removeFromList]
          have ha : addrAt (spliceRun st.blocks i0 (i0 + 1) [⟨mallocNS s, true, b.data.take (mallocNS s - 4)⟩, mkFree (b.size - mallocNS s)]) i0 = addrAt st.blocks i0 :=
            addrAt_splice_le (by omega) (le_refl _)
          rw [ha, haf]
      · refine ⟨i0, ⟨b.size, true, b.data⟩, ?_, rfl, hble, ?_⟩
        · have hg : (spliceRun st.blocks i0 (i0 + 1) [⟨b.size, true, b.data⟩]).get? (i0 + 0) = [(⟨b.size, true, b.data⟩ : Blk)].get? 0 :=
            get?_splice_mid (by omega) (by simp)
          simpa using hg
        · have ha : addrAt (spliceRun st.blocks i0 (i0 + 1) [⟨b.size, true, b.data⟩]) i0 = addrAt st.blocks i0 :=
            addrAt_splice_le (by omega) (le_refl _)
          show af + 4 = addrAt (spliceRun st.blocks i0 (i0 + 1) [⟨b.size, true, b.data⟩]) i0 + 4
          rw [ha, haf]
    | none =>
      cases hok : st.sbrkOk with
      | false =>
        rw [mallocB_eq_fail hs hfit hok] at h
        cases h
      | true =>
        have heq := mallocB_eq_grow hs hfit hok
        rw [heq] at h ⊢
        have hq : q = heapEnd st.blocks + 4 := Option.some_inj.mp h.symm
        subst hq
        have hgL : ({ st with blocks := st.blocks ++ [mkFree (max (mallocNS s) 4096)] } : AState).blocks.get? st.blocks.length = some (mkFree (max (mallocNS s) 4096)) := List.get?_concat_length _ _
        rw [splitBlock_eq_some hgL]
        have haL : addrAt (st.blocks ++ [mkFree (max (mallocNS s) 4096)]) st.blocks.length =
            heapEnd st.blocks := addrAt_append_self _ _
        split
        · rename_i hcut
          refine ⟨st.blocks.length, ⟨mallocNS s, true, (mkFree (max (mallocNS s) 4096)).data.take (mallocNS s - 4)⟩, ?_, rfl, le_refl _, ?_⟩
          · simp only [blocks_insertIntoList]
            have hg : (spliceRun (st.blocks ++ [mkFree (max (mallocNS s) 4096)]) st.blocks.length (st.blocks.length + 1) [⟨mallocNS s, true, (mkFree (max (mallocNS s) 4096)).data.take (mallocNS s - 4)⟩, mkFree ((mkFree (max (mallocNS s) 4096)).size - mallocNS s)]).get? (st.blocks.length + 0) = [⟨mallocNS s, true, (mkFree (max (mallocNS s) 4096)).data.take (mallocNS s - 4)⟩, mkFree ((mkFree (max (mallocNS s) 4096)).size - mallocNS s)].get? 0 :=
            get?_splice_mid (by simp) (by simp)
            simpa using hg
          · simp only [blocks_insertIntoList]
            have ha : addrAt (spliceRun (st.blocks ++ [mkFree (max (mallocNS s) 4096)]) st.blocks.length (st.blocks.length + 1) [⟨mallocNS s, true, (mkFree (max (mallocNS s) 4096)).data.take (mallocNS s - 4)⟩, mkFree ((mkFree (max (mallocNS s) 4096)).size - mallocNS s)]) st.blocks.length = addrAt (st.blocks ++ [mkFree (max (mallocNS s) 4096)]) st.blocks.length :=
              addrAt_splice_le (by simp) (le_refl _)
            rw [ha, haL]
        · refine ⟨st.blocks.length, ⟨(mkFree (max (mallocNS s) 4096)).size, true, (mkFree (max (mallocNS s) 4096)).data⟩, ?_, rfl, le_max_left _ _, ?_⟩
          · have hg : (spliceRun (st.blocks ++ [mkFree (max (mallocNS s) 4096)]) st.blocks.length (st.blocks.length + 1) [⟨(mkFree (max (mallocNS s) 4096)).size, true, (mkFree (max (mallocNS s) 4096)).data⟩]).get? (st.blocks.length + 0) = [(⟨(mkFree (max (mallocNS s) 4096)).size, true, (mkFree (max (mallocNS s) 4096)).data⟩ : Blk)].get? 0 :=
              get?_splice_mid (by simp) (by simp)
            simpa using hg
          · have ha : addrAt (spliceRun (st.blocks ++ [mkFree (max (mallocNS s) 4096)]) st.blocks.length (st.blocks.length + 1) [⟨(mkFree (max (mallocNS s) 4096)).size, true, (mkFree (max (mallocNS s) 4096)).data⟩]) st.blocks.length = addrAt (st.blocks ++ [mkFree (max (mallocNS s) 4096)]) st.blocks.length :=
              addrAt_splice_le (by simp) (le_refl _)
            show heapEnd st.blocks + 4 = addrAt (spliceRun (st.blocks ++ [mkFree (max (mallocNS s) 4096)]) st.blocks.length (st.blocks.length + 1) [⟨(mkFree (max (mallocNS s) 4096)).size, true, (mkFree (max (mallocNS s) 4096)).data⟩]) st.blocks.length + 4
            rw [ha, haL]

/-- mm_free preserves the invariant on valid pointers. -/
theorem Inv_freeB {st : AState} (hI : Inv st) {p? : Option Nat} (hv : ValidPtr st p?) :
    Inv (mm_freeB st p?) := by
  rcases hv with hv | ⟨i, b, hg, hal, hv⟩
  · subst hv
    exact hI
  · subst hv
    have hi : i < st.blocks.length := lt_of_get?_eq_some hg
    have hpm : addrAt st.blocks i + 4 - 4 = addrAt st.blocks i := by omega
    have hidx : idxAt? st.blocks FIRST (addrAt st.blocks i + 4 - 4) = some i := by
      rw [hpm, addrAt]
      exact idxAt?_addrAt (sizesPos hI.2.1) hi
    unfold mm_freeB
    simp only [hidx, hg]
    exact Inv_freeCore hI hg hal

theorem addrAt_splice_one {bs : List Blk} {i : Nat} {c cn : Blk}
    (hget : bs.get? i = some c) (hsz : cn.size = c.size) (t : Nat) :
    addrAt (spliceRun bs i (i + 1) [cn]) t = addrAt bs t := by
  have hi := lt_of_get?_eq_some hget
  have hsum : sizeSum (bs.take i) + sizeSum [cn] = sizeSum (bs.take (i + 1)) := by
    have h2 := sizeSum_take_succ hget
    simp only [sizeSum_cons, sizeSum_nil, hsz]
    omega
  rcases le_or_lt t i with ht | ht
  · exact addrAt_splice_le (by omega) ht
  · have ht2 : t = i + 1 + (t - i - 1) := by omega
    have h : addrAt (spliceRun bs i (i + 1) [cn]) (i + 1 + (t - i - 1)) =
        addrAt bs (i + 1 + (t - i - 1)) := addrAt_splice_right (by omega) (by omega) hsum
    rw [ht2]
    exact h

theorem get?_splice_one {bs : List Blk} {i : Nat} (hi : i < bs.length) (cn : Blk) (t : Nat) :
    (spliceRun bs i (i + 1) [cn]).get? t = if t = i then some cn else bs.get? t := by
  rcases Nat.lt_trichotomy t i with ht | ht | ht
  · rw [if_neg (by omega)]
    exact get?_splice_lt (by omega) ht
  · subst ht
    rw [if_pos rfl]
    have h : (spliceRun bs t (t + 1) [cn]).get? (t + 0) = [cn].get? 0 :=
      get?_splice_mid (by omega) (by simp)
    simpa using h
  · rw [if_neg (by omega)]
    have h : (spliceRun bs i (i + 1) [cn]).get? (i + 1 + (t - i - 1)) =
        bs.get? (i + 1 + (t - i - 1)) := get?_splice_right (by omega)
    have ht2 : t = i + 1 + (t - i - 1) := by omega
    rw [ht2]
    exact h

/-- The memcpy into a block keeps every payload pointer valid: block sizes,
flags and addresses are unchanged. -/
theorem ValidPtr_copyInto {st : AState} {p? : Option Nat} (h : ValidPtr st p?)
    (a : Nat) (src : List Nat) : ValidPtr (copyInto st a src) p? := by
  rcases h with h | ⟨i, b, hg, hal, hp⟩
  · exact Or.inl h
  · cases hidx : idxAt? st.blocks FIRST a with
    | none =>
      have he : copyInto st a src = st := by
        simp only [copyInto, hidx]
      rw [he]
      exact Or.inr ⟨i, b, hg, hal, hp⟩
    | some i1 =>
      cases hgc : st.blocks.get? i1 with
      | none =>
        have he : copyInto st a src = st := by
          simp only [copyInto, hidx, hgc]
        rw [he]
        exact Or.inr ⟨i, b, hg, hal, hp⟩
      | some c =>
        have he : copyInto st a src = { st with blocks := spliceRun st.blocks i1 (i1 + 1) [⟨c.size, c.alloc, src ++ c.data.drop src.length⟩] } := by
          simp only [copyInto, hidx, hgc]
        rw [he]
        have hi1 := lt_of_get?_eq_some hgc
        have haddr : addrAt (spliceRun st.blocks i1 (i1 + 1) [⟨c.size, c.alloc, src ++ c.data.drop src.length⟩]) i = addrAt st.blocks i :=
          addrAt_splice_one hgc (show (⟨c.size, c.alloc, src ++ c.data.drop src.length⟩ : Blk).size = c.size from rfl) i
        by_cases hii : i = i1
        · subst hii
          have hcb : c = b := by
            rw [hg] at hgc
            exact (Option.some_inj.mp hgc).symm
          refine Or.inr ⟨i, ⟨c.size, c.alloc, src ++ c.data.drop src.length⟩, ?_, ?_, ?_⟩
          · have hgn := get?_splice_one hi1 (⟨c.size, c.alloc, src ++ c.data.drop src.length⟩ : Blk) i
            rw [if_pos rfl] at hgn
            exact hgn
          · show c.alloc = true
            rw [hcb]
            exact hal
          · rw [hp]
            show some (addrAt st.blocks i + 4) = _
            rw [haddr]
        · refine Or.inr ⟨i, b, ?_, hal, ?_⟩
          · have hgn := get?_splice_one hi1 (⟨c.size, c.alloc, src ++ c.data.drop src.length⟩ : Blk) i
            rw [if_neg hii] at hgn
            rw [hgn]
            exact hg
          · rw [hp]
            show some (addrAt st.blocks i + 4) = _
            rw [haddr]

/-- mm_malloc keeps every payload pointer of an allocated block valid. -/
theorem ValidPtr_mallocB {st : AState} (hI : Inv st) {p? : Option Nat}
    (hv : ValidPtr st p?) (s : Nat) : ValidPtr (mm_mallocB st s).1 p? := by
  rcases hv with hv | ⟨i, b, hg, hal, hp⟩
  · exact Or.inl hv
  · have hpos := sizesPos hI.2.1
    have hi := lt_of_get?_eq_some hg
    have hb : blockAt? st.blocks FIRST (addrAt st.blocks i) = some b := by
      rw [blockAt?_addrAt hpos hi]
      exact hg
    have hfr := mallocB_frame hI s hb hal
    obtain ⟨j, hja, hjg⟩ := blockAt?_some_elim hfr
    have haj : addrAt st.blocks i = addrAt (mm_mallocB st s).1.blocks j :=
      addrAt_eq_of_idx hja
    exact Or.inr ⟨j, b, hjg, hal, by rw [hp, haj]⟩

/-- The memcpy of mm_realloc case 6 preserves the invariant provided the
destination block is allocated and large enough for the copied prefix. -/
theorem Inv_copyInto {st : AState} (hI : Inv st) {a : Nat} {src : List Nat}
    (hfit : ∀ i c, idxAt? st.blocks FIRST a = some i → st.blocks.get? i = some c →
      c.alloc = true ∧ src.length + 4 ≤ c.size) :
    Inv (copyInto st a src) := by
  cases hidx : idxAt? st.blocks FIRST a with
  | none =>
    have he : copyInto st a src = st := by
      simp only [copyInto, hidx]
    rw [he]
    exact hI
  | some i =>
    cases hgc : st.blocks.get? i with
    | none =>
      have he : copyInto st a src = st := by
        simp only [copyInto, hidx, hgc]
      rw [he]
      exact hI
    | some c =>
      have he : copyInto st a src = { st with blocks := spliceRun st.blocks i (i + 1) [⟨c.size, c.alloc, src ++ c.data.drop src.length⟩] } := by
        simp only [copyInto, hidx, hgc]
      rw [he]
      obtain ⟨hal, hs4⟩ := hfit i c hidx hgc
      have hIe := Inv_iff_InvExc.mp hI
      obtain ⟨hlen, hsz, hdat, hadj, h5, h6, h7, h8⟩ := hI
      have hi := lt_of_get?_eq_some hgc
      have hcmem : c ∈ st.blocks := by
        rw [← get_eq_of_get? hgc hi]
        exact st.blocks.get_mem _ _
      have hc8 := (hsz c hcmem).1
      have hc16 := (hsz c hcmem).2
      have hcd := hdat c hcmem
      refine Inv_iff_InvExc.mpr (InvExc_splice hIe (by omega) (by omega) ?_
        (List.chain'_singleton _) ?_ ?_ (by simp) (Or.inl ?_) ?_ ?_ ?_ ?_)
      · intro u hu
        rcases List.mem_singleton.mp hu with rfl
        refine ⟨hc8, hc16, ?_⟩
        show (src ++ c.data.drop src.length).length + 4 ≤ c.size
        rw [List.length_append, List.length_drop]
        omega
      · intro x hx y hy
        have hy2 : y = ⟨c.size, c.alloc, src ++ c.data.drop src.length⟩ := by
          have h9 := hy
          simp at h9
          exact h9.symm
        subst hy2
        exact Or.inr hal
      · intro x hx y hy
        have hx2 : x = ⟨c.size, c.alloc, src ++ c.data.drop src.length⟩ := by
          have h9 := hx
          simp at h9
          exact h9.symm
        subst hx2
        exact Or.inl hal
      · have h2 := sizeSum_take_succ hgc
        simp only [sizeSum_cons, sizeSum_nil]
        show sizeSum (st.blocks.take i) + (c.size + 0) = sizeSum (st.blocks.take (i + 1))
        omega
      · intro t ht ht1 ht2 hfr
        have hti : t = i := by omega
        subst hti
        rw [get_eq_of_get? hgc ht, hal] at hfr
        cases hfr
      · intro a2 ha2
        simp at ha2
      · intro t ht hf
        have ht0 : t = 0 := by
          have h9 := ht
          simp at h9
          omega
        subst ht0
        have hf2 : c.alloc = false := hf
        rw [hal] at hf2
        cases hf2
      · intro a2 ha2
        simp at ha2

/-- The mm_realloc case chain preserves the invariant on a live block. -/
theorem Inv_reallocCore {st : AState} (hI : Inv st) {i : Nat} {b : Blk}
    (hget : st.blocks.get? i = some b) (halloc : b.alloc = true) (s : Nat) :
    Inv (reallocCore st (addrAt st.blocks i + 4) i b s).1 := by
  have hIe : InvExc st [] := Inv_iff_InvExc.mp hI
  obtain ⟨hlen, hsz, hdat, hadj, hsnd, hcmp, hnd, hsrt⟩ := hI
  have hpos := sizesPos hsz
  have hilt : i < st.blocks.length := lt_of_get?_eq_some hget
  have hbmem : b ∈ st.blocks := by
    rw [← get_eq_of_get? hget hilt]
    exact st.blocks.get_mem _ _
  have hb8 := (hsz b hbmem).1
  have hb16 := (hsz b hbmem).2
  have hbd := hdat b hbmem
  unfold reallocCore
  split_ifs with h1 h2 h3 h4 h5 h6
  · exact Inv_iff_InvExc.mpr hIe
  · obtain ⟨h2a, h2b⟩ := h2
    obtain ⟨d, hgd, hfd⟩ := nextFreeB_true_elim h2a
    have hdlt : i + 1 < st.blocks.length := lt_of_get?_eq_some hgd
    have hdmem : d ∈ st.blocks := by
      rw [← get_eq_of_get? hgd hdlt]
      exact st.blocks.get_mem _ _
    have hd8 := (hsz d hdmem).1
    have hd16 := (hsz d hdmem).2
    have hskd : sizeK st (i + 1) = d.size := by unfold sizeK; rw [hgd]; rfl
    have hidxd : idxAt? st.blocks FIRST (addrAt st.blocks (i + 1)) = some (i + 1) := by
      rw [addrAt]
      exact idxAt?_addrAt hpos hdlt
    have hr1 : InvExc (removeFromList st (addrAt st.blocks (i + 1))) [addrAt st.blocks (i + 1)] :=
      InvExc_remove hIe hidxd hgd hfd
    have t2 := sizeSum_take_succ hget
    have t3 := sizeSum_take_succ hgd
    refine Inv_iff_InvExc.mpr (InvExc_splice hr1 (by omega) ?_ ?_
      (List.chain'_singleton _) ?_ ?_ (by simp) (Or.inl ?_) ?_ ?_ ?_ ?_)
    · simp only [blocks_removeFromList]
      omega
    · intro u hu
      rcases List.mem_singleton.mp hu with rfl
      refine ⟨?_, ?_, ?_⟩
      · show (b.size + sizeK st (i + 1)) % 8 = 0
        rw [hskd]
        omega
      · show 16 ≤ b.size + sizeK st (i + 1)
        omega
      · show b.data.length + 4 ≤ b.size + sizeK st (i + 1)
        omega
    · intro x hx y hy
      have h9 := hy
      simp at h9
      subst h9
      exact Or.inr rfl
    · intro x hx y hy
      have h9 := hx
      simp at h9
      subst h9
      exact Or.inl rfl
    · simp only [blocks_removeFromList, sizeSum_cons, sizeSum_nil]
      rw [hskd]
      show sizeSum (st.blocks.take i) + (b.size + d.size + 0) =
        sizeSum (st.blocks.take (i + 1 + 1))
      omega
    · simp only [blocks_removeFromList]
      intro t ht ht1 ht2 hfr
      have hcases : t = i ∨ t = i + 1 := by omega
      rcases hcases with rfl | rfl
      · rw [get_eq_of_get? hget ht, halloc] at hfr
        cases hfr
      · simp
    · simp only [blocks_removeFromList]
      intro a2 ha2
      rcases List.mem_singleton.mp ha2 with rfl
      exact ⟨addrAt_le_of_le (by omega), addrAt_lt_of_lt hpos (by omega) hdlt⟩
    · intro t ht hf
      have ht0 : t = 0 := by
        have h9 := ht
        simp at h9
        omega
      subst ht0
      have hf2 : true = false := hf
      cases hf2
    · intro a2 ha2
      simp at ha2
  · obtain ⟨h3a, h3b, h3c, h3d⟩ := h3
    obtain ⟨d, hgd, hfd⟩ := nextFreeB_true_elim h3a
    obtain ⟨k, hpk⟩ := Option.isSome_iff_exists.mp h3b
    obtain ⟨hik, c, hgc, hfc⟩ := prevBlockB_some_elim hpk
    subst hik
    simp only [Nat.add_sub_cancel] at h3c h3d ⊢
    have hdlt : k + 1 + 1 < st.blocks.length := lt_of_get?_eq_some hgd
    have hdmem : d ∈ st.blocks := by
      rw [← get_eq_of_get? hgd hdlt]
      exact st.blocks.get_mem _ _
    have hd8 := (hsz d hdmem).1
    have hd16 := (hsz d hdmem).2
    have hcmem : c ∈ st.blocks := by
      rw [← get_eq_of_get? hgc (by omega)]
      exact st.blocks.get_mem _ _
    have hc8 := (hsz c hcmem).1
    have hc16 := (hsz c hcmem).2
    have hskc : sizeK st k = c.size := by unfold sizeK; rw [hgc]; rfl
    have hskd : sizeK st (k + 1 + 1) = d.size := by unfold sizeK; rw [hgd]; rfl
    have hidxk : idxAt? st.blocks FIRST (addrAt st.blocks k) = some k := by
      rw [addrAt]
      exact idxAt?_addrAt hpos (by omega)
    have hidxd : idxAt? st.blocks FIRST (addrAt st.blocks (k + 1 + 1)) = some (k + 1 + 1) := by
      rw [addrAt]
      exact idxAt?_addrAt hpos hdlt
    have hr1 : InvExc (removeFromList st (addrAt st.blocks k)) [addrAt st.blocks k] :=
      InvExc_remove hIe hidxk hgc hfc
    have hr2 : InvExc (removeFromList (removeFromList st (addrAt st.blocks k)) (addrAt st.blocks (k + 1 + 1))) [addrAt st.blocks (k + 1 + 1), addrAt st.blocks k] :=
      InvExc_remove hr1 hidxd hgd hfd
    have t1 := sizeSum_take_succ hgc
    have t2 := sizeSum_take_succ hget
    have t3 := sizeSum_take_succ hgd
    refine Inv_iff_InvExc.mpr (InvExc_splice hr2 (by omega) ?_ ?_
      (List.chain'_singleton _) ?_ ?_ (by simp) (Or.inl ?_) ?_ ?_ ?_ ?_)
    · simp only [blocks_removeFromList]
      omega
    · intro u hu
      rcases List.mem_singleton.mp hu with rfl
      refine ⟨?_, ?_, ?_⟩
      · show (sizeK st k + b.size + sizeK st (k + 1 + 1)) % 8 = 0
        rw [hskc, hskd]
        omega
      · show 16 ≤ sizeK st k + b.size + sizeK st (k + 1 + 1)
        omega
      · show b.data.length + 4 ≤ sizeK st k + b.size + sizeK st (k + 1 + 1)
        rw [hskc, hskd]
        omega
    · intro x hx y hy
      have h9 := hy
      simp at h9
      subst h9
      exact Or.inr rfl
    · intro x hx y hy
      have h9 := hx
      simp at h9
      subst h9
      exact Or.inl rfl
    · simp only [blocks_removeFromList, sizeSum_cons, sizeSum_nil]
      rw [hskc, hskd]
      show sizeSum (st.blocks.take k) + (c.size + b.size + d.size + 0) =
        sizeSum (st.blocks.take (k + 1 + 1 + 1))
      omega
    · simp only [blocks_removeFromList]
      intro t ht ht1 ht2 hfr
      have hcases : t = k ∨ t = k + 1 ∨ t = k + 1 + 1 := by omega
      rcases hcases with rfl | rfl | rfl
      · simp
      · rw [get_eq_of_get? hget ht, halloc] at hfr
        cases hfr
      · simp
    · simp only [blocks_removeFromList]
      intro a2 ha2
      rcases List.mem_cons.mp ha2 with rfl | ha2
      · exact ⟨addrAt_le_of_le (by omega), addrAt_lt_of_lt hpos (by omega) hdlt⟩
      · rcases List.mem_cons.mp ha2 with rfl | ha2
        · exact ⟨le_refl _, addrAt_lt_of_lt hpos (by omega) (by omega)⟩
        · simp at ha2
    · intro t ht hf
      have ht0 : t = 0 := by
        have h9 := ht
        simp at h9
        omega
      subst ht0
      have hf2 : true = false := hf
      cases hf2
    · intro a2 ha2
      simp at ha2
  · obtain ⟨h4a, h4b, h4c⟩ := h4
    obtain ⟨k, hpk⟩ := Option.isSome_iff_exists.mp h4a
    obtain ⟨hik, c, hgc, hfc⟩ := prevBlockB_some_elim hpk
    subst hik
    simp only [Nat.add_sub_cancel] at h4b h4c ⊢
    have hcmem : c ∈ st.blocks := by
      rw [← get_eq_of_get? hgc (by omega)]
      exact st.blocks.get_mem _ _
    have hc8 := (hsz c hcmem).1
    have hc16 := (hsz c hcmem).2
    have hskc : sizeK st k = c.size := by unfold sizeK; rw [hgc]; rfl
    have hidxk : idxAt? st.blocks FIRST (addrAt st.blocks k) = some k := by
      rw [addrAt]
      exact idxAt?_addrAt hpos (by omega)
    have hr1 : InvExc (removeFromList st (addrAt st.blocks k)) [addrAt st.blocks k] :=
      InvExc_remove hIe hidxk hgc hfc
    have t1 := sizeSum_take_succ hgc
    have t2 := sizeSum_take_succ hget
    refine Inv_iff_InvExc.mpr (InvExc_splice hr1 (by omega) ?_ ?_
      (List.chain'_singleton _) ?_ ?_ (by simp) (Or.inl ?_) ?_ ?_ ?_ ?_)
    · simp only [blocks_removeFromList]
      omega
    · intro u hu
      rcases List.mem_singleton.mp hu with rfl
      refine ⟨?_, ?_, ?_⟩
      · show (sizeK st k + b.size) % 8 = 0
        rw [hskc]
        omega
      · show 16 ≤ sizeK st k + b.size
        omega
      · show b.data.length + 4 ≤ sizeK st k + b.size
        rw [hskc]
        omega
    · intro x hx y hy
      have h9 := hy
      simp at h9
      subst h9
      exact Or.inr rfl
    · intro x hx y hy
      have h9 := hx
      simp at h9
      subst h9
      exact Or.inl rfl
    · simp only [blocks_removeFromList, sizeSum_cons, sizeSum_nil]
      rw [hskc]
      show sizeSum (st.blocks.take k) + (c.size + b.size + 0) =
        sizeSum (st.blocks.take (k + 1 + 1))
      omega
    · simp only [blocks_removeFromList]
      intro t ht ht1 ht2 hfr
      have hcases : t = k ∨ t = k + 1 := by omega
      rcases hcases with rfl | rfl
      · simp
      · rw [get_eq_of_get? hget ht, halloc] at hfr
        cases hfr
    · simp only [blocks_removeFromList]
      intro a2 ha2
      rcases List.mem_singleton.mp ha2 with rfl
      exact ⟨le_refl _, addrAt_lt_of_lt hpos (by omega) (by omega)⟩
    · intro t ht hf
      have ht0 : t = 0 := by
        have h9 := ht
        simp at h9
        omega
      subst ht0
      have hf2 : true = false := hf
      cases hf2
    · intro a2 ha2
      simp at ha2
  · have hnone : st.blocks.get? (i + 1) = none := Option.isNone_iff_eq_none.mp h5
    have hilen : i + 1 = st.blocks.length := by
      have h9 := List.get?_eq_none.mp hnone
      omega
    have t2 := sizeSum_take_succ hget
    refine Inv_iff_InvExc.mpr (InvExc_splice hIe (by omega) (by omega) ?_
      (List.chain'_singleton _) ?_ ?_ (by simp) (Or.inr hilen) ?_ ?_ ?_ ?_)
    · intro u hu
      rcases List.mem_singleton.mp hu with rfl
      have hal8 := alignForBlock_mod8 (reallocNS s - b.size)
      have hal16 := alignForBlock_ge16 (reallocNS s - b.size)
      refine ⟨?_, ?_, ?_⟩
      · show (b.size + alignForBlock (reallocNS s - b.size)) % 8 = 0
        omega
      · show 16 ≤ b.size + alignForBlock (reallocNS s - b.size)
        omega
      · show b.data.length + 4 ≤ b.size + alignForBlock (reallocNS s - b.size)
        omega
    · intro x hx y hy
      have h9 := hy
      simp at h9
      subst h9
      exact Or.inr rfl
    · intro x hx y hy
      have h9 := hx
      simp at h9
      subst h9
      exact Or.inl rfl
    · intro t ht ht1 ht2 hfr
      have hti : t = i := by omega
      subst hti
      rw [get_eq_of_get? hget ht, halloc] at hfr
      cases hfr
    · intro a2 ha2
      simp at ha2
    · intro t ht hf
      have ht0 : t = 0 := by
        have h9 := ht
        simp at h9
        omega
      subst ht0
      have hf2 : true = false := hf
      cases hf2
    · intro a2 ha2
      simp at ha2
  · exact Inv_iff_InvExc.mpr hIe
  · cases hm : mm_mallocB st (reallocNS s) with
    | mk st1 qopt =>
      cases qopt with
      | none =>
        show Inv st1
        have h9 := Inv_mallocB (Inv_iff_InvExc.mpr hIe) (reallocNS s)
        rw [hm] at h9
        exact h9
      | some q =>
        show Inv (mm_freeB (copyInto st1 (q - 4) (b.data.take (b.size - 4))) (some (addrAt st.blocks i + 4)))
        have hI1 : Inv st1 := by
          have h9 := Inv_mallocB (Inv_iff_InvExc.mpr hIe) (reallocNS s)
          rw [hm] at h9
          exact h9
        have hq2 : (mm_mallocB st (reallocNS s)).2 = some q := by rw [hm]
        obtain ⟨j, c, hjg, hcal, hcsz, hq⟩ := mallocB_result (Inv_iff_InvExc.mpr hIe) hq2
        rw [hm] at hjg hq
        have hjg2 : st1.blocks.get? j = some c := hjg
        have hq3 : q = addrAt st1.blocks j + 4 := hq
        have hjlt := lt_of_get?_eq_some hjg2
        have hidxq : idxAt? st1.blocks FIRST (q - 4) = some j := by
          have hq4 : q - 4 = addrAt st1.blocks j := by omega
          rw [hq4, addrAt]
          exact idxAt?_addrAt (sizesPos hI1.2.1) hjlt
        have hfit : ∀ i2 c2, idxAt? st1.blocks FIRST (q - 4) = some i2 →
            st1.blocks.get? i2 = some c2 → c2.alloc = true ∧
            (b.data.take (b.size - 4)).length + 4 ≤ c2.size := by
          intro i2 c2 hidx2 hget2
          rw [hidxq] at hidx2
          cases Option.some_inj.mp hidx2
          rw [hjg2] at hget2
          cases Option.some_inj.mp hget2
          refine ⟨hcal, ?_⟩
          rw [List.length_take]
          have hm4 := mallocNS_ge4 (reallocNS s)
          omega
        have hI2 := Inv_copyInto hI1 hfit
        have hv : ValidPtr st (some (addrAt st.blocks i + 4)) :=
          Or.inr ⟨i, b, hget, halloc, rfl⟩
        have hv1 := ValidPtr_mallocB (Inv_iff_InvExc.mpr hIe) hv (reallocNS s)
        rw [hm] at hv1
        have hv1b : ValidPtr st1 (some (addrAt st.blocks i + 4)) := hv1
        have hv2 := ValidPtr_copyInto hv1b (q - 4) (b.data.take (b.size - 4))
        exact Inv_freeB hI2 hv2

/-- mm_realloc preserves the invariant on valid pointers. -/
theorem Inv_reallocB {st : AState} (hI : Inv st) {p? : Option Nat} (hv : ValidPtr st p?)
    (s : Nat) : Inv (mm_reallocB st p? s).1 := by
  rcases hv with hv | ⟨i, b, hg, hal, hp⟩
  · subst hv
    show Inv (mm_mallocB st s).1
    exact Inv_mallocB hI s
  · subst hp
    have hi : i < st.blocks.length := lt_of_get?_eq_some hg
    have hidx : idxAt? st.blocks FIRST (addrAt st.blocks i + 4 - 4) = some i := by
      rw [show addrAt st.blocks i + 4 - 4 = addrAt st.blocks i from by omega, addrAt]
      exact idxAt?_addrAt (sizesPos hI.2.1) hi
    by_cases hs : s = 0
    · subst hs
      show Inv (mm_freeB st (some (addrAt st.blocks i + 4)))
      exact Inv_freeB hI (Or.inr ⟨i, b, hg, hal, rfl⟩)
    · unfold mm_reallocB
      simp only [if_neg hs, hidx, hg]
      exact Inv_reallocCore hI hg hal s

/-- Every heap state reachable by legal calls satisfies the allocator
invariant. -/
theorem inv_reachable {st : AState} (h : Reachable st) : Inv st := by
  induction h with
  | init => decide
  | toggle st b hr ih => exact ih
  | stepMalloc st s hr ih => exact Inv_mallocB ih s
  | stepFree st p? hr hv ih => exact Inv_freeB ih hv
  | stepRealloc st p? s hr hv ih => exact Inv_reallocB ih hv s

/-- A successful mm_malloc never returns a payload pointer of an existing
allocated block: the served block was free (or fresh heap space). -/
theorem mallocB_fresh {st : AState} (hI : Inv st) {s q : Nat}
    (h : (mm_mallocB st s).2 = some q) {a : Nat} {c0 : Blk}
    (hb : blockAt? st.blocks FIRST a = some c0) (hal : c0.alloc = true) : q ≠ a + 4 := by
  have hpos := sizesPos hI.2.1
  by_cases hs : s = 0
  · subst hs
    rw [show (mm_mallocB st 0).2 = none from rfl] at h
    cases h
  · cases hfit : fitScan st (mallocNS s) with
    | some af =>
      obtain ⟨i0, b, hidx, hget, hbfree, hble⟩ := fitScan_free hI hfit
      rw [mallocB_eq_fit hs hfit hidx] at h
      have hq : q = af + 4 := Option.some_inj.mp h.symm
      subst hq
      intro hc
      have haf : af = a := by omega
      subst haf
      have hba : blockAt? st.blocks FIRST af = some b := by
        rw [blockAt?_of_idxAt? hidx]
        exact hget
      rw [hba] at hb
      cases Option.some_inj.mp hb
      rw [hal] at hbfree
      cases hbfree
    | none =>
      cases hok : st.sbrkOk with
      | false =>
        rw [mallocB_eq_fail hs hfit hok] at h
        cases h
      | true =>
        rw [mallocB_eq_grow hs hfit hok] at h
        have hq : q = heapEnd st.blocks + 4 := Option.some_inj.mp h.symm
        subst hq
        intro hc
        have ha : a = heapEnd st.blocks := by omega
        subst ha
        obtain ⟨j, hja, hjg⟩ := blockAt?_some_elim hb
        obtain ⟨hjlt, hje⟩ := idxAt?_some hja
        have h2 := sizeSum_take_lt hpos hjlt
        unfold heapEnd FIRST at hje
        omega

/-- The block the memcpy writes: same size and flag, the copied prefix in
front of the remaining old bytes. -/
theorem copyInto_at {st : AState} (hpos : ∀ u ∈ st.blocks, 0 < u.size) {a i : Nat} {c : Blk}
    (hidx : idxAt? st.blocks FIRST a = some i) (hgc : st.blocks.get? i = some c)
    (src : List Nat) :
    blockAt? (copyInto st a src).blocks FIRST a =
      some ⟨c.size, c.alloc, src ++ c.data.drop src.length⟩ := by
  have he : copyInto st a src = { st with blocks := spliceRun st.blocks i (i + 1) [⟨c.size, c.alloc, src ++ c.data.drop src.length⟩] } := by
    simp only [copyInto, hidx, hgc]
  rw [he]
  have hilt := lt_of_get?_eq_some hgc
  have hposn : ∀ u ∈ [(⟨c.size, c.alloc, src ++ c.data.drop src.length⟩ : Blk)], 0 < u.size := by
    intro u hu
    rcases List.mem_singleton.mp hu with rfl
    exact hpos c (by rw [← get_eq_of_get? hgc hilt]; exact st.blocks.get_mem _ _)
  have ha : a = addrAt st.blocks i := addrAt_eq_of_idx hidx
  have h0 : blockAt? (spliceRun st.blocks i (i + 1) [(⟨c.size, c.alloc, src ++ c.data.drop src.length⟩ : Blk)]) FIRST (addrAt st.blocks i + sizeSum ([(⟨c.size, c.alloc, src ++ c.data.drop src.length⟩ : Blk)].take 0)) = [(⟨c.size, c.alloc, src ++ c.data.drop src.length⟩ : Blk)].get? 0 :=
    blockAt?_splice_at hpos hposn (by simp)
  simp only [List.take_zero, sizeSum_nil, Nat.add_zero] at h0
  rw [ha]
  exact h0

/-- mm_free leaves every other allocated block untouched: coalescing only
rewrites the freed block and its free neighbors. -/
theorem freeB_frame {st : AState} (hI : Inv st) {i : Nat} {b : Blk}
    (hget : st.blocks.get? i = some b) (halloc : b.alloc = true)
    {a : Nat} {c : Blk} (hb : blockAt? st.blocks FIRST a = some c) (hal : c.alloc = true)
    (hne : a ≠ addrAt st.blocks i) :
    blockAt? (mm_freeB st (some (addrAt st.blocks i + 4))).blocks FIRST a = some c := by
  obtain ⟨hlen, hsz, hdat, hadj, hsnd, hcmp, hnd, hsrt⟩ := hI
  have hpos := sizesPos hsz
  have hilt : i < st.blocks.length := lt_of_get?_eq_some hget
  have hidx : idxAt? st.blocks FIRST (addrAt st.blocks i + 4 - 4) = some i := by
    rw [show addrAt st.blocks i + 4 - 4 = addrAt st.blocks i from by omega, addrAt]
    exact idxAt?_addrAt hpos hilt
  obtain ⟨t, hta, htg⟩ := blockAt?_some_elim hb
  have htlt := lt_of_get?_eq_some htg
  have hat : a = addrAt st.blocks t := addrAt_eq_of_idx hta
  have hti : t ≠ i := by
    intro hc
    subst hc
    exact hne hat
  unfold mm_freeB
  simp only [hidx, hget]
  unfold freeCore
  cases hpb : prevBlockB st i with
  | some k =>
    obtain ⟨hik, cp, hgc, hfc⟩ := prevBlockB_some_elim hpb
    subst hik
    have htk : t ≠ k := by
      intro hc
      subst hc
      rw [htg] at hgc
      cases Option.some_inj.mp hgc
      rw [hal] at hfc
      cases hfc
    have t1 := sizeSum_take_succ hgc
    have t2 := sizeSum_take_succ hget
    cases hnf : nextFreeB st (k + 1) with
    | true =>
      obtain ⟨d, hgd, hfd⟩ := nextFreeB_true_elim hnf
      have hdlt := lt_of_get?_eq_some hgd
      have htd : t ≠ k + 1 + 1 := by
        intro hc
        subst hc
        rw [htg] at hgd
        cases Option.some_inj.mp hgd
        rw [hal] at hfd
        cases hfd
      have t3 := sizeSum_take_succ hgd
      have hskc : sizeK st k = cp.size := by unfold sizeK; rw [hgc]; rfl
      have hskd : sizeK st (k + 1 + 1) = d.size := by unfold sizeK; rw [hgd]; rfl
      simp only [blocks_insertIntoList, blocks_removeFromList]
      rcases Nat.lt_or_ge t k with htlt2 | htge
      · rw [blockAt?_splice_before hpos (by rw [hat]; exact addrAt_lt_of_lt hpos htlt2 htlt)]
        exact hb
      · have htge2 : k + 1 + 1 + 1 ≤ t := by omega
        rw [blockAt?_splice_after hpos ?_ ?_ ?_]
        · exact hb
        · intro u hu
          rcases List.mem_singleton.mp hu with rfl
          show 0 < sizeK st k + b.size + sizeK st (k + 1 + 1)
          have := hpos b (by rw [← get_eq_of_get? hget (by omega)]; exact st.blocks.get_mem _ _)
          omega
        · simp only [sizeSum_cons, sizeSum_nil]
          show sizeSum (st.blocks.take k) + (sizeK st k + b.size + sizeK st (k + 1 + 1) + 0) =
            sizeSum (st.blocks.take (k + 1 + 1 + 1))
          rw [hskc, hskd]
          omega
        · rw [hat]
          exact addrAt_le_of_le htge2
    | false =>
      have hskc : sizeK st k = cp.size := by unfold sizeK; rw [hgc]; rfl
      simp only [blocks_insertIntoList, blocks_removeFromList]
      rcases Nat.lt_or_ge t k with htlt2 | htge
      · rw [blockAt?_splice_before hpos (by rw [hat]; exact addrAt_lt_of_lt hpos htlt2 htlt)]
        exact hb
      · have htge2 : k + 1 + 1 ≤ t := by omega
        rw [blockAt?_splice_after hpos ?_ ?_ ?_]
        · exact hb
        · intro u hu
          rcases List.mem_singleton.mp hu with rfl
          show 0 < sizeK st k + b.size
          have := hpos b (by rw [← get_eq_of_get? hget (by omega)]; exact st.blocks.get_mem _ _)
          omega
        · simp only [sizeSum_cons, sizeSum_nil]
          show sizeSum (st.blocks.take k) + (sizeK st k + b.size + 0) =
            sizeSum (st.blocks.take (k + 1 + 1))
          rw [hskc]
          omega
        · rw [hat]
          exact addrAt_le_of_le htge2
  | none =>
    have t2 := sizeSum_take_succ hget
    cases hnf : nextFreeB st i with
    | true =>
      obtain ⟨d, hgd, hfd⟩ := nextFreeB_true_elim hnf
      have hdlt := lt_of_get?_eq_some hgd
      have htd : t ≠ i + 1 := by
        intro hc
        subst hc
        rw [htg] at hgd
        cases Option.some_inj.mp hgd
        rw [hal] at hfd
        cases hfd
      have t3 := sizeSum_take_succ hgd
      have hskd : sizeK st (i + 1) = d.size := by unfold sizeK; rw [hgd]; rfl
      simp only [blocks_insertIntoList, blocks_removeFromList]
      rcases Nat.lt_or_ge t i with htlt2 | htge
      · rw [blockAt?_splice_before hpos (by rw [hat]; exact addrAt_lt_of_lt hpos htlt2 htlt)]
        exact hb
      · have htge2 : i + 1 + 1 ≤ t := by omega
        rw [blockAt?_splice_after hpos ?_ ?_ ?_]
        · exact hb
        · intro u hu
          rcases List.mem_singleton.mp hu with rfl
          show 0 < b.size + sizeK st (i + 1)
          have := hpos b (by rw [← get_eq_of_get? hget hilt]; exact st.blocks.get_mem _ _)
          omega
        · simp only [sizeSum_cons, sizeSum_nil]
          show sizeSum (st.blocks.take i) + (b.size + sizeK st (i + 1) + 0) =
            sizeSum (st.blocks.take (i + 1 + 1))
          rw [hskd]
          omega
        · rw [hat]
          exact addrAt_le_of_le htge2
    | false =>
      simp only [blocks_insertIntoList]
      rcases Nat.lt_or_ge t i with htlt2 | htge
      · rw [blockAt?_splice_before hpos (by rw [hat]; exact addrAt_lt_of_lt hpos htlt2 htlt)]
        exact hb
      · have htge2 : i + 1 ≤ t := by omega
        rw [blockAt?_splice_after hpos ?_ ?_ ?_]
        · exact hb
        · intro u hu
          rcases List.mem_singleton.mp hu with rfl
          show 0 < b.size
          have := hpos b (by rw [← get_eq_of_get? hget hilt]; exact st.blocks.get_mem _ _)
          omega
        · simp only [sizeSum_cons, sizeSum_nil]
          show sizeSum (st.blocks.take i) + (b.size + 0) = sizeSum (st.blocks.take (i + 1))
          omega
        · rw [hat]
          exact addrAt_le_of_le htge2

/-! ## Best-fit analysis (claims C1, C9) -/

/-- Every free block of sufficient size is listed in a bucket the best-fit
scan visits: its home bucket index is at least the starting index. -/
theorem free_mem_flatten {st : AState} (hI : Inv st) {ns a : Nat}
    (hfree : freeAt st.blocks a = true) (hsuf : ns ≤ sizeAt st.blocks a) :
    a ∈ (st.dir.drop (searchIdx ns - 1)).flatten := by
  obtain ⟨hlen, hsz, hdat, hadj, hsnd, hcmp, hnd, hsrt⟩ := hI
  obtain ⟨i, b, hidx, hget, hbf⟩ := freeAt_eq_true.mp hfree
  have hilt := lt_of_get?_eq_some hget
  have hmem := hcmp i hilt (by rw [get_eq_of_get? hget hilt]; exact hbf)
  rw [get_eq_of_get? hget hilt] at hmem
  have hsa : sizeAt st.blocks a = b.size := sizeAt_of_idx hidx hget
  have hea : a = addrAt st.blocks i := addrAt_eq_of_idx hidx
  rw [← hea] at hmem
  have hmono : searchIdx ns ≤ searchIdx b.size := searchIdx_mono (by omega)
  have hpos1 := searchIdx_pos ns
  exact bucket_mem_flatten hlen (by omega) (homeLt32 _) hmem

/-- The flattened tail of the directory is in ascending block-size order:
buckets are sorted and later buckets hold strictly larger sizes. -/
theorem flatten_sorted {st : AState} (hI : Inv st) (m : Nat) :
    ((st.dir.drop m).flatten).Pairwise
      fun a1 a2 => sizeAt st.blocks a1 ≤ sizeAt st.blocks a2 := by
  obtain ⟨hlen, hsz, hdat, hadj, hsnd, hcmp, hnd, hsrt⟩ := hI
  rw [List.pairwise_flatten]
  constructor
  · intro L hL
    rcases List.get_of_mem hL with ⟨⟨n, hn⟩, hLeq⟩
    have hn0 := hn
    simp only [List.length_drop, hlen] at hn0
    have hmn : m + n < st.dir.length := by omega
    have hLb : L = bucket st (m + n) := by
      rw [bucket_eq_get hmn, ← hLeq]
      simp only [List.get_eq_getElem, List.getElem_drop]
    rw [hLb]
    exact hsrt (m + n) (by omega)
  · rw [List.pairwise_iff_getElem]
    intro t1 t2 ht1 ht2 hlt x hx y hy
    have ht10 := ht1
    have ht20 := ht2
    simp only [List.length_drop, hlen] at ht10 ht20
    have hmt1 : m + t1 < st.dir.length := by omega
    have hmt2 : m + t2 < st.dir.length := by omega
    have he1 : (st.dir.drop m)[t1] = bucket st (m + t1) := by
      rw [bucket_eq_get hmt1]
      simp only [List.get_eq_getElem, List.getElem_drop]
    have he2 : (st.dir.drop m)[t2] = bucket st (m + t2) := by
      rw [bucket_eq_get hmt2]
      simp only [List.get_eq_getElem, List.getElem_drop]
    rw [he1] at hx
    rw [he2] at hy
    have hx2 := (hsnd (m + t1) (by omega) x hx).2
    have hy2 := (hsnd (m + t2) (by omega) y hy).2
    have hlt2 : searchIdx (sizeAt st.blocks x) < searchIdx (sizeAt st.blocks y) := by omega
    exact le_of_lt (lt_of_searchIdx_lt hlt2)

/-- On a size-sorted list, the first entry of sufficient size is minimal
among all entries of sufficient size. -/
theorem find?_sorted_min {l : List Nat} {f : Nat → Nat}
    (hsort : l.Pairwise fun x y => f x ≤ f y) {ns a : Nat}
    (h : l.find? (fun x => decide (ns ≤ f x)) = some a) :
    ∀ x ∈ l, ns ≤ f x → f a ≤ f x := by
  induction l with
  | nil => cases h
  | cons b l ih =>
    by_cases hPb : ns ≤ f b
    · rw [List.find?_cons_of_pos _ (by simpa using hPb)] at h
      cases Option.some_inj.mp h
      intro x hx hxs
      rcases List.mem_cons.mp hx with rfl | hx
      · exact le_refl _
      · exact (List.pairwise_cons.mp hsort).1 x hx
    · rw [List.find?_cons_of_neg _ (by simpa using hPb)] at h
      intro x hx hxs
      rcases List.mem_cons.mp hx with rfl | hx
      · exact absurd hxs hPb
      · exact ih (List.pairwise_cons.mp hsort).2 h x hx hxs

/-- C1.  For a fixed free-list state satisfying the allocator invariant,
the best-fit scan of mm_malloc returns a free block of minimal size among
all free blocks (in any bucket) whose size reaches the aligned block size;
when no bucket holds a fit, mm_malloc grows the heap by
max(newsize, MALLOCBUF) and serves the request from the new region at the
old heap end. -/
theorem C1_best_fit {st : AState} (hI : Inv st) (s : Nat) (hs : s ≠ 0) :
    (∀ a, fitScan st (mallocNS s) = some a →
      freeAt st.blocks a = true ∧ mallocNS s ≤ sizeAt st.blocks a ∧
      ∀ a2, freeAt st.blocks a2 = true → mallocNS s ≤ sizeAt st.blocks a2 →
        sizeAt st.blocks a ≤ sizeAt st.blocks a2) ∧
    (fitScan st (mallocNS s) = none → st.sbrkOk = true →
      (mm_mallocB st s).2 = some (heapEnd st.blocks + 4) ∧
      heapEnd (mm_mallocB st s).1.blocks = heapEnd st.blocks + max (mallocNS s) 4096) := by
  constructor
  · intro a hfit
    obtain ⟨i0, b, hidx, hget, hbf, hble⟩ := fitScan_free hI hfit
    have hfa : freeAt st.blocks a = true := freeAt_eq_true.mpr ⟨i0, b, hidx, hget, hbf⟩
    have hsa : sizeAt st.blocks a = b.size := sizeAt_of_idx hidx hget
    refine ⟨hfa, by omega, ?_⟩
    intro a2 hf2 hs2
    have hmem2 := free_mem_flatten hI hf2 hs2
    have hsorted := flatten_sorted hI (searchIdx (mallocNS s) - 1)
    exact find?_sorted_min hsorted hfit a2 hmem2 hs2
  · intro hfit hok
    rw [mallocB_eq_grow hs hfit hok]
    refine ⟨rfl, ?_⟩
    have hgL : ({ st with blocks := st.blocks ++ [mkFree (max (mallocNS s) 4096)] } : AState).blocks.get? st.blocks.length = some (mkFree (max (mallocNS s) 4096)) :=
      List.get?_concat_length _ _
    rw [splitBlock_eq_some hgL]
    have hmk : (mkFree (max (mallocNS s) 4096)).size = max (mallocNS s) 4096 := rfl
    have hle := le_max_left (mallocNS s) 4096
    split
    · rename_i hcut
      have hcut2 : mallocNS s + 8 < max (mallocNS s) 4096 := by
        rw [hmk] at hcut
        exact hcut
      simp only [blocks_insertIntoList]
      show heapEnd (spliceRun (st.blocks ++ [mkFree (max (mallocNS s) 4096)]) st.blocks.length (st.blocks.length + 1) [⟨mallocNS s, true, (mkFree (max (mallocNS s) 4096)).data.take (mallocNS s - 4)⟩, mkFree ((mkFree (max (mallocNS s) 4096)).size - mallocNS s)]) = heapEnd st.blocks + max (mallocNS s) 4096
      rw [spliceRun_append_overwrite]
      unfold spliceRun heapEnd
      rw [List.take_length, List.drop_length, sizeSum_append, sizeSum_append]
      simp only [sizeSum_cons, sizeSum_nil]
      have hmk2 : (mkFree ((mkFree (max (mallocNS s) 4096)).size - mallocNS s)).size =
          max (mallocNS s) 4096 - mallocNS s := by
        rw [hmk]
        rfl
      show FIRST + (sizeSum st.blocks + (mallocNS s + ((mkFree ((mkFree (max (mallocNS s) 4096)).size - mallocNS s)).size + 0) + 0)) = FIRST + sizeSum st.blocks + max (mallocNS s) 4096
      rw [hmk2]
      omega
    · show heapEnd (spliceRun (st.blocks ++ [mkFree (max (mallocNS s) 4096)]) st.blocks.length (st.blocks.length + 1) [⟨(mkFree (max (mallocNS s) 4096)).size, true, (mkFree (max (mallocNS s) 4096)).data⟩]) = heapEnd st.blocks + max (mallocNS s) 4096
      rw [spliceRun_append_overwrite]
      unfold spliceRun heapEnd
      rw [List.take_length, List.drop_length, sizeSum_append, sizeSum_append]
      simp only [sizeSum_cons, sizeSum_nil]
      show FIRST + (sizeSum st.blocks + ((mkFree (max (mallocNS s) 4096)).size + 0 + 0)) = FIRST + sizeSum st.blocks + max (mallocNS s) 4096
      rw [hmk]
      omega

/-- C9.  The bucket-selection function search_free_list is monotone in the
block size, and consequently the ascending bucket scan of mm_malloc is
exhaustive: every sufficiently large free block lives in the flattened
tail of the directory the scan walks, never in an earlier bucket. -/
theorem C9_search_monotone_exhaustive {s1 s2 : Nat} (h12 : s1 ≤ s2) {st : AState}
    (hI : Inv st) {ns a : Nat} (hfree : freeAt st.blocks a = true)
    (hsuf : ns ≤ sizeAt st.blocks a) :
    searchIdx s1 ≤ searchIdx s2 ∧ a ∈ (st.dir.drop (searchIdx ns - 1)).flatten :=
  ⟨searchIdx_mono h12, free_mem_flatten hI hfree hsuf⟩

/-- C7.  mm_realloc degenerates exactly: a null pointer behaves as
mm_malloc (same state and result), and a zero size behaves as mm_free and
returns null. -/
theorem C7_degenerate (st : AState) (s : Nat) (p : Nat) :
    mm_reallocB st none s = mm_mallocB st s ∧
    mm_reallocB st (some p) 0 = (mm_freeB st (some p), none) :=
  ⟨rfl, rfl⟩

/-- C8.  Failure is propagated without partial mutation: a null result
from mm_malloc or mm_realloc leaves the state untouched, and in
particular a failing mem_sbrk (sbrkOk = false) with no free fit makes
mm_malloc return null with the state unchanged. -/
theorem C8_exhaustion (st : AState) (s : Nat) (hs : s ≠ 0) (p? : Option Nat) :
    ((mm_mallocB st s).2 = none → (mm_mallocB st s).1 = st) ∧
    ((mm_reallocB st p? s).2 = none → (mm_reallocB st p? s).1 = st) ∧
    (st.sbrkOk = false → fitScan st (mallocNS s) = none → mm_mallocB st s = (st, none)) := by
  refine ⟨mallocB_none st s, ?_, fun hok hfit => mallocB_eq_fail hs hfit hok⟩
  intro h
  cases p? with
  | none =>
    show (mm_mallocB st s).1 = st
    exact mallocB_none st s h
  | some p =>
    unfold mm_reallocB at h ⊢
    simp only [if_neg hs] at h ⊢
    cases hidx : idxAt? st.blocks FIRST (p - 4) with
    | none => simp only [hidx]
    | some i =>
      simp only [hidx] at h ⊢
      cases hg : st.blocks.get? i with
      | none => simp only [hg]
      | some b =>
        simp only [hg] at h ⊢
        unfold reallocCore at h ⊢
        split_ifs at h ⊢ with h1 h2 h3 h4 h5 h6
        · rfl
        · cases hm : mm_mallocB st (reallocNS s) with
          | mk st1 qopt =>
            cases qopt with
            | none =>
              show st1 = st
              have h9 : (mm_mallocB st (reallocNS s)).2 = none := by rw [hm]
              have h10 := mallocB_none st (reallocNS s) h9
              rw [hm] at h10
              exact h10
            | some q =>
              rw [hm] at h
              have h9 : some q = none := h
              cases h9

/-- C10.  Every non-null pointer mm_malloc or mm_realloc returns on a
reachable heap is 8-byte aligned: block addresses are congruent to 4
modulo 8 (FIRST = 260 plus multiples of 8) and payloads sit 4 bytes in. -/
theorem C10_alignment {st : AState} (h : Reachable st) (s : Nat) {q : Nat} :
    ((mm_mallocB st s).2 = some q → q % 8 = 0) ∧
    (∀ p?, ValidPtr st p? → (mm_reallocB st p? s).2 = some q → q % 8 = 0) := by
  have hI := inv_reachable h
  constructor
  · intro hq
    obtain ⟨j, c, hjg, hcal, hcsz, hqe⟩ := mallocB_result hI hq
    have hsz1 : sizesOK (mm_mallocB st s).1.blocks := (Inv_mallocB hI s).2.1
    have hm8 := addrAt_mod8 hsz1 j
    omega
  · intro p? hv hq
    rcases hv with hv | ⟨i, b, hg, hal, hp⟩
    · subst hv
      have hq2 : (mm_mallocB st s).2 = some q := hq
      obtain ⟨j, c, hjg, hcal, hcsz, hqe⟩ := mallocB_result hI hq2
      have hsz1 : sizesOK (mm_mallocB st s).1.blocks := (Inv_mallocB hI s).2.1
      have hm8 := addrAt_mod8 hsz1 j
      omega
    · subst hp
      by_cases hs0 : s = 0
      · subst hs0
        have hq2 : (none : Option Nat) = some q := hq
        cases hq2
      · have hi := lt_of_get?_eq_some hg
        have hidx : idxAt? st.blocks FIRST (addrAt st.blocks i + 4 - 4) = some i := by
          rw [show addrAt st.blocks i + 4 - 4 = addrAt st.blocks i from by omega, addrAt]
          exact idxAt?_addrAt (sizesPos hI.2.1) hi
        have hm8 := addrAt_mod8 hI.2.1 i
        have hm8p := addrAt_mod8 hI.2.1 (i - 1)
        unfold mm_reallocB at hq
        simp only [if_neg hs0, hidx, hg] at hq
        unfold reallocCore at hq
        split_ifs at hq with h1 h2 h3 h4 h5 h6
        · have h9 : some (addrAt st.blocks i + 4) = some q := hq
          cases Option.some_inj.mp h9
          omega
        · have h9 : some (addrAt st.blocks i + 4) = some q := hq
          cases Option.some_inj.mp h9
          omega
        · have h9 : some (addrAt st.blocks (i - 1) + 4) = some q := hq
          cases Option.some_inj.mp h9
          omega
        · have h9 : some (addrAt st.blocks (i - 1) + 4) = some q := hq
          cases Option.some_inj.mp h9
          omega
        · have h9 : some (addrAt st.blocks i + 4) = some q := hq
          cases Option.some_inj.mp h9
          omega
        · cases hm : mm_mallocB st (reallocNS s) with
          | mk st1 qopt =>
            rw [hm] at hq
            cases qopt with
            | none =>
              have h9 : (none : Option Nat) = some q := hq
              cases h9
            | some q2 =>
              have h9 : some q2 = some q := hq
              have hqq : q2 = q := Option.some_inj.mp h9
              have hq3 : (mm_mallocB st (reallocNS s)).2 = some q2 := by rw [hm]
              obtain ⟨j, c, hjg, hcal, hcsz, hqe⟩ := mallocB_result hI hq3
              have hsz1 : sizesOK (mm_mallocB st (reallocNS s)).1.blocks :=
                (Inv_mallocB hI (reallocNS s)).2.1
              have hm82 := addrAt_mod8 hsz1 j
              omega

/-- C4.  The word-level prev_block returns a free predecessor exactly when
the six plausibility tests all pass and the confirmatory scan of the
bucket computed from the candidate size finds the computed header address;
in every other case it returns none, and the returned header is always the
address the footer size dictates. -/
theorem C4_prev_block_characterization (m : Int → Int) (firstA headA blk : Int)
    (fuel : Nat) (h : Int) :
    prevBlockW m firstA headA blk fuel = some h ↔
      (h = blk - bsizeW m (blk - 4) ∧ prevChecksW m firstA blk ∧
        scanListW m h fuel (nextFreeW m (searchHeadW headA (bsizeW m (blk - 4)))) = true) := by
  unfold prevBlockW prevChecksW
  simp only []
  split_ifs with h1 h2 h3 h4 h5 h6 h7
  · constructor
    · intro he
      cases he
    · rintro ⟨hh, ⟨hc1, hc2, hc3, hc4, hc5, hc6⟩, hscan⟩
      rw [h1] at hc1
      cases hc1
  · constructor
    · intro he
      cases he
    · rintro ⟨hh, ⟨hc1, hc2, hc3, hc4, hc5, hc6⟩, hscan⟩
      omega
  · constructor
    · intro he
      cases he
    · rintro ⟨hh, ⟨hc1, hc2, hc3, hc4, hc5, hc6⟩, hscan⟩
      omega
  · constructor
    · intro he
      cases he
    · rintro ⟨hh, ⟨hc1, hc2, hc3, hc4, hc5, hc6⟩, hscan⟩
      omega
  · constructor
    · intro he
      cases he
    · rintro ⟨hh, ⟨hc1, hc2, hc3, hc4, hc5, hc6⟩, hscan⟩
      exact h5 hc5
  · constructor
    · intro he
      cases he
    · rintro ⟨hh, ⟨hc1, hc2, hc3, hc4, hc5, hc6⟩, hscan⟩
      rw [h6] at hc6
      cases hc6
  · constructor
    · intro he
      cases Option.some_inj.mp he
      refine ⟨rfl, ⟨?_, by omega, by omega, by omega, by omega, ?_⟩, h7⟩
      · simp only [Bool.not_eq_true] at h1
        exact h1
      · simp only [Bool.not_eq_true] at h6
        exact h6
    · rintro ⟨hh, hc, hscan⟩
      rw [hh]
  · constructor
    · intro he
      cases he
    · rintro ⟨hh, ⟨hc1, hc2, hc3, hc4, hc5, hc6⟩, hscan⟩
      subst hh
      exact h7 hscan

/-- C5 (amended).  mm_realloc leaves the block in place exactly when the
re-rounded aligned request plus header room fits the current block size:
the in-place test of mm_realloc line 250 is ALIGN_FOR_BLOCK(rounded size)
+ HEADER_SIZE <= BLOCK_SIZE(ptr), a comparison against the re-rounded
request, not against the raw requested byte count. -/
theorem C5_shrink_in_place {st : AState} (hpos : ∀ u ∈ st.blocks, 0 < u.size)
    {i : Nat} {b : Blk} (hget : st.blocks.get? i = some b) {s : Nat} (hs0 : s ≠ 0)
    (hfits : reallocNS s + 4 ≤ b.size) :
    mm_reallocB st (some (addrAt st.blocks i + 4)) s =
      (st, some (addrAt st.blocks i + 4)) := by
  have hi := lt_of_get?_eq_some hget
  have hidx : idxAt? st.blocks FIRST (addrAt st.blocks i + 4 - 4) = some i := by
    rw [show addrAt st.blocks i + 4 - 4 = addrAt st.blocks i from by omega, addrAt]
    exact idxAt?_addrAt hpos hi
  unfold mm_reallocB
  simp only [if_neg hs0, hidx, hget]
  unfold reallocCore
  rw [if_pos hfits]

/-- C5 counterexample: after two 1-byte allocations the block at 260 has
payload capacity 12 bytes, yet reallocating it to 12 bytes (no larger than
its capacity) relocates the block: the request re-rounds to block size 24,
which no longer fits, and the returned pointer 296 differs from 264. -/
theorem C5_shrink_counterexample :
    sizeAt (mm_mallocB (mm_mallocB initState 1).1 1).1.blocks 260 - 4 = 12 ∧
    (mm_reallocB (mm_mallocB (mm_mallocB initState 1).1 1).1 (some 264) 12).2 =
      some 296 := by
  decide

/-- C6 (amended).  Reallocating the heap's current last block (when neither
the in-place test nor predecessor absorption applies) extends the heap by
ALIGN_FOR_BLOCK(newsize1 - oldsize) - the shortfall rounded up with header
room, not exactly the shortfall - grows the header in place, keeps the
payload bytes, and returns the original pointer. -/
theorem C6_extend_at_end {st : AState} (hpos : ∀ u ∈ st.blocks, 0 < u.size)
    {i : Nat} {b : Blk} (hget : st.blocks.get? i = some b)
    (hlast : st.blocks.get? (i + 1) = none) (hok : st.sbrkOk = true) {s : Nat}
    (hs0 : s ≠ 0) (h1 : ¬(reallocNS s + 4 ≤ b.size))
    (h4 : ¬((prevBlockB st i).isSome = true ∧ 256 < sizeK st (i - 1) ∧
      reallocNS s ≤ sizeK st (i - 1) + b.size)) :
    mm_reallocB st (some (addrAt st.blocks i + 4)) s =
      ({ st with blocks := spliceRun st.blocks i (i + 1) [⟨b.size + alignForBlock (reallocNS s - b.size), true, b.data⟩] }, some (addrAt st.blocks i + 4)) := by
  have hi := lt_of_get?_eq_some hget
  have hidx : idxAt? st.blocks FIRST (addrAt st.blocks i + 4 - 4) = some i := by
    rw [show addrAt st.blocks i + 4 - 4 = addrAt st.blocks i from by omega, addrAt]
    exact idxAt?_addrAt hpos hi
  have hnf : nextFreeB st i = false := by
    unfold nextFreeB
    rw [hlast]
  unfold mm_reallocB
  simp only [if_neg hs0, hidx, hget]
  unfold reallocCore
  rw [if_neg h1, if_neg (by rw [hnf]; simp), if_neg (by rw [hnf]; simp), if_neg h4,
    if_pos (by rw [hlast]; rfl), if_pos hok]

/-- C6 counterexample: with the heap's single block of size 4104 as the
last block, reallocating to 8000 bytes re-rounds to block size 8008 and a
shortfall of 3904, but the heap end moves from 4364 to 8276 - an extension
of 3912 = ALIGN_FOR_BLOCK(3904), not the shortfall itself - while the
pointer is returned unchanged. -/
theorem C6_extend_counterexample :
    (((mm_mallocB initState 3000).1.blocks.get? 1).isNone = true ∧
      (mm_reallocB (mm_mallocB initState 3000).1 (some 264) 8000).2 = some 264) ∧
    heapEnd (mm_reallocB (mm_mallocB initState 3000).1 (some 264) 8000).1.blocks ≠
      heapEnd (mm_mallocB initState 3000).1.blocks +
        (reallocNS 8000 - sizeAt (mm_mallocB initState 3000).1.blocks 260) := by
  decide

/-- C2.  After any mm_free call on a reachable heap returns, a scan of the
whole heap finds no two physically adjacent blocks both free: the
coalescing body restores the eager-coalescing invariant. -/
theorem C2_no_adjacent_free {st : AState} (h : Reachable st) (p? : Option Nat)
    (hv : ValidPtr st p?) : adjOK (mm_freeB st p?).blocks :=
  (Inv_freeB (inv_reachable h) hv).2.2.2.1

/-- C3.  Reallocating a live block whose tracked payload is P, to any size
at least as large, yields (when the result is non-null) a pointer whose
block carries P as the prefix of its payload, whichever of the six growth
strategies fired: in place, absorb successor, absorb predecessor and
successor, absorb predecessor, extend heap at the end, or
allocate-copy-free. -/
theorem C3_realloc_preserves_content {st : AState} (hI : Inv st) {i : Nat} {b : Blk}
    (hget : st.blocks.get? i = some b) (halloc : b.alloc = true) {s : Nat}
    (hL : b.data.length ≤ s) {q : Nat}
    (hres : (mm_reallocB st (some (addrAt st.blocks i + 4)) s).2 = some q) :
    ∃ c, blockAt? (mm_reallocB st (some (addrAt st.blocks i + 4)) s).1.blocks FIRST (q - 4) = some c ∧
      c.data.take b.data.length = b.data := by
  obtain ⟨hlen, hsz, hdat, hadj, hsnd, hcmp, hnd, hsrt⟩ := hI
  have hI0 : Inv st := ⟨hlen, hsz, hdat, hadj, hsnd, hcmp, hnd, hsrt⟩
  have hpos := sizesPos hsz
  have hilt := lt_of_get?_eq_some hget
  have hbmem : b ∈ st.blocks := by
    rw [← get_eq_of_get? hget hilt]
    exact st.blocks.get_mem _ _
  have hb16 := (hsz b hbmem).2
  have hbd := hdat b hbmem
  have hidx : idxAt? st.blocks FIRST (addrAt st.blocks i + 4 - 4) = some i := by
    rw [show addrAt st.blocks i + 4 - 4 = addrAt st.blocks i from by omega, addrAt]
    exact idxAt?_addrAt hpos hilt
  by_cases hs0 : s = 0
  · subst hs0
    have h9 : (none : Option Nat) = some q := hres
    cases h9
  · unfold mm_reallocB at hres ⊢
    simp only [if_neg hs0, hidx, hget] at hres ⊢
    unfold reallocCore at hres ⊢
    split_ifs at hres ⊢ with h1 h2 h3 h4 h5 h6
    · have h9 : some (addrAt st.blocks i + 4) = some q := hres
      have hq : q = addrAt st.blocks i + 4 := (Option.some_inj.mp h9).symm
      subst hq
      refine ⟨b, ?_, by simp⟩
      rw [show addrAt st.blocks i + 4 - 4 = addrAt st.blocks i from by omega]
      rw [blockAt?_addrAt hpos hilt]
      exact hget
    · have h9 : some (addrAt st.blocks i + 4) = some q := hres
      have hq : q = addrAt st.blocks i + 4 := (Option.some_inj.mp h9).symm
      subst hq
      refine ⟨⟨b.size + sizeK st (i + 1), true, b.data⟩, ?_, by simp⟩
      rw [show addrAt st.blocks i + 4 - 4 = addrAt st.blocks i from by omega]
      have hposn : ∀ u ∈ [(⟨b.size + sizeK st (i + 1), true, b.data⟩ : Blk)], 0 < u.size := by
        intro u hu
        rcases List.mem_singleton.mp hu with rfl
        show 0 < b.size + sizeK st (i + 1)
        have := hpos b hbmem
        omega
      have h0 : blockAt? (spliceRun st.blocks i (i + 2) [(⟨b.size + sizeK st (i + 1), true, b.data⟩ : Blk)]) FIRST (addrAt st.blocks i + sizeSum ([(⟨b.size + sizeK st (i + 1), true, b.data⟩ : Blk)].take 0)) = [(⟨b.size + sizeK st (i + 1), true, b.data⟩ : Blk)].get? 0 :=
        blockAt?_splice_at hpos hposn (by simp)
      simp only [List.take_zero, sizeSum_nil, Nat.add_zero] at h0
      simpa using h0
    · obtain ⟨h3a, h3b, h3c, h3d⟩ := h3
      obtain ⟨k, hpk⟩ := Option.isSome_iff_exists.mp h3b
      obtain ⟨hik, cp, hgc, hfc⟩ := prevBlockB_some_elim hpk
      subst hik
      simp only [Nat.add_sub_cancel] at hres ⊢
      have h9 : some (addrAt st.blocks k + 4) = some q := hres
      have hq : q = addrAt st.blocks k + 4 := (Option.some_inj.mp h9).symm
      subst hq
      refine ⟨⟨sizeK st k + b.size + sizeK st (k + 1 + 1), true, b.data⟩, ?_, by simp⟩
      rw [show addrAt st.blocks k + 4 - 4 = addrAt st.blocks k from by omega]
      have hposn : ∀ u ∈ [(⟨sizeK st k + b.size + sizeK st (k + 1 + 1), true, b.data⟩ : Blk)], 0 < u.size := by
        intro u hu
        rcases List.mem_singleton.mp hu with rfl
        show 0 < sizeK st k + b.size + sizeK st (k + 1 + 1)
        have := hpos b hbmem
        omega
      have h0 : blockAt? (spliceRun st.blocks k (k + 1 + 2) [(⟨sizeK st k + b.size + sizeK st (k + 1 + 1), true, b.data⟩ : Blk)]) FIRST (addrAt st.blocks k + sizeSum ([(⟨sizeK st k + b.size + sizeK st (k + 1 + 1), true, b.data⟩ : Blk)].take 0)) = [(⟨sizeK st k + b.size + sizeK st (k + 1 + 1), true, b.data⟩ : Blk)].get? 0 :=
        blockAt?_splice_at hpos hposn (by simp)
      simp only [List.take_zero, sizeSum_nil, Nat.add_zero] at h0
      simpa using h0
    · obtain ⟨h4a, h4b, h4c⟩ := h4
      obtain ⟨k, hpk⟩ := Option.isSome_iff_exists.mp h4a
      obtain ⟨hik, cp, hgc, hfc⟩ := prevBlockB_some_elim hpk
      subst hik
      simp only [Nat.add_sub_cancel] at hres ⊢
      have h9 : some (addrAt st.blocks k + 4) = some q := hres
      have hq : q = addrAt st.blocks k + 4 := (Option.some_inj.mp h9).symm
      subst hq
      refine ⟨⟨sizeK st k + b.size, true, b.data⟩, ?_, by simp⟩
      rw [show addrAt st.blocks k + 4 - 4 = addrAt st.blocks k from by omega]
      have hposn : ∀ u ∈ [(⟨sizeK st k + b.size, true, b.data⟩ : Blk)], 0 < u.size := by
        intro u hu
        rcases List.mem_singleton.mp hu with rfl
        show 0 < sizeK st k + b.size
        have := hpos b hbmem
        omega
      have h0 : blockAt? (spliceRun st.blocks k (k + 1 + 1) [(⟨sizeK st k + b.size, true, b.data⟩ : Blk)]) FIRST (addrAt st.blocks k + sizeSum ([(⟨sizeK st k + b.size, true, b.data⟩ : Blk)].take 0)) = [(⟨sizeK st k + b.size, true, b.data⟩ : Blk)].get? 0 :=
        blockAt?_splice_at hpos hposn (by simp)
      simp only [List.take_zero, sizeSum_nil, Nat.add_zero] at h0
      simpa using h0
    · have h9 : some (addrAt st.blocks i + 4) = some q := hres
      have hq : q = addrAt st.blocks i + 4 := (Option.some_inj.mp h9).symm
      subst hq
      refine ⟨⟨b.size + alignForBlock (reallocNS s - b.size), true, b.data⟩, ?_, by simp⟩
      rw [show addrAt st.blocks i + 4 - 4 = addrAt st.blocks i from by omega]
      have hposn : ∀ u ∈ [(⟨b.size + alignForBlock (reallocNS s - b.size), true, b.data⟩ : Blk)], 0 < u.size := by
        intro u hu
        rcases List.mem_singleton.mp hu with rfl
        show 0 < b.size + alignForBlock (reallocNS s - b.size)
        have := hpos b hbmem
        omega
      have h0 : blockAt? (spliceRun st.blocks i (i + 1) [(⟨b.size + alignForBlock (reallocNS s - b.size), true, b.data⟩ : Blk)]) FIRST (addrAt st.blocks i + sizeSum ([(⟨b.size + alignForBlock (reallocNS s - b.size), true, b.data⟩ : Blk)].take 0)) = [(⟨b.size + alignForBlock (reallocNS s - b.size), true, b.data⟩ : Blk)].get? 0 :=
        blockAt?_splice_at hpos hposn (by simp)
      simp only [List.take_zero, sizeSum_nil, Nat.add_zero] at h0
      simpa using h0
    · cases hm : mm_mallocB st (reallocNS s) with
      | mk st1 qopt =>
        cases qopt with
        | none =>
          rw [hm] at hres
          have h9 : (none : Option Nat) = some q := hres
          cases h9
        | some q2 =>
          rw [hm] at hres
          have h9 : some q2 = some q := hres
          have hqq : q = q2 := (Option.some_inj.mp h9).symm
          subst hqq
          have hI1 : Inv st1 := by
            have h10 := Inv_mallocB hI0 (reallocNS s)
            rw [hm] at h10
            exact h10
          have hq3 : (mm_mallocB st (reallocNS s)).2 = some q := by rw [hm]
          obtain ⟨j, c, hjg, hcal, hcsz, hqe⟩ := mallocB_result hI0 hq3
          rw [hm] at hjg hqe
          have hjg2 : st1.blocks.get? j = some c := hjg
          have hqe2 : q = addrAt st1.blocks j + 4 := hqe
          have hjlt := lt_of_get?_eq_some hjg2
          have hidxq : idxAt? st1.blocks FIRST (q - 4) = some j := by
            rw [show q - 4 = addrAt st1.blocks j from by omega, addrAt]
            exact idxAt?_addrAt (sizesPos hI1.2.1) hjlt
          have hsrc : b.data.take (b.size - 4) = b.data := List.take_of_length_le (by omega)
          have hca := copyInto_at (sizesPos hI1.2.1) hidxq hjg2 (b.data.take (b.size - 4))
          have hI2 : Inv (copyInto st1 (q - 4) (b.data.take (b.size - 4))) := by
            refine Inv_copyInto hI1 ?_
            intro i2 c2 hidx2 hget2
            rw [hidxq] at hidx2
            cases Option.some_inj.mp hidx2
            rw [hjg2] at hget2
            cases Option.some_inj.mp hget2
            refine ⟨hcal, ?_⟩
            rw [List.length_take]
            have hm4 := mallocNS_ge4 (reallocNS s)
            omega
          have hvp : ValidPtr st (some (addrAt st.blocks i + 4)) :=
            Or.inr ⟨i, b, hget, halloc, rfl⟩
          have hv1 := ValidPtr_mallocB hI0 hvp (reallocNS s)
          rw [hm] at hv1
          have hv1b : ValidPtr st1 (some (addrAt st.blocks i + 4)) := hv1
          have hv2 := ValidPtr_copyInto hv1b (q - 4) (b.data.take (b.size - 4))
          have hbp : blockAt? st.blocks FIRST (addrAt st.blocks i + 4 - 4) = some b := by
            rw [show addrAt st.blocks i + 4 - 4 = addrAt st.blocks i from by omega]
            rw [blockAt?_addrAt hpos hilt]
            exact hget
          have hfresh := mallocB_fresh hI0 hq3 hbp halloc
          rw [hsrc] at hca hI2 hv2 ⊢
          rcases hv2 with hv2 | ⟨i3, b3, hg3, hal3, hp3⟩
          · cases hv2
          · have hpe : addrAt st.blocks i + 4 = addrAt (copyInto st1 (q - 4) b.data).blocks i3 + 4 :=
              Option.some_inj.mp hp3
            rw [hpe]
            have hne : q - 4 ≠ addrAt (copyInto st1 (q - 4) b.data).blocks i3 := by
              intro hc
              apply hfresh
              omega
            have hframe := freeB_frame hI2 hg3 hal3 hca hcal hne
            refine ⟨⟨c.size, c.alloc, b.data ++ c.data.drop b.data.length⟩, ?_, ?_⟩
            · exact hframe
            · exact List.take_left b.data (c.data.drop b.data.length)

/-! ## Concrete witnesses -/

/-- C1 witness: on the initial heap a 100-byte request rounds to block
size 136 and the best-fit scan returns the free block at address 260. -/
theorem C1_best_fit_witness :
    freeAt initState.blocks 260 = true ∧ mallocNS 100 ≤ sizeAt initState.blocks 260 := by
  have h := (C1_best_fit (show Inv initState by decide) 100 (by decide)).1 260 (by decide)
  exact ⟨h.1, h.2.1⟩

/-- C2 witness: freeing the 100-byte allocation made on the initial heap
leaves no two adjacent free blocks. -/
theorem C2_no_adjacent_free_witness :
    adjOK (mm_freeB (mm_mallocB initState 100).1 (some 264)).blocks :=
  C2_no_adjacent_free (Reachable.stepMalloc initState 100 Reachable.init) (some 264)
    (Or.inr ⟨0, ⟨136, true, []⟩, rfl, rfl, rfl⟩)

/-- C3 witness: a live block tracking payload [7, 9] reallocated to 200
bytes (successor absorption fires) keeps [7, 9] as its payload prefix. -/
theorem C3_realloc_preserves_content_witness :
    ∃ c, blockAt? (mm_reallocB (⟨[⟨136, true, [7, 9]⟩, ⟨3968, false, []⟩], (List.replicate 32 ([] : List Nat)).set 7 [396], true⟩ : AState) (some 264) 200).1.blocks FIRST (264 - 4) = some c ∧ c.data.take 2 = [7, 9] := by
  have h := C3_realloc_preserves_content
    (show Inv (⟨[⟨136, true, [7, 9]⟩, ⟨3968, false, []⟩], (List.replicate 32 ([] : List Nat)).set 7 [396], true⟩ : AState) by decide)
    (show (⟨[⟨136, true, [7, 9]⟩, ⟨3968, false, []⟩], (List.replicate 32 ([] : List Nat)).set 7 [396], true⟩ : AState).blocks.get? 0 = some ⟨136, true, [7, 9]⟩ from rfl)
    rfl (by decide)
    (show (mm_reallocB (⟨[⟨136, true, [7, 9]⟩, ⟨3968, false, []⟩], (List.replicate 32 ([] : List Nat)).set 7 [396], true⟩ : AState) (some (addrAt (⟨[⟨136, true, [7, 9]⟩, ⟨3968, false, []⟩], (List.replicate 32 ([] : List Nat)).set 7 [396], true⟩ : AState).blocks 0 + 4)) 200).2 = some 264 from by decide)
  exact h

/-- C5 witness: the spec instance allocate(200) then reallocate to 10
bytes stays in place, since the rounded block size 24 plus header fits in
the current block size 264. -/
theorem C5_shrink_in_place_witness :
    mm_reallocB (mm_mallocB initState 200).1 (some 264) 10 =
      ((mm_mallocB initState 200).1, some 264) := by
  have h := C5_shrink_in_place
    (show ∀ u ∈ (mm_mallocB initState 200).1.blocks, 0 < u.size by decide)
    (show (mm_mallocB initState 200).1.blocks.get? 0 = some ⟨264, true, []⟩ from rfl)
    (show (10 : Nat) ≠ 0 by decide) (by decide)
  exact h

/-- C6 witness: reallocating the heap's single (hence last) block of size
4104 to 8000 bytes returns the same pointer after the in-place header
growth of the amended statement. -/
theorem C6_extend_at_end_witness :
    (mm_reallocB (mm_mallocB initState 3000).1 (some 264) 8000).2 = some 264 := by
  have h := C6_extend_at_end
    (show ∀ u ∈ (mm_mallocB initState 3000).1.blocks, 0 < u.size by decide)
    (show (mm_mallocB initState 3000).1.blocks.get? 0 = some ⟨4104, true, []⟩ from rfl)
    (show (mm_mallocB initState 3000).1.blocks.get? (0 + 1) = none from rfl)
    rfl (show (8000 : Nat) ≠ 0 by decide) (by decide) (by decide)
  exact congrArg Prod.snd h

/-- C8 witness: with the heap fully allocated and the growth collaborator
failing, a 50-byte request returns null and the state is unchanged. -/
theorem C8_exhaustion_witness :
    mm_mallocB { (mm_mallocB initState 4096).1 with sbrkOk := false } 50 =
      ({ (mm_mallocB initState 4096).1 with sbrkOk := false }, none) :=
  (C8_exhaustion { (mm_mallocB initState 4096).1 with sbrkOk := false } 50 (by decide)
    (some 264)).2.2 rfl (by decide)

/-- C9 witness: searchIdx is monotone between 16 and 4104, and the free
block at 260 (size 4104) lies in the flattened tail the scan for block
size 136 walks. -/
theorem C9_search_monotone_exhaustive_witness :
    searchIdx 16 ≤ searchIdx 4104 ∧ 260 ∈ (initState.dir.drop (searchIdx 136 - 1)).flatten :=
  C9_search_monotone_exhaustive (by decide) (show Inv initState by decide) (by decide)
    (by decide)

/-- C10 witness: the pointer returned for a 100-byte request on the
initial heap, 264, is 8-byte aligned. -/
theorem C10_alignment_witness : 264 % 8 = 0 :=
  (C10_alignment Reachable.init 100).1 (by decide)

end MallocLab